import Mathlib

/-!
Verification of the sanjay-migrator DOM-transformation pipeline.

This file shallowly embeds the four algorithmic stages of the migrator
(`HtmlStyleProcessorService`, `WidgetExtractionService`,
`ComponentExtractionService`, `ReconstructionService`) together with the
`HtmlToJsonService` tree serializer, and proves/refutes the specification
claims about them.

Modelling conventions:
* HTML documents are modelled by the inductive tree `HNode` (element with tag,
  attribute list, children, or a text node); cheerio/JSDOM parse + serialize
  round-trips are taken as the identity on this tree model, which is the
  abstract DOM-library contract the design document states.
* JavaScript strings are modelled by `String`/`List Char`; the JS operations
  used by the source (`includes`, `replace` with a literal-escaped global or
  single pattern, `match`, `split`, `trim`, `padStart`, template literals)
  are embedded as executable functions on `List Char`.  `$`-escape expansion
  in `String.prototype.replace` replacement strings is not modelled: the
  replacement text is inserted verbatim.
* Mutable counters threaded through the source's traversals become explicit
  accumulator arguments.
-/

/-! ### Basic character/string utilities (embeddings of the JS primitives) -/

/-- Left curly brace character. -/
def lbrace : Char := Char.ofNat 123

/-- Right curly brace character. -/
def rbrace : Char := Char.ofNat 125

/-- Double-quote character. -/
def dquote : Char := Char.ofNat 34

/-- JS whitespace class `\s` (ASCII part: space, tab, newline, CR, VT, FF). -/
def isWsB (c : Char) : Bool :=
  c = ' ' || c = '\t' || c = '\n' || c = '\r' || c = Char.ofNat 11 || c = Char.ofNat 12

/-- Embedding of JS `String.prototype.includes` on character lists. -/
def containsL : List Char → List Char → Bool
  | [], pat => pat.isEmpty
  | c :: t, pat => pat.isPrefixOf (c :: t) || containsL t pat

/-- ASCII lower-casing of one character (JS `toLowerCase`, ASCII fragment). -/
def toLowerAscii (c : Char) : Char :=
  if 'A' ≤ c ∧ c ≤ 'Z' then Char.ofNat (c.toNat + 32) else c

/-- ASCII lower-casing of a character list. -/
def toLowerL (s : List Char) : List Char := s.map toLowerAscii

/-- Little-endian decimal digits, fuel-driven so that it reduces inside the
kernel (`digitsAux n n = Nat.digits 10 n`, proved below). -/
def digitsAux : Nat → Nat → List Nat
  | _, 0 => []
  | 0, _ + 1 => []
  | fuel + 1, n + 1 => (n + 1) % 10 :: digitsAux fuel ((n + 1) / 10)

/-- `digitsAux` with enough fuel computes `Nat.digits 10`. -/
theorem digitsAux_eq : ∀ fuel n : Nat, n ≤ fuel → digitsAux fuel n = Nat.digits 10 n
  | _, 0, _ => by simp [digitsAux]
  | 0, n + 1, h => by omega
  | fuel + 1, n + 1, h => by
    have hdiv : (n + 1) / 10 ≤ fuel := by
      have : (n + 1) / 10 < n + 1 := Nat.div_lt_self (Nat.succ_pos n) (by norm_num)
      omega
    rw [digitsAux, digitsAux_eq fuel ((n + 1) / 10) hdiv]
    rw [Nat.digits_def' (by norm_num : (1 : Nat) < 10) (Nat.succ_pos n)]

/-- Decimal representation of a natural number (JS number-to-string coercion). -/
def decimalRepr (n : Nat) : List Char :=
  if n = 0 then ['0'] else ((digitsAux n n).map (fun d => Char.ofNat (48 + d))).reverse

/-- Embedding of JS `String(n).padStart(3, '0')`. -/
def pad3 (s : List Char) : List Char :=
  if s.length ≥ 3 then s else List.replicate (3 - s.length) '0' ++ s

/-! ### StyleApplicator (`HtmlStyleProcessorService.processHtml`), for claim C5 -/

/-- A JSON style value as the style matcher distinguishes them. -/
inductive SVal where
  | str (s : String)
  | num (n : Int)
  | nullv
  | undef
  | objv
deriving DecidableEq

/-- One flattened style entry (`JsonStyleEntry` of the source; `jsonIndex` is
the position in the flattened list and is kept implicit). -/
structure SEntry where
  tag : Option String
  idAttr : Option String
  className : Option String
  html : Option String
  styles : List (String × SVal)
deriving DecidableEq

/-- The raw style-description document (`layoutJson`): a JSON tree of nodes
with optional `tag`/`id`/`className`/`html` fields, an optional `styles`
object and a `children` array; arrays and primitive leaves also occur. -/
inductive SDoc where
  | node (tag : Option String) (idAttr : Option String) (className : Option String)
      (html : Option String) (styles : Option (List (String × SVal))) (children : List SDoc)
  | arr (items : List SDoc)
  | prim

/-- `data.tag && data.tag.toLowerCase() === 'script'` (an empty tag is falsy in
JS, but `"".toLower ≠ "script"` makes the truthiness test redundant). -/
def scriptTag (tag : Option String) : Bool :=
  match tag with
  | some t => toLowerL t.data = "script".data
  | none => false

/-- `data.html && data.html.toLowerCase().includes('<script')`. -/
def scriptHtml (html : Option String) : Bool :=
  match html with
  | some h => containsL (toLowerL h.data) "<script".data
  | none => false

/-- A style node/entry is script-tainted when either check above fires. -/
def tainted (tag html : Option String) : Bool := scriptTag tag || scriptHtml html

mutual

/-- Embedding of `HtmlStyleProcessorService.flattenElements`: depth-first
flattening of the style document.  A node carrying a `styles` object is pushed
unless script-tainted, in which case the node *and its children* are skipped
(the source `return`s before the children loop). -/
def flattenElements : SDoc → List SEntry
  | .prim => []
  | .arr items => flattenList items
  | .node tag idA cls html styles children =>
    match styles with
    | some st =>
      if tainted tag html then []
      else ⟨tag, idA, cls, html, st⟩ :: flattenList children
    | none => flattenList children
termination_by structural d => d

/-- Flattening of a list of style documents, in order. -/
def flattenList : List SDoc → List SEntry
  | [] => []
  | d :: ds => flattenElements d ++ flattenList ds
termination_by structural ds => ds

end

/-- A DOM node: element (tag, attributes in document order, children) or text. -/
inductive HNode where
  | elem (tag : String) (attrs : List (String × String)) (children : List HNode)
  | text (s : String)

mutual

/-- Decidable equality for `HNode` (the derive handler does not support the
nested inductive). -/
def HNode.deq : (a b : HNode) → Decidable (a = b)
  | .text s, .text t =>
    match String.decEq s t with
    | isTrue h => isTrue (by rw [h])
    | isFalse h => isFalse (fun hh => h (by cases hh; rfl))
  | .text _, .elem _ _ _ => isFalse (fun h => HNode.noConfusion h)
  | .elem _ _ _, .text _ => isFalse (fun h => HNode.noConfusion h)
  | .elem t1 a1 c1, .elem t2 a2 c2 =>
    match String.decEq t1 t2 with
    | isFalse h => isFalse (fun hh => h (by cases hh; rfl))
    | isTrue h1 =>
      match (inferInstanceAs (DecidableEq (List (String × String)))) a1 a2 with
      | isFalse h => isFalse (fun hh => h (by cases hh; rfl))
      | isTrue h2 =>
        match HNode.deqList c1 c2 with
        | isTrue h3 => isTrue (by rw [h1, h2, h3])
        | isFalse h => isFalse (fun hh => h (by cases hh; rfl))
termination_by structural a => a

/-- Decidable equality for lists of `HNode`. -/
def HNode.deqList : (a b : List HNode) → Decidable (a = b)
  | [], [] => isTrue rfl
  | [], _ :: _ => isFalse (fun h => List.noConfusion h)
  | _ :: _, [] => isFalse (fun h => List.noConfusion h)
  | x :: xs, y :: ys =>
    match HNode.deq x y with
    | isFalse h => isFalse (fun hh => h (by cases hh; rfl))
    | isTrue h1 =>
      match HNode.deqList xs ys with
      | isTrue h2 => isTrue (by rw [h1, h2])
      | isFalse h => isFalse (fun hh => h (by cases hh; rfl))
termination_by structural a => a

end

instance : DecidableEq HNode := HNode.deq

/-- The tags excluded from the style-matching element sequence. -/
def excludedTags : List String :=
  ["html", "head", "meta", "title", "script", "noscript", "style", "link"]

mutual

/-- Embedding of the `$('*').toArray().filter(...)` element sequence of
`processHtml`: all elements in pre-order, keeping an element iff its tag is
not excluded and it is `body` or inside `body` (`closest('body')`).  Only the
tag is retained, which is all the matching loop's statistics depend on. -/
def qualTags (inBody : Bool) : HNode → List String
  | .text _ => []
  | .elem tag _ children =>
    if tag ∈ excludedTags then qualTagsList (inBody || tag = "body") children
    else if inBody || tag = "body" then
      tag :: qualTagsList (inBody || tag = "body") children
    else qualTagsList (inBody || tag = "body") children
termination_by structural n => n

/-- Qualifying tags of a list of sibling nodes, in order. -/
def qualTagsList (inBody : Bool) : List HNode → List String
  | [] => []
  | n :: ns => qualTags inBody n ++ qualTagsList inBody ns
termination_by structural ns => ns

end

/-- The three diagnostic counters updated by the index-matching loop. -/
structure StyleStats where
  totalMatches : Nat
  skippedScriptElements : Nat
  indexMismatches : Nat
deriving DecidableEq

/-- Embedding of the main `for (htmlIndex ...)` loop of `processHtml`: the
i-th qualifying HTML element is paired with the i-th flattened JSON entry
(pure positional correspondence), so the loop consumes both lists in
lock-step.  A `script` element increments `skippedScriptElements` (its paired
entry is silently consumed — positional indexing still advances); a missing
entry or a script-tainted entry increments `indexMismatches`; otherwise
`totalMatches` increments.  The inline-style mutation itself does not affect
any counter and is not modelled here. -/
def styleLoop : List String → List SEntry → StyleStats
  | [], _ => ⟨0, 0, 0⟩
  | tag :: tags, [] =>
    let r := styleLoop tags []
    if tag = "script" then ⟨r.totalMatches, r.skippedScriptElements + 1, r.indexMismatches⟩
    else ⟨r.totalMatches, r.skippedScriptElements, r.indexMismatches + 1⟩
  | tag :: tags, e :: es =>
    let r := styleLoop tags es
    if tag = "script" then ⟨r.totalMatches, r.skippedScriptElements + 1, r.indexMismatches⟩
    else if tainted e.tag e.html then
      ⟨r.totalMatches, r.skippedScriptElements, r.indexMismatches + 1⟩
    else ⟨r.totalMatches + 1, r.skippedScriptElements, r.indexMismatches⟩

/-- The statistics produced by `HtmlStyleProcessorService.processHtml` on a
parsed document and a style-description document. -/
def processHtmlStats (doc : HNode) (layout : SDoc) : StyleStats :=
  styleLoop (qualTags false doc) (flattenElements layout)

mutual

/-- Entries surviving `flattenElements` are never script-tainted: the flatten
step drops exactly the entries the loop's in-loop taint re-check would flag. -/
theorem flatten_untainted : ∀ d : SDoc, ∀ e ∈ flattenElements d, tainted e.tag e.html = false
  | .prim => by simp [flattenElements]
  | .arr items => by
    simpa [flattenElements] using flattenList_untainted items
  | .node tag idA cls html styles children => by
    cases styles with
    | none =>
      intro e he
      simp only [flattenElements] at he
      exact flattenList_untainted children e he
    | some st =>
      intro e he
      by_cases ht : tainted tag html = true
      · simp [flattenElements, ht] at he
      · simp only [flattenElements, if_neg ht] at he
        rcases List.mem_cons.mp he with rfl | he'
        · exact Bool.eq_false_iff.mpr ht
        · exact flattenList_untainted children e he'

/-- List version of `flatten_untainted`. -/
theorem flattenList_untainted : ∀ ds : List SDoc, ∀ e ∈ flattenList ds,
    tainted e.tag e.html = false
  | [] => by simp [flattenList]
  | d :: ds => by
    intro e he
    simp only [flattenList, List.mem_append] at he
    rcases he with he | he
    · exact flatten_untainted d e he
    · exact flattenList_untainted ds e he

end

mutual

/-- `script` never appears among the qualifying tags (it is an excluded tag). -/
theorem qual_no_script : ∀ (b : Bool) (n : HNode), "script" ∉ qualTags b n
  | b, .text s => by simp [qualTags]
  | b, .elem tag attrs children => by
    intro hmem
    simp only [qualTags] at hmem
    split at hmem
    · exact qualList_no_script _ children hmem
    · split at hmem
      · rcases List.mem_cons.mp hmem with h | h
        · rename_i hx _
          exact hx (by simp [excludedTags, h.symm])
        · exact qualList_no_script _ children h
      · exact qualList_no_script _ children hmem

/-- List version of `qual_no_script`. -/
theorem qualList_no_script : ∀ (b : Bool) (ns : List HNode), "script" ∉ qualTagsList b ns
  | b, [] => by simp [qualTagsList]
  | b, n :: ns => by
    intro hmem
    rcases List.mem_append.mp (by simpa [qualTagsList] using hmem) with h | h
    · exact qual_no_script b n h
    · exact qualList_no_script b ns h

end

/-- When the element list has no `script` and the entries are untainted, every
loop iteration produces exactly one match: the loop returns `⟨n, 0, 0⟩` when
both lists have length `n`. -/
theorem styleLoop_all_match : ∀ (tags : List String) (es : List SEntry),
    tags.length = es.length → "script" ∉ tags →
    (∀ e ∈ es, tainted e.tag e.html = false) →
    styleLoop tags es = ⟨tags.length, 0, 0⟩
  | [], [], _, _, _ => by simp [styleLoop]
  | [], e :: es, h, _, _ => by simp at h
  | t :: tags, [], h, _, _ => by simp at h
  | t :: tags, e :: es, h, hs, ht => by
    have hlen : tags.length = es.length := by simpa using h
    have hs' : "script" ∉ tags := fun hm => hs (List.mem_cons_of_mem _ hm)
    have ht' : ∀ x ∈ es, tainted x.tag x.html = false := fun x hx =>
      ht x (List.mem_cons_of_mem _ hx)
    have hts : t ≠ "script" := fun hEq => hs (by simp [hEq])
    have hte : tainted e.tag e.html = false := ht e (List.mem_cons_self _ _)
    have ih := styleLoop_all_match tags es hlen hs' ht'
    simp [styleLoop, ih, hts, hte]

/-- C5: if the flattened style sequence and the qualifying HTML-element
sequence both have length `n`, `processHtml` makes exactly `n` matched
attempts (`totalMatches = n`) and its statistics satisfy
`totalMatches + indexMismatches = n`; in fact no mismatch at all occurs,
because the flatten step has already dropped every script-tainted entry, so
the in-loop taint re-check never fires. -/
theorem styleApplicator_match_balance (doc : HNode) (layout : SDoc) (n : Nat)
    (hH : (qualTags false doc).length = n) (hJ : (flattenElements layout).length = n) :
    (processHtmlStats doc layout).totalMatches +
        (processHtmlStats doc layout).indexMismatches = n ∧
      (processHtmlStats doc layout).totalMatches = n ∧
      (processHtmlStats doc layout).indexMismatches = 0 := by
  have h := styleLoop_all_match (qualTags false doc) (flattenElements layout)
    (by rw [hH, hJ]) (qual_no_script false doc) (flatten_untainted layout)
  unfold processHtmlStats
  rw [h, hH]
  exact ⟨rfl, rfl, rfl⟩

/-- A document whose body holds two styleable elements. -/
def wStyleDoc : HNode :=
  .elem "html" [] [.elem "head" [] [], .elem "body" [] [.elem "div" [] [], .elem "p" [] []]]

/-- A style description with three styled nodes (body, div, p). -/
def wStyleLayout : SDoc :=
  .node (some "body") none none none (some [("color", .str "red")])
    [.node (some "div") none none none (some [("margin", .num 0)]) [],
     .node (some "p") none none none (some [("padding", .str "1px")]) []]

/-- Witness for `styleApplicator_match_balance` at a concrete document/layout
pair whose two flattened sequences both have length 3. -/
theorem styleApplicator_match_balance_witness :
    (qualTags false wStyleDoc).length = 3 ∧ (flattenElements wStyleLayout).length = 3 ∧
      ((processHtmlStats wStyleDoc wStyleLayout).totalMatches +
          (processHtmlStats wStyleDoc wStyleLayout).indexMismatches = 3 ∧
        (processHtmlStats wStyleDoc wStyleLayout).totalMatches = 3 ∧
        (processHtmlStats wStyleDoc wStyleLayout).indexMismatches = 0) :=
  ⟨by decide, by decide, styleApplicator_match_balance wStyleDoc wStyleLayout 3 (by decide) (by decide)⟩

/-! ### WidgetExtractor (`WidgetExtractionService.extractWidgets`), claims C1, C6 -/

/-- The fixed widget tag set `WIDGET_ELEMENTS` of the source. -/
def WIDGET_ELEMENTS : List String :=
  ["h1", "h2", "h3", "h4", "h5", "h6", "p", "svg", "img", "image",
   "video", "span", "button", "a", "text", "wow-image", "wix-video",
   "wow-svg", "wow-icon", "wow-canvas", "main"]

/-- Serialization of an attribute list (` key="value"` pairs in order). -/
def serializeAttrs : List (String × String) → String
  | [] => ""
  | (k, v) :: rest =>
    " " ++ k ++ "=" ++ String.mk [dquote] ++ v ++ String.mk [dquote] ++ serializeAttrs rest

mutual

/-- DOM serialization (`outerHTML` / cheerio `$.html(el)`) on the tree model:
`<tag attrs>children</tag>` for elements, the raw character data for text
nodes.  Entity escaping and void-element special cases of the real serializer
are not modelled; fragments the claims evaluate contain neither. -/
def serialize : HNode → String
  | .text s => s
  | .elem tag attrs children =>
    "<" ++ tag ++ serializeAttrs attrs ++ ">" ++ serializeList children ++ "</" ++ tag ++ ">"
termination_by structural n => n

/-- Serialization of a node list (`innerHTML` of their parent). -/
def serializeList : List HNode → String
  | [] => ""
  | c :: cs => serialize c ++ serializeList cs
termination_by structural l => l

end

/-- The widget token `{{widget-N}}`. -/
def mkWidgetToken (n : Nat) : String :=
  "\x7b\x7bwidget-" ++ String.mk (decimalRepr n) ++ "\x7d\x7d"

/-- `isInsideSection`: the source walks the `parentElement` chain looking for
a `section`; the structural traversal threads the ancestor tag-name chain
`anc` downward, so the walk is a membership test on that chain. -/
def insideSection (anc : List String) : Bool := anc.contains "section"

mutual

/-- Embedding of `processElement`: depth-first pre-order walk, numbering from
`ctr`.  An element whose tag is in `WIDGET_ELEMENTS` — except a `main` with no
ancestor `section`, which is traversed transparently — is replaced by a text
node holding a fresh `{{widget-N}}` token, the whole original subtree being
recorded under the token (the service stores its `outerHTML`, i.e.
`serialize`); its children are not visited.  Non-widget elements keep their
tag/attributes and recurse.  Text nodes (`nodeType ≠ 1`) are untouched.
Returns (new node, widget fragments in discovery order, next counter). -/
def processElement (anc : List String) (ctr : Nat) :
    HNode → HNode × List (String × HNode) × Nat
  | .text s => (.text s, [], ctr)
  | .elem tag attrs children =>
    if tag ∈ WIDGET_ELEMENTS then
      if tag = "main" && !insideSection anc then
        match processChildren (tag :: anc) ctr children with
        | (cs', ws, ctr') => (.elem tag attrs cs', ws, ctr')
      else
        (.text (mkWidgetToken ctr), [(mkWidgetToken ctr, .elem tag attrs children)], ctr + 1)
    else
      match processChildren (tag :: anc) ctr children with
      | (cs', ws, ctr') => (.elem tag attrs cs', ws, ctr')
termination_by structural n => n

/-- `Array.from(element.childNodes).forEach(processElement)`: the children are
processed left to right against the running counter. -/
def processChildren (anc : List String) (ctr : Nat) :
    List HNode → List HNode × List (String × HNode) × Nat
  | [] => ([], [], ctr)
  | c :: cs =>
    match processElement anc ctr c with
    | (c', ws1, ctr1) =>
      match processChildren anc ctr1 cs with
      | (cs', ws2, ctr2) => (c' :: cs', ws1 ++ ws2, ctr2)
termination_by structural l => l

end

/-- Embedding of `extractWidgets`, applied to the children of the parsed
`<body>` (the walk starts at `document.body`'s child nodes; body's ancestor
chain is `html`).  Returns the modified body children, the widget map in
discovery order (token ↦ removed subtree; the service's `widgets` record
holds `serialize` of each subtree), and the final counter. -/
def extractWidgets (bodyChildren : List HNode) : List HNode × List (String × HNode) × Nat :=
  processChildren ["body", "html"] 1 bodyChildren

/-- Digit characters: the map `d ↦ chr(48+d)` is injective below 10. -/
theorem digitChar_inj : ∀ d < 10, ∀ e < 10, Char.ofNat (48 + d) = Char.ofNat (48 + e) → d = e := by
  decide

/-- Mapping digit lists to character lists is injective. -/
theorem mapDigit_inj : ∀ l1 l2 : List Nat, (∀ d ∈ l1, d < 10) → (∀ d ∈ l2, d < 10) →
    l1.map (fun d => Char.ofNat (48 + d)) = l2.map (fun d => Char.ofNat (48 + d)) → l1 = l2
  | [], [], _, _, _ => rfl
  | [], _ :: _, _, _, h => by simp at h
  | _ :: _, [], _, _, h => by simp at h
  | d :: l1, e :: l2, h1, h2, h => by
    simp only [List.map_cons, List.cons.injEq] at h
    have hde : d = e :=
      digitChar_inj d (h1 d (List.mem_cons_self _ _)) e (h2 e (List.mem_cons_self _ _)) h.1
    have : l1 = l2 := mapDigit_inj l1 l2 (fun x hx => h1 x (List.mem_cons_of_mem _ hx))
      (fun x hx => h2 x (List.mem_cons_of_mem _ hx)) h.2
    rw [hde, this]

/-- JS decimal printing of naturals is injective. -/
theorem decimalRepr_inj : Function.Injective decimalRepr := by
  intro a b h
  simp only [decimalRepr, digitsAux_eq a a le_rfl, digitsAux_eq b b le_rfl] at h
  by_cases ha : a = 0 <;> by_cases hb : b = 0
  · rw [ha, hb]
  · exfalso
    rw [ha] at h
    simp only [if_pos rfl, if_neg hb] at h
    have h' : (Nat.digits 10 b).map (fun d => Char.ofNat (48 + d)) = ['0'] := by
      have := congrArg List.reverse h
      simpa using this.symm
    have : Nat.digits 10 b = [0] := by
      have h0 : ([0] : List Nat).map (fun d => Char.ofNat (48 + d)) = ['0'] := by decide
      exact mapDigit_inj _ [0] (fun d hd => Nat.digits_lt_base (by norm_num) hd)
        (by simp) (h'.trans h0.symm)
    have hb0 : b = Nat.ofDigits 10 [0] := by
      rw [← this, Nat.ofDigits_digits]
    simp [Nat.ofDigits] at hb0
    exact hb hb0
  · exfalso
    rw [hb] at h
    simp only [if_pos rfl, if_neg ha] at h
    have h' : (Nat.digits 10 a).map (fun d => Char.ofNat (48 + d)) = ['0'] := by
      have := congrArg List.reverse h
      simpa using this
    have : Nat.digits 10 a = [0] := by
      have h0 : ([0] : List Nat).map (fun d => Char.ofNat (48 + d)) = ['0'] := by decide
      exact mapDigit_inj _ [0] (fun d hd => Nat.digits_lt_base (by norm_num) hd)
        (by simp) (h'.trans h0.symm)
    have ha0 : a = Nat.ofDigits 10 [0] := by
      rw [← this, Nat.ofDigits_digits]
    simp [Nat.ofDigits] at ha0
    exact ha ha0
  · simp only [if_neg ha, if_neg hb] at h
    have h1 := List.reverse_injective h
    have h2 := mapDigit_inj _ _ (fun d hd => Nat.digits_lt_base (by norm_num) hd)
      (fun d hd => Nat.digits_lt_base (by norm_num) hd) h1
    have := congrArg (Nat.ofDigits 10) h2
    rwa [Nat.ofDigits_digits, Nat.ofDigits_digits] at this

/-- Widget tokens are pairwise distinct. -/
theorem mkWidgetToken_inj : Function.Injective mkWidgetToken := by
  intro a b h
  have hd := congrArg String.data h
  simp only [mkWidgetToken, String.data_append, List.append_assoc] at hd
  have h1 := List.append_cancel_left hd
  exact decimalRepr_inj (List.append_cancel_right h1)

/-- Every widget token starts with the characters `{{widget-`. -/
theorem mkWidgetToken_pref (n : Nat) :
    "\x7b\x7bwidget-".data.isPrefixOf (mkWidgetToken n).data = true := by
  apply List.isPrefixOf_iff_prefix.mpr
  simp only [mkWidgetToken, String.data_append, List.append_assoc]
  exact List.prefix_append _ _

mutual

/-- Token bookkeeping for `processElement`: the emitted fragment keys are
exactly `{{widget-ctr}}, {{widget-(ctr+1)}}, …` in discovery order, with no
gap, and the returned counter advances by their number. -/
theorem processElement_keys : ∀ (anc : List String) (ctr : Nat) (n : HNode),
    (processElement anc ctr n).2.1.map Prod.fst =
      (List.range' ctr (processElement anc ctr n).2.1.length).map mkWidgetToken ∧
    (processElement anc ctr n).2.2 = ctr + (processElement anc ctr n).2.1.length
  | anc, ctr, .text s => by simp [processElement]
  | anc, ctr, .elem tag attrs children => by
    have ih := processChildren_keys (tag :: anc) ctr children
    rcases hpc : processChildren (tag :: anc) ctr children with ⟨cs', ws, ctr'⟩
    rw [hpc] at ih
    simp only [processElement, hpc]
    split
    · split
      · exact ih
      · simp [List.range']
    · exact ih

/-- Token bookkeeping for `processChildren`. -/
theorem processChildren_keys : ∀ (anc : List String) (ctr : Nat) (cs : List HNode),
    (processChildren anc ctr cs).2.1.map Prod.fst =
      (List.range' ctr (processChildren anc ctr cs).2.1.length).map mkWidgetToken ∧
    (processChildren anc ctr cs).2.2 = ctr + (processChildren anc ctr cs).2.1.length
  | anc, ctr, [] => by simp [processChildren]
  | anc, ctr, c :: cs => by
    have ih1 := processElement_keys anc ctr c
    rcases hpe : processElement anc ctr c with ⟨c', ws1, ctr1⟩
    rw [hpe] at ih1
    have ih2 := processChildren_keys anc ctr1 cs
    rcases hpc : processChildren anc ctr1 cs with ⟨cs', ws2, ctr2⟩
    rw [hpc] at ih2
    simp only at ih1 ih2
    simp only [processChildren, hpe, hpc, List.map_append, List.length_append]
    constructor
    · rw [ih1.1, ih2.1, ih1.2]
      have hr : List.range' ctr ws1.length ++ List.range' (ctr + ws1.length) ws2.length =
          List.range' ctr (ws1.length + ws2.length) := by
        have := List.range'_append ctr ws1.length ws2.length 1
        simpa [Nat.add_comm] using this
      rw [← hr, List.map_append]
    · rw [ih2.2, ih1.2, Nat.add_assoc]

end

/-- Association-list lookup (JS object property access on the widget map). -/
def lookupFrag (m : List (String × HNode)) (k : String) : Option HNode :=
  match m with
  | [] => none
  | (t, f) :: r => if t = k then some f else lookupFrag r k

/-- A key that does not begin with `{{widget-` misses a map all of whose keys
begin with `{{widget-`. -/
theorem lookupFrag_of_not_pref (m : List (String × HNode)) (s : String)
    (hm : ∀ p ∈ m, "\x7b\x7bwidget-".data.isPrefixOf p.1.data = true)
    (hs : ("\x7b\x7bwidget-".data.isPrefixOf s.data) = false) :
    lookupFrag m s = none := by
  induction m with
  | nil => rfl
  | cons p r ih =>
    rcases p with ⟨t, f⟩
    have ht := hm ⟨t, f⟩ (List.mem_cons_self _ _)
    have hts : t ≠ s := by
      intro hEq
      rw [hEq] at ht
      rw [ht] at hs
      exact Bool.noConfusion hs
    simp only [lookupFrag, if_neg hts]
    exact ih (fun q hq => hm q (List.mem_cons_of_mem _ hq))

/-- With pairwise-distinct keys, lookup retrieves every stored pair. -/
theorem lookupFrag_mem : ∀ (m : List (String × HNode)), (m.map Prod.fst).Nodup →
    ∀ t f, (t, f) ∈ m → lookupFrag m t = some f
  | [], _, t, f, h => by simp at h
  | (t0, f0) :: r, hnd, t, f, h => by
    rcases List.mem_cons.mp h with h0 | h0
    · injection h0 with ha hb
      subst ha
      subst hb
      simp [lookupFrag]
    · have hne : t0 ≠ t := by
        intro hEq
        have : t0 ∈ r.map Prod.fst := by
          rw [hEq]
          exact List.mem_map_of_mem _ h0
        exact (List.nodup_cons.mp (by simpa using hnd)).1 this
      simp only [lookupFrag, if_neg hne]
      exact lookupFrag_mem r (List.nodup_cons.mp (by simpa using hnd)).2 t f h0

mutual

/-- Substituting each emitted token's fragment back: a text node that spells a
token of the map is replaced by the mapped fragment subtree (whose
serialization is the captured fragment markup); elements recurse. -/
def substNode (m : List (String × HNode)) : HNode → HNode
  | .text s =>
    match lookupFrag m s with
    | some f => f
    | none => .text s
  | .elem tag attrs children => .elem tag attrs (substList m children)
termination_by structural n => n

/-- List version of `substNode`. -/
def substList (m : List (String × HNode)) : List HNode → List HNode
  | [] => []
  | c :: cs => substNode m c :: substList m cs
termination_by structural l => l

end

mutual

/-- No text node of the tree begins with the characters `{{widget-` (the
spec's "tokens never collide with pre-existing text" assumption, decidably). -/
def noTokenText : HNode → Bool
  | .text s => !("\x7b\x7bwidget-".data.isPrefixOf s.data)
  | .elem _ _ children => noTokenTextList children
termination_by structural n => n

/-- List version of `noTokenText`. -/
def noTokenTextList : List HNode → Bool
  | [] => true
  | c :: cs => noTokenText c && noTokenTextList cs
termination_by structural l => l

end

mutual

/-- Substitution undoes extraction on a single node, for any fragment map `m`
that (a) answers every fragment emitted by this extraction and (b) only holds
`{{widget-`-prefixed keys, provided no original text node spells such a key. -/
theorem subst_extract_node : ∀ (m : List (String × HNode)) (anc : List String)
    (ctr : Nat) (n : HNode),
    noTokenText n = true →
    (∀ t f, (t, f) ∈ (processElement anc ctr n).2.1 → lookupFrag m t = some f) →
    (∀ p ∈ m, "\x7b\x7bwidget-".data.isPrefixOf p.1.data = true) →
    substNode m (processElement anc ctr n).1 = n
  | m, anc, ctr, .text s, hnt, hfrag, hm => by
    simp only [processElement, substNode]
    rw [lookupFrag_of_not_pref m s hm (by simpa [noTokenText] using hnt)]
  | m, anc, ctr, .elem tag attrs children, hnt, hfrag, hm => by
    have ihList := subst_extract_list m (tag :: anc) ctr children
      (by simpa [noTokenText] using hnt)
    rcases hpc : processChildren (tag :: anc) ctr children with ⟨cs', ws, ctr'⟩
    rw [hpc] at ihList
    by_cases hw : tag ∈ WIDGET_ELEMENTS
    · by_cases hmn : (decide (tag = "main") && !insideSection anc) = true
      · have hpe1 : processElement anc ctr (.elem tag attrs children) =
            (HNode.elem tag attrs cs', ws, ctr') := by
          simp only [processElement, if_pos hw, if_pos hmn, hpc]
        rw [hpe1] at hfrag ⊢
        simp only [substNode]
        rw [ihList (by simpa using hfrag) hm]
      · have hpe1 : processElement anc ctr (.elem tag attrs children) =
            (HNode.text (mkWidgetToken ctr),
              [(mkWidgetToken ctr, HNode.elem tag attrs children)], ctr + 1) := by
          simp only [processElement, if_pos hw, if_neg hmn]
        rw [hpe1] at hfrag ⊢
        simp only [substNode]
        rw [hfrag (mkWidgetToken ctr) (.elem tag attrs children) (by simp)]
    · have hpe1 : processElement anc ctr (.elem tag attrs children) =
          (HNode.elem tag attrs cs', ws, ctr') := by
        simp only [processElement, if_neg hw, hpc]
      rw [hpe1] at hfrag ⊢
      simp only [substNode]
      rw [ihList (by simpa using hfrag) hm]

/-- List version of `subst_extract_node`. -/
theorem subst_extract_list : ∀ (m : List (String × HNode)) (anc : List String)
    (ctr : Nat) (cs : List HNode),
    noTokenTextList cs = true →
    (∀ t f, (t, f) ∈ (processChildren anc ctr cs).2.1 → lookupFrag m t = some f) →
    (∀ p ∈ m, "\x7b\x7bwidget-".data.isPrefixOf p.1.data = true) →
    substList m (processChildren anc ctr cs).1 = cs
  | m, anc, ctr, [], _, _, _ => by simp [processChildren, substList]
  | m, anc, ctr, c :: cs, hnt, hfrag, hm => by
    have hntc : noTokenText c = true := by
      have := hnt
      simp only [noTokenTextList, Bool.and_eq_true] at this
      exact this.1
    have hntcs : noTokenTextList cs = true := by
      have := hnt
      simp only [noTokenTextList, Bool.and_eq_true] at this
      exact this.2
    have ih1 := subst_extract_node m anc ctr c hntc
    rcases hpe : processElement anc ctr c with ⟨c', ws1, ctr1⟩
    rw [hpe] at ih1
    have ih2 := subst_extract_list m anc ctr1 cs hntcs
    rcases hpc : processChildren anc ctr1 cs with ⟨cs', ws2, ctr2⟩
    rw [hpc] at ih2
    simp only [processChildren, hpe, hpc] at hfrag ⊢
    simp only [substList]
    have hfrag1 : ∀ t f, (t, f) ∈ ws1 → lookupFrag m t = some f := by
      intro t f hin
      exact hfrag t f (by simp [hin])
    have hfrag2 : ∀ t f, (t, f) ∈ ws2 → lookupFrag m t = some f := by
      intro t f hin
      exact hfrag t f (by simp [hin])
    rw [ih1 (by simpa using hfrag1) hm, ih2 (by simpa using hfrag2) hm]

end

/-- JS `String.prototype.trim` on character lists. -/
def trimL (s : List Char) : List Char :=
  ((s.dropWhile isWsB).reverse.dropWhile isWsB).reverse

mutual

/-- Whitespace-insensitive view of a single node: whitespace-only text nodes
are dropped by the list version and remaining text is trimmed.  Two documents
whose views differ are not isomorphic even ignoring whitespace. -/
def normWsNode : HNode → HNode
  | .text s => .text (String.mk (trimL s.data))
  | .elem t a cs => .elem t a (normWsList cs)
termination_by structural n => n

/-- List version of `normWsNode`, dropping whitespace-only text nodes. -/
def normWsList : List HNode → List HNode
  | [] => []
  | c :: rest =>
    match c with
    | .text s =>
      if (trimL s.data).isEmpty then normWsList rest
      else normWsNode c :: normWsList rest
    | .elem _ _ _ => normWsNode c :: normWsList rest
termination_by structural l => l

end

/-- C1 (amended): the widget-extraction round trip holds for every body whose
pre-extraction text nodes never begin with `{{widget-` (the collision-freedom
the spec assumes but does not verify).  Substituting every emitted token's
fragment subtree back into the extraction result returns exactly the
pre-extraction body — hence in particular a document isomorphic to it ignoring
whitespace — and consequently the serialized documents agree as well. -/
theorem widget_roundtrip (bodyChildren : List HNode)
    (hcol : noTokenTextList bodyChildren = true) :
    substList (extractWidgets bodyChildren).2.1 (extractWidgets bodyChildren).1 = bodyChildren ∧
    serializeList
        (substList (extractWidgets bodyChildren).2.1 (extractWidgets bodyChildren).1) =
      serializeList bodyChildren := by
  simp only [extractWidgets]
  have hkeys := processChildren_keys ["body", "html"] 1 bodyChildren
  have hnodup : ((processChildren ["body", "html"] 1 bodyChildren).2.1.map Prod.fst).Nodup := by
    rw [hkeys.1]
    exact (List.nodup_range' ..).map mkWidgetToken_inj
  have hpref : ∀ p ∈ (processChildren ["body", "html"] 1 bodyChildren).2.1,
      "\x7b\x7bwidget-".data.isPrefixOf p.1.data = true := by
    intro p hp
    have hmem : p.1 ∈ (processChildren ["body", "html"] 1 bodyChildren).2.1.map Prod.fst :=
      List.mem_map_of_mem _ hp
    rw [hkeys.1] at hmem
    rcases List.mem_map.mp hmem with ⟨i, _, hi⟩
    rw [← hi]
    exact mkWidgetToken_pref i
  have hmain := subst_extract_list (processChildren ["body", "html"] 1 bodyChildren).2.1
    ["body", "html"] 1 bodyChildren hcol
    (fun t f hin => lookupFrag_mem _ hnodup t f hin) hpref
  exact ⟨hmain, by rw [hmain]⟩

/-- A concrete collision-free body: a heading and a paragraph. -/
def wWidgetBody : List HNode :=
  [.elem "section" [] [.elem "h1" [] [.text "Title"], .elem "p" [] [.text "Hello"]],
   .elem "div" [] [.text "plain"]]

/-- Witness for `widget_roundtrip` at `wWidgetBody`. -/
theorem widget_roundtrip_witness :
    noTokenTextList wWidgetBody = true ∧
    substList (extractWidgets wWidgetBody).2.1 (extractWidgets wWidgetBody).1 = wWidgetBody :=
  ⟨by decide, (widget_roundtrip wWidgetBody (by decide)).1⟩

/-- The C1 counterexample body: a text node that already spells `{{widget-1}}`
sits next to a `<p>` element that extraction will assign that very token. -/
def cexWidgetBody : List HNode :=
  [.elem "div" [] [.text (mkWidgetToken 1)], .elem "p" [] [.text "x"]]

/-- C1 as stated is false: on `cexWidgetBody`, substituting every emitted
token's fragment back into the extraction result duplicates the `<p>` element
(the pre-existing `{{widget-1}}` text is also replaced), so the result is not
the pre-extraction body, and not isomorphic to it even ignoring whitespace. -/
theorem widget_roundtrip_counterexample :
    substList (extractWidgets cexWidgetBody).2.1 (extractWidgets cexWidgetBody).1 ≠
        cexWidgetBody ∧
      normWsList
          (substList (extractWidgets cexWidgetBody).2.1 (extractWidgets cexWidgetBody).1) ≠
        normWsList cexWidgetBody := by
  constructor
  · decide
  · decide

/-- C6: behaviour of `processElement` on a `main` element.  With an ancestor
`section` on the chain (`isInsideSection` true) it is extracted exactly like
any other widget: its whole subtree is recorded under the fresh token (the
stored markup is its `serialize`d outer HTML), a text node holding the token
replaces it, its children are not visited, and the counter advances.  With no
ancestor `section` it is not extracted: the element stays with its children
processed directly against the same counter. -/
theorem main_extraction_rule (anc : List String) (ctr : Nat)
    (attrs : List (String × String)) (children : List HNode) :
    (insideSection anc = true →
      processElement anc ctr (.elem "main" attrs children) =
        (.text (mkWidgetToken ctr), [(mkWidgetToken ctr, .elem "main" attrs children)],
          ctr + 1)) ∧
    (insideSection anc = false →
      processElement anc ctr (.elem "main" attrs children) =
        (.elem "main" attrs (processChildren ("main" :: anc) ctr children).1,
          (processChildren ("main" :: anc) ctr children).2.1,
          (processChildren ("main" :: anc) ctr children).2.2)) := by
  rcases hpc : processChildren ("main" :: anc) ctr children with ⟨cs', ws, ctr'⟩
  have hw : ("main" : String) ∈ WIDGET_ELEMENTS := by decide
  constructor
  · intro h
    simp [processElement, h, hpc, hw]
  · intro h
    simp [processElement, h, hpc, hw]

/-- Witness for `main_extraction_rule`: both branches at concrete ancestor
chains — a `main` below a `section` is extracted, a top-level `main` is
traversed transparently (here its inner `p` is extracted instead). -/
theorem main_extraction_rule_witness :
    (insideSection ["section", "body", "html"] = true ∧
      processElement ["section", "body", "html"] 1
          (.elem "main" [] [.elem "p" [] [.text "Hello"]]) =
        (.text (mkWidgetToken 1),
          [(mkWidgetToken 1, .elem "main" [] [.elem "p" [] [.text "Hello"]])], 2)) ∧
    (insideSection ["body", "html"] = false ∧
      processElement ["body", "html"] 1 (.elem "main" [] [.elem "p" [] [.text "Hello"]]) =
        (.elem "main" [] [.text (mkWidgetToken 1)],
          [(mkWidgetToken 1, .elem "p" [] [.text "Hello"])], 2)) := by
  constructor
  · exact ⟨by decide, (main_extraction_rule ["section", "body", "html"] 1 [] _).1 (by decide)⟩
  · refine ⟨by decide, ?_⟩
    have h := (main_extraction_rule ["body", "html"] 1 [] [.elem "p" [] [.text "Hello"]]).2
      (by decide)
    rw [h]
    decide

/-! ### ComponentExtractor (`ComponentExtractionService.extractComponents`),
claims C4, C7, C10.

The fragment list returned by `extractComponents` depends only on the
document as it stands when each phase queries it: phase 1's lookups and
replacements are modelled directly on the tree; phase 2 iterates the
`$('section')` snapshot taken *after* phase 1, and since every processed
section is top-level (not inside another section) the subtrees captured and
replaced are pairwise disjoint, so the loop is modelled as a fold over the
static snapshot.  The final cleanup/template phase mutates only the document,
not the fragment list, and no claim concerns it, so it is not modelled. -/

/-- `ExtractedComponent` record of the source (`dbId` omitted: storage is an
external collaborator). -/
structure Fragment where
  placeholderId : String
  originalId : String
  type : String
  found : Bool
  componentHtml : String
  childrenCount : Nat
deriving DecidableEq

/-- The fixed ordered target-id list. -/
def targetIds : List String := ["pinnedTopLeft", "pinnedTopRight", "pinnedBottomLeft"]

/-- `wigoh-id-NNN` (zero-padded to three digits) for counter value `n`. -/
def mkPlaceholderId (n : Nat) : String :=
  "wigoh-id-" ++ String.mk (pad3 (decimalRepr n))

/-- The braced token text `{{pid}}`. -/
def mkTokenText (pid : String) : String := "\x7b\x7b" ++ pid ++ "\x7d\x7d"

/-- Attribute lookup (first binding wins, as the parser keeps the first
duplicate attribute). -/
def getAttr (attrs : List (String × String)) (k : String) : Option String :=
  (attrs.find? (fun p => p.1 = k)).map (fun p => p.2)

/-- cheerio `attr(k, v)`: replace an existing binding in place, else append. -/
def setAttr (attrs : List (String × String)) (k v : String) : List (String × String) :=
  if attrs.any (fun p => p.1 = k) then
    attrs.map (fun p => if p.1 = k then (k, v) else p)
  else attrs ++ [(k, v)]

mutual

/-- Does any element with `id = tid` occur in the tree (`$('#tid').length > 0`)? -/
def existsIdNode (tid : String) : HNode → Bool
  | .text _ => false
  | .elem _ attrs children =>
    (getAttr attrs "id" = some tid) || existsIdList tid children
termination_by structural n => n

/-- List version of `existsIdNode`. -/
def existsIdList (tid : String) : List HNode → Bool
  | [] => false
  | c :: cs => existsIdNode tid c || existsIdList tid cs
termination_by structural l => l

end

mutual

/-- `$('#tid').attr('wig-id', tok)`: tag every matching element. -/
def setWigIdNode (tid tok : String) : HNode → HNode
  | .text s => .text s
  | .elem tag attrs children =>
    if getAttr attrs "id" = some tid then
      .elem tag (setAttr attrs "wig-id" tok) (setWigIdList tid tok children)
    else .elem tag attrs (setWigIdList tid tok children)
termination_by structural n => n

/-- List version of `setWigIdNode`. -/
def setWigIdList (tid tok : String) : List HNode → List HNode
  | [] => []
  | c :: cs => setWigIdNode tid tok c :: setWigIdList tid tok cs
termination_by structural l => l

end

mutual

/-- `$.html($('#tid'))`: concatenated serializations of every matching
element, in document order (nested matches appear both inside their ancestor's
markup and on their own, as cheerio renders each selected element). -/
def captureById (tid : String) : HNode → String
  | .text _ => ""
  | .elem tag attrs children =>
    (if getAttr attrs "id" = some tid then serialize (.elem tag attrs children) else "")
      ++ captureByIdList tid children
termination_by structural n => n

/-- List version of `captureById`. -/
def captureByIdList (tid : String) : List HNode → String
  | [] => ""
  | c :: cs => captureById tid c ++ captureByIdList tid cs
termination_by structural l => l

end

mutual

/-- `$('#tid').replaceWith(tok)`: every outermost matching element becomes the
bare token text (the subtree is detached with it). -/
def replaceByIdNode (tid tok : String) : HNode → HNode
  | .text s => .text s
  | .elem tag attrs children =>
    if getAttr attrs "id" = some tid then .text tok
    else .elem tag attrs (replaceByIdList tid tok children)
termination_by structural n => n

/-- List version of `replaceByIdNode`. -/
def replaceByIdList (tid tok : String) : List HNode → List HNode
  | [] => []
  | c :: cs => replaceByIdNode tid tok c :: replaceByIdList tid tok cs
termination_by structural l => l

end

/-- Number of element children of a node list (`children().length`). -/
def countChildElems : List HNode → Nat
  | [] => 0
  | .elem _ _ _ :: rest => 1 + countChildElems rest
  | .text _ :: rest => countChildElems rest

mutual

/-- Summed element-children count over every element with `id = tid`. -/
def childrenCountById (tid : String) : HNode → Nat
  | .text _ => 0
  | .elem _ attrs children =>
    (if getAttr attrs "id" = some tid then countChildElems children else 0)
      + childrenCountByIdList tid children
termination_by structural n => n

/-- List version of `childrenCountById`. -/
def childrenCountByIdList (tid : String) : List HNode → Nat
  | [] => 0
  | c :: cs => childrenCountById tid c + childrenCountByIdList tid cs
termination_by structural l => l

end

/-- `createCleanComponentHTML` of the source, verbatim. -/
def createCleanComponentHTML (componentHtml elementId placeholderId : String) : String :=
  "<!DOCTYPE html>\n<html lang=\"en\">\n<head>\n    <meta charset=\"UTF-8\">\n"
    ++ "    <meta name=\"viewport\" content=\"width=device-width, initial-scale=1.0\">\n"
    ++ "    <title>Component: " ++ elementId ++ "</title>\n</head>\n<body>\n"
    ++ "    <!-- Placeholder ID: " ++ placeholderId ++ " -->\n"
    ++ "    <!-- Original ID: " ++ elementId ++ " -->\n"
    ++ componentHtml ++ "\n</body>\n</html>"

/-- `createNotFoundComponentHTML` of the source, verbatim. -/
def createNotFoundComponentHTML (elementId placeholderId : String) : String :=
  "<!DOCTYPE html>\n<html lang=\"en\">\n<head>\n    <meta charset=\"UTF-8\">\n"
    ++ "    <meta name=\"viewport\" content=\"width=device-width, initial-scale=1.0\">\n"
    ++ "    <title>Component Not Found: " ++ elementId ++ "</title>\n</head>\n<body>\n"
    ++ "    <!-- Placeholder ID: " ++ placeholderId ++ " -->\n"
    ++ "    <!-- Original ID: " ++ elementId ++ " -->\n"
    ++ "    <!-- STATUS: NOT FOUND -->\n"
    ++ "    <div style=\"padding: 20px; border: 2px dashed red; background: #fff3f3;\">\n"
    ++ "        <h2 style=\"color: red;\">Component Not Found</h2>\n"
    ++ "        <p><strong>Original ID:</strong> " ++ elementId ++ "</p>\n"
    ++ "        <p><strong>Placeholder ID:</strong> " ++ placeholderId ++ "</p>\n"
    ++ "        <p>This component was not found in the source HTML.</p>\n"
    ++ "    </div>\n</body>\n</html>"

/-- One iteration of the target-id loop of `extractComponents`.  The
placeholder id is minted and the counter advanced whether or not the target
exists.  Found: tag every match with the marker attribute, capture, replace
with the bare token, record a `found = true` Fragment.  Not found: the
document is untouched and a `found = false` Fragment with the synthesized
"not found" markup is recorded. -/
def targetStep (st : HNode × Nat × List Fragment) (targetId : String) :
    HNode × Nat × List Fragment :=
  match st with
  | (doc, ctr, frags) =>
    if existsIdNode targetId doc then
      (replaceByIdNode targetId (mkTokenText (mkPlaceholderId ctr))
          (setWigIdNode targetId (mkTokenText (mkPlaceholderId ctr)) doc),
        ctr + 1,
        frags ++ [⟨mkPlaceholderId ctr, targetId, "target-id", true,
          createCleanComponentHTML
            (captureById targetId
              (setWigIdNode targetId (mkTokenText (mkPlaceholderId ctr)) doc))
            targetId (mkPlaceholderId ctr),
          childrenCountById targetId doc⟩])
    else
      (doc, ctr + 1,
        frags ++ [⟨mkPlaceholderId ctr, targetId, "target-id", false,
          createNotFoundComponentHTML targetId (mkPlaceholderId ctr), 0⟩])

/-- Phase 1: the three named targets, counter starting at 1. -/
def targetPhase (doc : HNode) : HNode × Nat × List Fragment :=
  targetIds.foldl targetStep (doc, 1, [])

mutual

/-- The `$('section')` snapshot: every `section` element in document
(pre-)order, annotated with whether it is nested inside another `section`
(`$section.parents('section').length > 0`). -/
def sectionNodes (nested : Bool) : HNode → List (HNode × Bool)
  | .text _ => []
  | .elem tag attrs children =>
    (if tag = "section" then [(.elem tag attrs children, nested)] else [])
      ++ sectionNodesList (nested || tag = "section") children
termination_by structural n => n

/-- List version of `sectionNodes`. -/
def sectionNodesList (nested : Bool) : List HNode → List (HNode × Bool)
  | [] => []
  | c :: cs => sectionNodes nested c ++ sectionNodesList nested cs
termination_by structural l => l

end

/-- `$section.attr('id') || 'section_' + (index + 1)` (an empty id attribute is
falsy in JS and also falls back). -/
def resolvedId (n : HNode) (i : Nat) : String :=
  match n with
  | .elem _ attrs _ =>
    match getAttr attrs "id" with
    | some s => if s = "" then "section_" ++ String.mk (decimalRepr (i + 1)) else s
    | none => "section_" ++ String.mk (decimalRepr (i + 1))
  | .text _ => "section_" ++ String.mk (decimalRepr (i + 1))

/-- Number of element children of a section node. -/
def childElemCount : HNode → Nat
  | .elem _ _ children => countChildElems children
  | .text _ => 0

/-- Tag the root element with the marker attribute (`$section.attr('wig-id')`). -/
def setWigIdRoot (n : HNode) (tok : String) : HNode :=
  match n with
  | .elem tag attrs children => .elem tag (setAttr attrs "wig-id" tok) children
  | .text s => .text s

/-- The Fragment recorded for a processed top-level section. -/
def mkSectionFragment (n : HNode) (sid : String) (ctr : Nat) : Fragment :=
  ⟨mkPlaceholderId ctr, sid, "section", true,
    createCleanComponentHTML
      (serialize (setWigIdRoot n (mkTokenText (mkPlaceholderId ctr))))
      sid (mkPlaceholderId ctr),
    childElemCount n⟩

/-- Phase 2: the section loop.  `i` is the position in the full snapshot (used
by the synthesized `section_{i+1}` ids), `processed` the dedup set, `ctr` the
shared token counter continuing from phase 1.  A nested section is skipped; a
section whose resolved id was already processed is skipped; otherwise the
section is tagged, captured, replaced and recorded, and the counter advances. -/
def sectionLoop : Nat → List (HNode × Bool) → List String → Nat → List Fragment →
    List String × Nat × List Fragment
  | _, [], processed, ctr, frags => (processed, ctr, frags)
  | i, (n, nested) :: rest, processed, ctr, frags =>
    if nested then sectionLoop (i + 1) rest processed ctr frags
    else if processed.contains (resolvedId n i) then
      sectionLoop (i + 1) rest processed ctr frags
    else
      sectionLoop (i + 1) rest (processed ++ [resolvedId n i]) (ctr + 1)
        (frags ++ [mkSectionFragment n (resolvedId n i) ctr])

/-- The components list returned by `extractComponents`: phase 1 over the
three target ids, then phase 2 over the post-phase-1 section snapshot. -/
def extractComponents (doc : HNode) : List Fragment :=
  match targetPhase doc with
  | (doc1, ctr1, frags1) => (sectionLoop 0 (sectionNodes false doc1) [] ctr1 frags1).2.2

/-- C7: when a named target id is absent from the document, that target's
processing step leaves the document unchanged, records a `found = false`
Fragment carrying the synthesized "not found" markup, and still advances the
shared token counter, so the token number is consumed. -/
theorem target_not_found_step (doc : HNode) (ctr : Nat) (frags : List Fragment)
    (tid : String) (h : existsIdNode tid doc = false) :
    targetStep (doc, ctr, frags) tid =
      (doc, ctr + 1,
        frags ++ [⟨mkPlaceholderId ctr, tid, "target-id", false,
          createNotFoundComponentHTML tid (mkPlaceholderId ctr), 0⟩]) := by
  simp [targetStep, h]

/-- Witness for `target_not_found_step`: a document with no `pinnedTopLeft`. -/
theorem target_not_found_step_witness :
    existsIdNode "pinnedTopLeft" (.elem "body" [] [.elem "div" [] [.text "x"]]) = false ∧
    targetStep (.elem "body" [] [.elem "div" [] [.text "x"]], 1, []) "pinnedTopLeft" =
      (.elem "body" [] [.elem "div" [] [.text "x"]], 2,
        [⟨mkPlaceholderId 1, "pinnedTopLeft", "target-id", false,
          createNotFoundComponentHTML "pinnedTopLeft" (mkPlaceholderId 1), 0⟩]) :=
  ⟨by decide,
    target_not_found_step (.elem "body" [] [.elem "div" [] [.text "x"]]) 1 [] "pinnedTopLeft"
      (by decide)⟩

/-- One target step advances the counter by one and appends exactly one
`target-id` Fragment whose placeholder is the current counter value, found or
not. -/
theorem targetStep_proj (st : HNode × Nat × List Fragment) (t : String) :
    (targetStep st t).2.1 = st.2.1 + 1 ∧
    (targetStep st t).2.2.map (fun f => (f.placeholderId, f.originalId, f.type)) =
      st.2.2.map (fun f => (f.placeholderId, f.originalId, f.type))
        ++ [(mkPlaceholderId st.2.1, t, "target-id")] := by
  rcases st with ⟨doc, ctr, frags⟩
  by_cases h : existsIdNode t doc = true
  · simp [targetStep, h]
  · rw [Bool.not_eq_true] at h
    simp [targetStep, h]

/-- Phase 1 always produces counter 4 and the three pinned target fragments
in order, numbered `wigoh-id-001 … 003`. -/
theorem targetPhase_proj (doc : HNode) :
    (targetPhase doc).2.1 = 4 ∧
    (targetPhase doc).2.2.map (fun f => (f.placeholderId, f.originalId, f.type)) =
      [(mkPlaceholderId 1, "pinnedTopLeft", "target-id"),
       (mkPlaceholderId 2, "pinnedTopRight", "target-id"),
       (mkPlaceholderId 3, "pinnedBottomLeft", "target-id")] := by
  have e1 := targetStep_proj (doc, 1, []) "pinnedTopLeft"
  rcases h1 : targetStep (doc, 1, []) "pinnedTopLeft" with ⟨d1, c1, f1⟩
  rw [h1] at e1
  have e2 := targetStep_proj (d1, c1, f1) "pinnedTopRight"
  rcases h2 : targetStep (d1, c1, f1) "pinnedTopRight" with ⟨d2, c2, f2⟩
  rw [h2] at e2
  have e3 := targetStep_proj (d2, c2, f2) "pinnedBottomLeft"
  rcases h3 : targetStep (d2, c2, f2) "pinnedBottomLeft" with ⟨d3, c3, f3⟩
  rw [h3] at e3
  have hphase : targetPhase doc = (d3, c3, f3) := by
    simp only [targetPhase, targetIds, List.foldl, h1, h2, h3]
  simp only at e1 e2 e3
  rw [hphase]
  have hc1 : c1 = 2 := by omega
  have hc2 : c2 = 3 := by rw [e2.1, hc1]
  have hc3 : c3 = 4 := by rw [e3.1, hc2]
  refine ⟨by simp [hc3], ?_⟩
  rw [e3.2, e2.2, e1.2, hc1, hc2]
  simp

/-- The section loop only appends: the result extends the accumulated list
with section fragments whose counters start at the current counter. -/
theorem sectionLoop_suffix : ∀ (i : Nat) (entries : List (HNode × Bool))
    (processed : List String) (ctr : Nat) (frags : List Fragment),
    ∃ suffix, (sectionLoop i entries processed ctr frags).2.2 = frags ++ suffix ∧
      ∀ f ∈ suffix, ∃ j n c, entries.get? j = some (n, false) ∧ ctr ≤ c ∧
        f = mkSectionFragment n (resolvedId n (i + j)) c
  | _, [], processed, ctr, frags => ⟨[], by simp [sectionLoop]⟩
  | i, (n, nested) :: rest, processed, ctr, frags => by
    by_cases hn : nested = true
    · subst hn
      rcases sectionLoop_suffix (i + 1) rest processed ctr frags with ⟨suffix, hs, hp⟩
      refine ⟨suffix, by simpa [sectionLoop] using hs, ?_⟩
      intro f hf
      rcases hp f hf with ⟨j, m, c, hj, hc, hfm⟩
      exact ⟨j + 1, m, c, by simpa using hj, hc, by simpa [Nat.add_assoc, Nat.add_comm 1 j] using hfm⟩
    · rw [Bool.not_eq_true] at hn
      subst hn
      by_cases hdup : processed.contains (resolvedId n i) = true
      · have hdup' : resolvedId n i ∈ processed := by simpa using hdup
        rcases sectionLoop_suffix (i + 1) rest processed ctr frags with ⟨suffix, hs, hp⟩
        refine ⟨suffix, by simpa [sectionLoop, hdup'] using hs, ?_⟩
        intro f hf
        rcases hp f hf with ⟨j, m, c, hj, hc, hfm⟩
        exact ⟨j + 1, m, c, by simpa using hj, hc,
          by simpa [Nat.add_assoc, Nat.add_comm 1 j] using hfm⟩
      · have hdup' : resolvedId n i ∉ processed := by simpa using hdup
        rcases sectionLoop_suffix (i + 1) rest (processed ++ [resolvedId n i]) (ctr + 1)
            (frags ++ [mkSectionFragment n (resolvedId n i) ctr]) with ⟨suffix, hs, hp⟩
        refine ⟨mkSectionFragment n (resolvedId n i) ctr :: suffix, ?_, ?_⟩
        · rw [show sectionLoop i ((n, false) :: rest) processed ctr frags =
              sectionLoop (i + 1) rest (processed ++ [resolvedId n i]) (ctr + 1)
                (frags ++ [mkSectionFragment n (resolvedId n i) ctr]) from by
            simp [sectionLoop, hdup']]
          rw [hs]
          simp
        · intro f hf
          rcases List.mem_cons.mp hf with rfl | hf'
          · exact ⟨0, n, ctr, by simp, le_rfl, by simp⟩
          · rcases hp f hf' with ⟨j, m, c, hj, hc, hfm⟩
            exact ⟨j + 1, m, c, by simpa using hj, by omega,
              by simpa [Nat.add_assoc, Nat.add_comm 1 j] using hfm⟩

/-- C10: for every input document, the components list opens with exactly the
three `target-id` Fragments for `pinnedTopLeft`, `pinnedTopRight`,
`pinnedBottomLeft` in that order, carrying tokens `wigoh-id-001 … 003`, and
every later Fragment is a section Fragment whose token number is at least 4. -/
theorem components_start_and_sections (doc : HNode) :
    ((extractComponents doc).take 3).map (fun f => (f.placeholderId, f.originalId, f.type)) =
      [("wigoh-id-001", "pinnedTopLeft", "target-id"),
       ("wigoh-id-002", "pinnedTopRight", "target-id"),
       ("wigoh-id-003", "pinnedBottomLeft", "target-id")] ∧
    ∀ f ∈ (extractComponents doc).drop 3,
      f.type = "section" ∧ ∃ n, 4 ≤ n ∧ f.placeholderId = mkPlaceholderId n := by
  have hp := targetPhase_proj doc
  rcases htp : targetPhase doc with ⟨d1, c1, f1⟩
  rw [htp] at hp
  simp only at hp
  have hlen : f1.length = 3 := by
    have := congrArg List.length hp.2
    simpa using this
  have hc1 : c1 = 4 := hp.1
  rcases sectionLoop_suffix 0 (sectionNodes false d1) [] c1 f1 with ⟨suffix, hs, hsp⟩
  have hec : extractComponents doc = f1 ++ suffix := by
    simp only [extractComponents, htp]
    exact hs
  constructor
  · rw [hec, ← hlen, List.take_left, hp.2]
    decide
  · rw [hec, ← hlen, List.drop_left]
    intro f hf
    rcases hsp f hf with ⟨j, n, c, hj, hc, rfl⟩
    exact ⟨rfl, c, by omega, rfl⟩

mutual

/-- `b` occurs strictly inside the subtree of the given node. -/
def inSubtree (b : HNode) : HNode → Bool
  | .text _ => false
  | .elem _ _ children => inSubtreeList b children
termination_by structural n => n

/-- `b` is one of the nodes of the list or occurs inside one of them. -/
def inSubtreeList (b : HNode) : List HNode → Bool
  | [] => false
  | c :: cs => (b = c) || inSubtree b c || inSubtreeList b cs
termination_by structural l => l

end

mutual

/-- The serialization of a node contains the serialization of every node of
its subtree as a substring. -/
theorem serialize_contains_of_inSubtree : ∀ (b n : HNode), inSubtree b n = true →
    ∃ p q, serialize n = p ++ serialize b ++ q
  | b, .text s => by simp [inSubtree]
  | b, .elem tag attrs children => by
    intro h
    simp only [inSubtree] at h
    rcases serializeList_contains_of_inSubtreeList b children h with ⟨p, q, hpq⟩
    refine ⟨"<" ++ tag ++ serializeAttrs attrs ++ ">" ++ p, q ++ ("</" ++ tag ++ ">"), ?_⟩
    rw [serialize, hpq]
    simp [String.append_assoc]

/-- List version of `serialize_contains_of_inSubtree`. -/
theorem serializeList_contains_of_inSubtreeList : ∀ (b : HNode) (cs : List HNode),
    inSubtreeList b cs = true → ∃ p q, serializeList cs = p ++ serialize b ++ q
  | b, [] => by simp [inSubtreeList]
  | b, c :: cs => by
    intro h
    simp only [inSubtreeList, Bool.or_eq_true] at h
    rcases h with (hbc | hsub) | hrest
    · have hb : b = c := of_decide_eq_true hbc
      subst hb
      exact ⟨"", serializeList cs, by rw [serializeList]; simp [String.append_assoc]⟩
    · rcases serialize_contains_of_inSubtree b c hsub with ⟨p, q, hpq⟩
      exact ⟨p, q ++ serializeList cs, by rw [serializeList, hpq]; simp [String.append_assoc]⟩
    · rcases serializeList_contains_of_inSubtreeList b cs hrest with ⟨p, q, hpq⟩
      exact ⟨serialize c ++ p, q, by rw [serializeList, hpq]; simp [String.append_assoc]⟩

end

/-- Setting the marker attribute on the root does not disturb containment of a
strictly-inner node's markup. -/
theorem setWigIdRoot_contains (A b : HNode) (tok : String) (h : inSubtree b A = true) :
    ∃ p q, serialize (setWigIdRoot A tok) = p ++ serialize b ++ q := by
  cases A with
  | text s => simp [inSubtree] at h
  | elem tag attrs children =>
    simp only [inSubtree] at h
    rcases serializeList_contains_of_inSubtreeList b children h with ⟨p, q, hpq⟩
    refine ⟨"<" ++ tag ++ serializeAttrs (setAttr attrs "wig-id" tok) ++ ">" ++ p,
      q ++ ("</" ++ tag ++ ">"), ?_⟩
    rw [setWigIdRoot, serialize, hpq]
    simp [String.append_assoc]

/-- Phase-1 fragments are all of kind `target-id`. -/
theorem targetStep_types (st : HNode × Nat × List Fragment) (t : String)
    (h : ∀ f ∈ st.2.2, f.type = "target-id") :
    ∀ f ∈ (targetStep st t).2.2, f.type = "target-id" := by
  rcases st with ⟨doc, ctr, frags⟩
  by_cases he : existsIdNode t doc = true
  · intro f hf
    simp only [targetStep, if_pos he] at hf
    rcases List.mem_append.mp hf with hf | hf
    · exact h f hf
    · simp only [List.mem_singleton] at hf
      rw [hf]
  · rw [Bool.not_eq_true] at he
    intro f hf
    simp only [targetStep, he, Bool.false_eq_true, if_false] at hf
    rcases List.mem_append.mp hf with hf | hf
    · exact h f hf
    · simp only [List.mem_singleton] at hf
      rw [hf]

/-- All fragments of phase 1 are `target-id` fragments. -/
theorem targetPhase_types (doc : HNode) : ∀ f ∈ (targetPhase doc).2.2, f.type = "target-id" := by
  have h0 : ∀ f ∈ ([] : List Fragment), f.type = "target-id" := by simp
  have h1 := targetStep_types (doc, 1, []) "pinnedTopLeft" h0
  have h2 := targetStep_types (targetStep (doc, 1, []) "pinnedTopLeft") "pinnedTopRight" h1
  have h3 := targetStep_types (targetStep (targetStep (doc, 1, []) "pinnedTopLeft")
    "pinnedTopRight") "pinnedBottomLeft" h2
  simpa [targetPhase, targetIds, List.foldl] using h3

/-- Once a resolved id is in the dedup set, the loop adds no further section
fragment carrying it. -/
theorem sectionLoop_filter_done : ∀ (i : Nat) (entries : List (HNode × Bool))
    (processed : List String) (ctr : Nat) (frags : List Fragment) (sid : String),
    sid ∈ processed →
    (sectionLoop i entries processed ctr frags).2.2.filter
        (fun f => f.type = "section" && f.originalId = sid) =
      frags.filter (fun f => f.type = "section" && f.originalId = sid)
  | _, [], processed, ctr, frags, sid, hin => by simp [sectionLoop]
  | i, (n, nested) :: rest, processed, ctr, frags, sid, hin => by
    by_cases hn : nested = true
    · subst hn
      simpa [sectionLoop] using
        sectionLoop_filter_done (i + 1) rest processed ctr frags sid hin
    · rw [Bool.not_eq_true] at hn
      subst hn
      by_cases hdup : resolvedId n i ∈ processed
      · simpa [sectionLoop, hdup] using
          sectionLoop_filter_done (i + 1) rest processed ctr frags sid hin
      · have hne : resolvedId n i ≠ sid := fun hEq => hdup (hEq ▸ hin)
        have hrec := sectionLoop_filter_done (i + 1) rest (processed ++ [resolvedId n i])
          (ctr + 1) (frags ++ [mkSectionFragment n (resolvedId n i) ctr]) sid
          (List.mem_append_left _ hin)
        rw [show sectionLoop i ((n, false) :: rest) processed ctr frags =
            sectionLoop (i + 1) rest (processed ++ [resolvedId n i]) (ctr + 1)
              (frags ++ [mkSectionFragment n (resolvedId n i) ctr]) from by
          simp [sectionLoop, hdup]]
        rw [hrec, List.filter_append]
        have : List.filter (fun f => f.type = "section" && f.originalId = sid)
            [mkSectionFragment n (resolvedId n i) ctr] = [] := by
          simp [mkSectionFragment, hne]
        rw [this, List.append_nil]

/-- First-occurrence uniqueness: when the snapshot contains a non-nested
section `A` at position `pre.length` whose resolved id was neither processed
before nor resolved by any earlier snapshot entry, the loop produces exactly
one section fragment with that id — A's own, at some counter value `≥ ctr`. -/
theorem sectionLoop_unique : ∀ (pre : List (HNode × Bool)) (A : HNode)
    (rest : List (HNode × Bool)) (i : Nat) (processed : List String) (ctr : Nat)
    (frags : List Fragment),
    (∀ j N nst, pre.get? j = some (N, nst) →
      nst = true ∨ resolvedId N (i + j) ≠ resolvedId A (i + pre.length)) →
    resolvedId A (i + pre.length) ∉ processed →
    ∃ c, ctr ≤ c ∧
      (sectionLoop i (pre ++ (A, false) :: rest) processed ctr frags).2.2.filter
          (fun f => f.type = "section" && f.originalId = resolvedId A (i + pre.length)) =
        frags.filter
            (fun f => f.type = "section" && f.originalId = resolvedId A (i + pre.length))
          ++ [mkSectionFragment A (resolvedId A (i + pre.length)) c]
  | [], A, rest, i, processed, ctr, frags, hpre, hproc => by
    refine ⟨ctr, le_rfl, ?_⟩
    have hsid : i + ([] : List (HNode × Bool)).length = i := by simp
    rw [hsid] at hproc ⊢
    have hstep : sectionLoop i ([] ++ (A, false) :: rest) processed ctr frags =
        sectionLoop (i + 1) rest (processed ++ [resolvedId A i]) (ctr + 1)
          (frags ++ [mkSectionFragment A (resolvedId A i) ctr]) := by
      simp [sectionLoop, hproc]
    rw [hstep,
      sectionLoop_filter_done (i + 1) rest (processed ++ [resolvedId A i]) (ctr + 1)
        (frags ++ [mkSectionFragment A (resolvedId A i) ctr]) (resolvedId A i)
        (by simp)]
    rw [List.filter_append]
    congr 1
    simp [mkSectionFragment]
  | (N, nst) :: pre', A, rest, i, processed, ctr, frags, hpre, hproc => by
    have hsid : i + ((N, nst) :: pre').length = (i + 1) + pre'.length := by
      simp [Nat.add_comm, Nat.add_assoc, Nat.add_left_comm]
    rw [hsid] at hproc ⊢
    have hpre' : ∀ j M mst, pre'.get? j = some (M, mst) →
        mst = true ∨ resolvedId M ((i + 1) + j) ≠ resolvedId A ((i + 1) + pre'.length) := by
      intro j M mst hj
      have := hpre (j + 1) M mst (by simpa using hj)
      rcases this with h | h
      · exact Or.inl h
      · refine Or.inr ?_
        have e1 : i + (j + 1) = (i + 1) + j := by omega
        have e2 : i + ((N, nst) :: pre').length = (i + 1) + pre'.length := hsid
        rw [e1, e2] at h
        exact h
    by_cases hn : nst = true
    · subst hn
      rcases sectionLoop_unique pre' A rest (i + 1) processed ctr frags hpre' hproc with
        ⟨c, hc, hfe⟩
      exact ⟨c, hc, by simpa [sectionLoop] using hfe⟩
    · rw [Bool.not_eq_true] at hn
      subst hn
      have hne : resolvedId N i ≠ resolvedId A ((i + 1) + pre'.length) := by
        have h0 := hpre 0 N false (by simp)
        rcases h0 with h | h
        · exact absurd h (by simp)
        · have h' : resolvedId N i ≠ resolvedId A (i + (pre'.length + 1)) := by simpa using h
          have e2 : i + (pre'.length + 1) = (i + 1) + pre'.length := by omega
          rw [e2] at h'
          exact h'
      by_cases hdup : resolvedId N i ∈ processed
      · rcases sectionLoop_unique pre' A rest (i + 1) processed ctr frags hpre' hproc with
        ⟨c, hc, hfe⟩
        exact ⟨c, hc, by simpa [sectionLoop, hdup] using hfe⟩
      · have hproc' : resolvedId A ((i + 1) + pre'.length) ∉ processed ++ [resolvedId N i] := by
          intro hmem
          rcases List.mem_append.mp hmem with h | h
          · exact hproc h
          · simp only [List.mem_singleton] at h
            exact hne h.symm
        rcases sectionLoop_unique pre' A rest (i + 1) (processed ++ [resolvedId N i]) (ctr + 1)
            (frags ++ [mkSectionFragment N (resolvedId N i) ctr]) hpre' hproc' with ⟨c, hc, hfe⟩
        refine ⟨c, by omega, ?_⟩
        have hstep : sectionLoop i (((N, false) :: pre') ++ (A, false) :: rest) processed ctr
            frags = sectionLoop (i + 1) (pre' ++ (A, false) :: rest)
              (processed ++ [resolvedId N i]) (ctr + 1)
              (frags ++ [mkSectionFragment N (resolvedId N i) ctr]) := by
          simp [sectionLoop, hdup]
        rw [hstep, hfe, List.filter_append]
        have hskip : List.filter
            (fun f => f.type = "section" && f.originalId = resolvedId A ((i + 1) + pre'.length))
            [mkSectionFragment N (resolvedId N i) ctr] = [] := by
          simp [mkSectionFragment, hne]
        rw [hskip, List.append_nil]

/-- C4 (amended): a nested section never receives its own token — every
section Fragment originates from a non-nested snapshot entry — and whenever
the post-phase-1 snapshot holds a *top-level* section `A` (entry `(A, false)`
at position `pre.length`) no earlier entry of which resolves to `A`'s id, and
a section `B` lies inside `A`'s subtree, then exactly one section Fragment
carries `A`'s resolved id: `A`'s own, found, with token number at least 4, and
`B`'s serialized markup appears verbatim inside its captured markup.  (The
claim as frozen fails when `A` is itself nested or its resolved id is a
duplicate: see the counterexample.) -/
theorem nested_section_rule (doc : HNode) (pre rest : List (HNode × Bool)) (A B : HNode)
    (hsnap : sectionNodes false (targetPhase doc).1 = pre ++ (A, false) :: rest)
    (hpre : ∀ j N nst, pre.get? j = some (N, nst) →
      nst = true ∨ resolvedId N j ≠ resolvedId A pre.length)
    (hB : inSubtree B A = true) :
    (∃ c, 4 ≤ c ∧
      (extractComponents doc).filter
          (fun f => f.type = "section" && f.originalId = resolvedId A pre.length) =
        [mkSectionFragment A (resolvedId A pre.length) c] ∧
      (mkSectionFragment A (resolvedId A pre.length) c).found = true ∧
      ∃ p q, (mkSectionFragment A (resolvedId A pre.length) c).componentHtml =
        p ++ serialize B ++ q) ∧
    (∀ f ∈ extractComponents doc, f.type = "section" →
      ∃ j N c, (sectionNodes false (targetPhase doc).1).get? j = some (N, false) ∧
        f = mkSectionFragment N (resolvedId N j) c) := by
  have htypes := targetPhase_types doc
  rcases htp : targetPhase doc with ⟨d1, c1, f1⟩
  rw [htp] at htypes hsnap
  simp only at htypes hsnap
  have hc1 : c1 = 4 := by
    have := (targetPhase_proj doc).1
    rw [htp] at this
    exact this
  have hec : extractComponents doc = (sectionLoop 0 (sectionNodes false d1) [] c1 f1).2.2 := by
    simp only [extractComponents, htp]
  constructor
  · have hpre0 : ∀ j N nst, pre.get? j = some (N, nst) →
        nst = true ∨ resolvedId N (0 + j) ≠ resolvedId A (0 + pre.length) := by
      intro j N nst hj
      rcases hpre j N nst hj with h | h
      · exact Or.inl h
      · refine Or.inr ?_
        simpa using h
    have huniq := sectionLoop_unique pre A rest 0 [] c1 f1 hpre0 (by simp)
    rcases huniq with ⟨c, hc, hfe⟩
    rw [← hsnap] at hfe
    have hbase : f1.filter
        (fun f => f.type = "section" && f.originalId = resolvedId A (0 + pre.length)) = [] := by
      apply List.filter_eq_nil_iff.mpr
      intro f hf
      simp [htypes f hf]
    rw [hbase] at hfe
    refine ⟨c, by omega, ?_, rfl, ?_⟩
    · rw [hec]
      simpa using hfe
    · rcases setWigIdRoot_contains A B (mkTokenText (mkPlaceholderId c)) hB with ⟨p, q, hpq⟩
      refine ⟨"<!DOCTYPE html>\n<html lang=\"en\">\n<head>\n    <meta charset=\"UTF-8\">\n"
        ++ "    <meta name=\"viewport\" content=\"width=device-width, initial-scale=1.0\">\n"
        ++ "    <title>Component: " ++ resolvedId A pre.length ++ "</title>\n</head>\n<body>\n"
        ++ "    <!-- Placeholder ID: " ++ mkPlaceholderId c ++ " -->\n"
        ++ "    <!-- Original ID: " ++ resolvedId A pre.length ++ " -->\n" ++ p,
        q ++ ("\n</body>\n</html>"), ?_⟩
      simp only [mkSectionFragment, createCleanComponentHTML]
      rw [hpq]
      simp [String.append_assoc]
  · intro f hf hsec
    rw [hec] at hf
    rcases sectionLoop_suffix 0 (sectionNodes false d1) [] c1 f1 with ⟨suffix, hs, hsp⟩
    rw [hs] at hf
    rcases List.mem_append.mp hf with hf | hf
    · exact absurd (htypes f hf) (by simp [hsec])
    · rcases hsp f hf with ⟨j, N, c, hj, _, rfl⟩
      exact ⟨j, N, c, hj, by simp⟩

/-- The inner section `B` of the C4 witness. -/
def wSecB : HNode := .elem "section" [("id", "b")] [.text "Y"]

/-- The top-level section `A` of the C4 witness, containing `B`. -/
def wSecA : HNode := .elem "section" [("id", "a")] [wSecB]

/-- The C4 witness document: `A` (with `B` nested inside) under `body`. -/
def wSecDoc : HNode := .elem "html" [] [.elem "body" [] [wSecA, .elem "div" [] []]]

/-- Witness for `nested_section_rule` at `wSecDoc`. -/
theorem nested_section_rule_witness :
    sectionNodes false (targetPhase wSecDoc).1 = [] ++ (wSecA, false) :: [(wSecB, true)] ∧
    inSubtree wSecB wSecA = true ∧
    ((∃ c, 4 ≤ c ∧
      (extractComponents wSecDoc).filter
          (fun f => f.type = "section" && f.originalId = resolvedId wSecA 0) =
        [mkSectionFragment wSecA (resolvedId wSecA 0) c] ∧
      (mkSectionFragment wSecA (resolvedId wSecA 0) c).found = true ∧
      ∃ p q, (mkSectionFragment wSecA (resolvedId wSecA 0) c).componentHtml =
        p ++ serialize wSecB ++ q) ∧
    (∀ f ∈ extractComponents wSecDoc, f.type = "section" →
      ∃ j N c, (sectionNodes false (targetPhase wSecDoc).1).get? j = some (N, false) ∧
        f = mkSectionFragment N (resolvedId N j) c)) :=
  ⟨by decide, by decide,
    nested_section_rule wSecDoc [] [(wSecB, true)] wSecA wSecB (by decide)
      (by intro j N nst h; simp at h) (by decide)⟩

/-- The C4 counterexample document: section `#c` contains section `#a` (our
`A`), which itself contains section `#b` (our `B`). -/
def cexSecDoc : HNode :=
  .elem "html" []
    [.elem "body" []
      [.elem "section" [("id", "c")]
        [.elem "section" [("id", "a")] [.elem "section" [("id", "b")] [.text "Y"]]]]]

/-- C4 as stated is false: `cexSecDoc` contains a section `A` (`#a`) that
contains a section `B` (`#b`), yet no section Fragment at all is produced for
`A` — the only section Fragment belongs to the outermost `#c`, because `A` is
itself nested and is skipped entirely.  "Exactly one section Fragment for that
pair (for A)" therefore fails on this input. -/
theorem nested_section_counterexample :
    (extractComponents cexSecDoc).filter (fun f => f.originalId = "a") = [] ∧
    ((extractComponents cexSecDoc).filter (fun f => f.type = "section")).map
        Fragment.originalId = ["c"] := by
  constructor
  · decide
  · decide

/-! ### Reconstructor (`ReconstructionService.reconstructHtml`), claims C2, C3.

The service operates purely on persisted strings: the latest template, the
ordered optimized components (each contributing its `optimized_html`, possibly
absent), and the widget rows `(widget_key, widget_html)`.  The JS string
operations are embedded on `List Char`: `includes` is `containsL`,
single-occurrence `replace` is `replaceFirstL`, the global escaped-token regex
replace is `replaceAllL`, `match(regex).length` is `countOcc`, and the
`wig-id="({{wigoh-id-\d+}})"` first-match extraction is `extractWigId`. -/

/-- ASCII digit test (`\d`). -/
def isDigitCh (c : Char) : Bool := '0' ≤ c && c ≤ '9'

/-- JS `str.replace(pat, rep)` with a plain-string pattern: the leftmost
occurrence only; the string is returned unchanged when the pattern is absent. -/
def replaceFirstL : List Char → List Char → List Char → List Char
  | [], pat, rep => if pat.isEmpty then rep else []
  | c :: t, pat, rep =>
    if pat.isPrefixOf (c :: t) then rep ++ (c :: t).drop pat.length
    else c :: replaceFirstL t pat rep

/-- Scanner for the global replace: at skip 0 it tries to match the pattern at
the current position (leftmost, non-overlapping); on a match it emits the
replacement and skips the rest of the matched span. -/
def replAux : List Char → List Char → List Char → Nat → List Char
  | [], _, _, _ => []
  | c :: t, pat, rep, 0 =>
    if pat.isPrefixOf (c :: t) && !pat.isEmpty then
      rep ++ replAux t pat rep (pat.length - 1)
    else c :: replAux t pat rep 0
  | _ :: t, pat, rep, k + 1 => replAux t pat rep k

/-- JS `str.replace(tokenRegex, rep)` with the `g` flag: every leftmost
non-overlapping occurrence is replaced. -/
def replaceAllL (s pat rep : List Char) : List Char := replAux s pat rep 0

/-- Occurrence counter for the same scan (`(str.match(regex) || []).length`). -/
def countAux : List Char → List Char → Nat → Nat
  | [], _, _ => 0
  | c :: t, pat, 0 =>
    if pat.isPrefixOf (c :: t) && !pat.isEmpty then 1 + countAux t pat (pat.length - 1)
    else countAux t pat 0
  | _ :: t, pat, k + 1 => countAux t pat k

/-- Number of leftmost non-overlapping occurrences of `pat` in `s`. -/
def countOcc (s pat : List Char) : Nat := countAux s pat 0

/-- The characters `{{wigoh-id-`. -/
def wigohPrefix : List Char := "\x7b\x7bwigoh-id-".data

/-- A well-formed component token: `{{wigoh-id-` + one or more digits + `}}`. -/
def wfToken (t : List Char) : Bool :=
  wigohPrefix.isPrefixOf t &&
    (!((t.drop wigohPrefix.length).takeWhile isDigitCh).isEmpty &&
      decide ((t.drop wigohPrefix.length).drop
          ((t.drop wigohPrefix.length).takeWhile isDigitCh).length = [rbrace, rbrace]))

/-- Match of `/wig-id="(\{\{wigoh-id-\d+\}\})"/` anchored at the current
position: the literal `wig-id="{{wigoh-id-`, then one or more digits (greedy),
then `}}"`; the captured group is the braced token. -/
def wigIdAt (s : List Char) : Option (List Char) :=
  if ("wig-id=".data ++ [dquote] ++ wigohPrefix).isPrefixOf s then
    if ((s.drop ("wig-id=".data ++ [dquote] ++ wigohPrefix).length).takeWhile
        isDigitCh).isEmpty then none
    else if [rbrace, rbrace, dquote].isPrefixOf
        ((s.drop ("wig-id=".data ++ [dquote] ++ wigohPrefix).length).drop
          ((s.drop ("wig-id=".data ++ [dquote] ++ wigohPrefix).length).takeWhile
            isDigitCh).length) then
      some (wigohPrefix ++
        (s.drop ("wig-id=".data ++ [dquote] ++ wigohPrefix).length).takeWhile isDigitCh
        ++ [rbrace, rbrace])
    else none
  else none

/-- First match of the `wig-id` pattern anywhere in the string
(`optimized_html.match(...)`, leftmost). -/
def extractWigId : List Char → Option (List Char)
  | [] => none
  | c :: t =>
    match wigIdAt (c :: t) with
    | some tok => some tok
    | none => extractWigId t

/-- One optimized component applied to the working template: skipped when it
has no optimized html or no `wig-id` token; otherwise, if the template
contains the token, the *first* occurrence is replaced with the component's
full markup. -/
def applyComponent (doc : List Char) (h? : Option (List Char)) : List Char :=
  match h? with
  | none => doc
  | some h =>
    match extractWigId h with
    | none => doc
    | some tok => if containsL doc tok then replaceFirstL doc tok h else doc

/-- Step 3 of `reconstructHtml`: the component loop, in persisted order. -/
def componentPass (doc : List Char) (comps : List (Option (List Char))) : List Char :=
  comps.foldl applyComponent doc

/-- One widget applied to the working document: when the token occurs, every
occurrence is replaced (global regex) and the occurrence count is added. -/
def applyWidget (st : List Char × Nat) (w : List Char × List Char) : List Char × Nat :=
  if containsL st.1 w.1 then
    (replaceAllL st.1 w.1 w.2, st.2 + countOcc st.1 w.1)
  else st

/-- Step 5 of `reconstructHtml`: the widget loop with its running
`widgetsReplaced` counter. -/
def widgetPass (doc : List Char) (widgets : List (List Char × List Char)) :
    List Char × Nat :=
  widgets.foldl applyWidget (doc, 0)

/-- `reconstructHtml`: components first, then widgets; returns the final
document and the widget substitution count. -/
def reconstructHtml (template : List Char) (comps : List (Option (List Char)))
    (widgets : List (List Char × List Char)) : List Char × Nat :=
  widgetPass (componentPass template comps) widgets

/-- Skipping `k` characters then rescanning equals rescanning the dropped
suffix. -/
theorem replAux_skip (pat rep : List Char) : ∀ (k : Nat) (t : List Char),
    replAux t pat rep k = replAux (t.drop k) pat rep 0
  | 0, t => by simp [List.drop]
  | k + 1, [] => by simp [replAux]
  | k + 1, c :: t => by
    rw [replAux, replAux_skip pat rep k t]
    simp

/-- Same for the occurrence counter. -/
theorem countAux_skip (pat : List Char) : ∀ (k : Nat) (t : List Char),
    countAux t pat k = countAux (t.drop k) pat 0
  | 0, t => by simp [List.drop]
  | k + 1, [] => by simp [countAux]
  | k + 1, c :: t => by
    rw [countAux, countAux_skip pat k t]
    simp

/-- Global replace, match step: a leftmost match is rewritten and scanning
resumes past it. -/
theorem replaceAllL_match (s pat rep : List Char) (hne : pat ≠ [])
    (hpre : pat.isPrefixOf s = true) :
    replaceAllL s pat rep = rep ++ replaceAllL (s.drop pat.length) pat rep := by
  cases s with
  | nil =>
    rw [List.isPrefixOf_iff_prefix] at hpre
    exact absurd (List.prefix_nil.mp hpre) hne
  | cons c t =>
    have hlen : 1 ≤ pat.length := by
      cases pat with
      | nil => exact absurd rfl hne
      | cons p ps => simp
    have hcond : (pat.isPrefixOf (c :: t) && !pat.isEmpty) = true := by
      simp [hpre, List.isEmpty_iff, hne]
    rw [replaceAllL, replAux, if_pos hcond, replAux_skip pat rep (pat.length - 1) t]
    have hdrop : t.drop (pat.length - 1) = (c :: t).drop pat.length := by
      cases pat with
      | nil => exact absurd rfl hne
      | cons p ps => simp
    rw [hdrop]
    rfl

/-- Global replace, no-match step. -/
theorem replaceAllL_nomatch (c : Char) (t pat rep : List Char)
    (h : pat.isPrefixOf (c :: t) = false) :
    replaceAllL (c :: t) pat rep = c :: replaceAllL t pat rep := by
  rw [replaceAllL, replAux, if_neg (by simp [h])]
  rfl

/-- Occurrence count, match step. -/
theorem countOcc_match (s pat : List Char) (hne : pat ≠ [])
    (hpre : pat.isPrefixOf s = true) :
    countOcc s pat = 1 + countOcc (s.drop pat.length) pat := by
  cases s with
  | nil =>
    rw [List.isPrefixOf_iff_prefix] at hpre
    exact absurd (List.prefix_nil.mp hpre) hne
  | cons c t =>
    have hcond : (pat.isPrefixOf (c :: t) && !pat.isEmpty) = true := by
      simp [hpre, List.isEmpty_iff, hne]
    rw [countOcc, countAux, if_pos hcond, countAux_skip pat (pat.length - 1) t]
    have hdrop : t.drop (pat.length - 1) = (c :: t).drop pat.length := by
      cases pat with
      | nil => exact absurd rfl hne
      | cons p ps => simp
    rw [hdrop]
    rfl

/-- Occurrence count, no-match step. -/
theorem countOcc_nomatch (c : Char) (t pat : List Char)
    (h : pat.isPrefixOf (c :: t) = false) :
    countOcc (c :: t) pat = countOcc t pat := by
  rw [countOcc, countAux, if_neg (by simp [h])]
  rfl

/-- A pattern that does not occur is not replaced: the document is unchanged
and the count is zero. -/
theorem replaceAllL_id_of_not_contains : ∀ (s pat rep : List Char),
    containsL s pat = false → replaceAllL s pat rep = s ∧ countOcc s pat = 0
  | [], pat, rep, h => ⟨rfl, rfl⟩
  | c :: t, pat, rep, h => by
    simp only [containsL, Bool.or_eq_false_iff] at h
    have ih := replaceAllL_id_of_not_contains t pat rep h.2
    rw [replaceAllL_nomatch c t pat rep h.1, countOcc_nomatch c t pat h.1, ih.1]
    exact ⟨rfl, ih.2⟩

/-- The counts the widget loop accumulates: each widget contributes the number
of occurrences of its token in the working document at its own step. -/
def widgetCounts : List Char → List (List Char × List Char) → Nat
  | _, [] => 0
  | d, w :: ws => countOcc d w.1 + widgetCounts (replaceAllL d w.1 w.2) ws

/-- The widget fold with an arbitrary starting count. -/
theorem widgetPass_foldl : ∀ (ws : List (List Char × List Char)) (d : List Char) (c0 : Nat),
    ws.foldl applyWidget (d, c0) =
      (ws.foldl (fun a w => replaceAllL a w.1 w.2) d, c0 + widgetCounts d ws)
  | [], d, c0 => by simp [widgetCounts]
  | w :: ws, d, c0 => by
    by_cases hc : containsL d w.1 = true
    · rw [List.foldl_cons, show applyWidget (d, c0) w =
          (replaceAllL d w.1 w.2, c0 + countOcc d w.1) from by simp [applyWidget, hc]]
      rw [widgetPass_foldl ws (replaceAllL d w.1 w.2) (c0 + countOcc d w.1)]
      simp [widgetCounts, Nat.add_assoc]
    · rw [Bool.not_eq_true] at hc
      have hid := replaceAllL_id_of_not_contains d w.1 w.2 hc
      rw [List.foldl_cons, show applyWidget (d, c0) w = (d, c0) from by simp [applyWidget, hc]]
      rw [widgetPass_foldl ws d c0]
      simp [widgetCounts, hid.1, hid.2]

/-- C3: the widget pass of `reconstructHtml` performs, for each persisted
widget in order, a *global* replacement of its token by its fragment markup in
the working document (`replaceAllL`, the embedding of the escaped-token
`g`-regex replace), and adds to the reported count exactly the number of
occurrences replaced at that step; the contains-guard of the source is
semantically transparent (an absent token replaces nothing and adds zero). -/
theorem widget_pass_global_replace (doc : List Char)
    (ws : List (List Char × List Char)) :
    (widgetPass doc ws).1 = ws.foldl (fun a w => replaceAllL a w.1 w.2) doc ∧
    (widgetPass doc ws).2 = widgetCounts doc ws ∧
    ∀ (d : List Char) (k h : List Char) (rest : List (List Char × List Char)),
      widgetPass d ((k, h) :: rest) =
        ((widgetPass (replaceAllL d k h) rest).1,
          countOcc d k + (widgetPass (replaceAllL d k h) rest).2) := by
  refine ⟨?_, ?_, ?_⟩
  · rw [widgetPass, widgetPass_foldl ws doc 0]
  · rw [widgetPass, widgetPass_foldl ws doc 0]
    simp
  · intro d k h rest
    rw [widgetPass, widgetPass, widgetPass_foldl rest (replaceAllL d k h) 0]
    rw [widgetPass_foldl ((k, h) :: rest) d 0]
    simp [widgetCounts]

/-- `containsL` is substring occurrence. -/
theorem containsL_iff : ∀ (s pat : List Char),
    containsL s pat = true ↔ ∃ a b, s = a ++ pat ++ b
  | [], pat => by
    constructor
    · intro h
      have : pat = [] := by simpa [containsL, List.isEmpty_iff] using h
      exact ⟨[], [], by simp [this]⟩
    · rintro ⟨a, b, h⟩
      have h1 := List.append_eq_nil.mp h.symm
      have : pat = [] := (List.append_eq_nil.mp h1.1).2
      simp [containsL, List.isEmpty_iff, this]
  | c :: t, pat => by
    constructor
    · intro h
      rw [containsL, Bool.or_eq_true] at h
      rcases h with hp | hc
      · rcases List.isPrefixOf_iff_prefix.mp hp with ⟨b, hb⟩
        exact ⟨[], b, by simp [hb.symm]⟩
      · rcases (containsL_iff t pat).mp hc with ⟨a, b, hab⟩
        exact ⟨c :: a, b, by simp [hab]⟩
    · rintro ⟨a, b, hab⟩
      cases a with
      | nil =>
        have hp : pat.isPrefixOf (c :: t) = true :=
          List.isPrefixOf_iff_prefix.mpr ⟨b, by simpa using hab.symm⟩
        simp [containsL, hp]
      | cons x a' =>
        have hx : c :: t = x :: (a' ++ pat ++ b) := by simpa using hab
        have ht : t = a' ++ pat ++ b := (List.cons.injEq .. ▸ hx).2
        have := (containsL_iff t pat).mpr ⟨a', b, ht⟩
        simp [containsL, this]

/-- A pattern that does not occur is not first-replaced either. -/
theorem replaceFirstL_id_of_not_contains : ∀ (d pat rep : List Char),
    containsL d pat = false → replaceFirstL d pat rep = d
  | [], pat, rep, h => by
    have : pat.isEmpty = false := by simpa [containsL] using h
    simp [replaceFirstL, this]
  | c :: t, pat, rep, h => by
    simp only [containsL, Bool.or_eq_false_iff] at h
    rw [replaceFirstL, if_neg (by simp [h.1])]
    rw [replaceFirstL_id_of_not_contains t pat rep h.2]

/-- Specification of `replaceFirstL`: it rewrites exactly the leftmost
occurrence. -/
theorem replaceFirstL_spec : ∀ (d pat rep : List Char), containsL d pat = true →
    ∃ a b, d = a ++ pat ++ b ∧ replaceFirstL d pat rep = a ++ rep ++ b ∧
      ∀ a' b', d = a' ++ pat ++ b' → a.length ≤ a'.length
  | [], pat, rep, h => by
    have hp : pat = [] := by simpa [containsL, List.isEmpty_iff] using h
    subst hp
    exact ⟨[], [], by simp, by simp [replaceFirstL], fun a' b' _ => by simp⟩
  | c :: t, pat, rep, h => by
    by_cases hp : pat.isPrefixOf (c :: t) = true
    · rcases List.isPrefixOf_iff_prefix.mp hp with ⟨b, hb⟩
      refine ⟨[], (c :: t).drop pat.length, ?_, ?_, fun a' b' _ => by simp⟩
      · rw [← hb, List.drop_left]
        simp
      · rw [replaceFirstL, if_pos hp]
        simp
    · have hc : containsL t pat = true := by
        rw [containsL, Bool.or_eq_true] at h
        rcases h with h1 | h2
        · exact absurd h1 hp
        · exact h2
      rcases replaceFirstL_spec t pat rep hc with ⟨a, b, hd, hr, hmin⟩
      refine ⟨c :: a, b, by simp [hd], ?_, ?_⟩
      · rw [replaceFirstL, if_neg hp, hr]
        simp
      · intro a' b' hab
        cases a' with
        | nil =>
          exfalso
          apply hp
          exact List.isPrefixOf_iff_prefix.mpr ⟨b', by simpa using hab.symm⟩
        | cons x a'' =>
          have hx : c :: t = x :: (a'' ++ pat ++ b') := by simpa using hab
          have ht : t = a'' ++ pat ++ b' := (List.cons.injEq .. ▸ hx).2
          have := hmin a'' b' ht
          simpa using Nat.succ_le_succ this

/-- Construction form of well-formed tokens. -/
theorem wfToken_build (ds : List Char) (hne : ds ≠ [])
    (hdig : ∀ c ∈ ds, isDigitCh c = true) :
    wfToken (wigohPrefix ++ (ds ++ [rbrace, rbrace])) = true := by
  have htwgen : ∀ es : List Char, (∀ c ∈ es, isDigitCh c = true) →
      (es ++ [rbrace, rbrace]).takeWhile isDigitCh = es := by
    intro es
    induction es with
    | nil =>
      intro _
      decide
    | cons c cs ih =>
      intro hd
      have hc := hd c (List.mem_cons_self _ _)
      have ih' := ih (fun x hx => hd x (List.mem_cons_of_mem _ hx))
      simp [List.takeWhile_cons, hc, ih']
  have htw := htwgen ds hdig
  have hdrop1 : (wigohPrefix ++ (ds ++ [rbrace, rbrace])).drop wigohPrefix.length =
      ds ++ [rbrace, rbrace] := List.drop_left _ _
  rw [wfToken, hdrop1, htw]
  have hpre : wigohPrefix.isPrefixOf (wigohPrefix ++ (ds ++ [rbrace, rbrace])) = true :=
    List.isPrefixOf_iff_prefix.mpr (List.prefix_append _ _)
  simp [hpre, List.isEmpty_iff, hne, List.drop_left]

/-- Destruction form of well-formed tokens. -/
theorem wfToken_dest (t : List Char) (h : wfToken t = true) :
    ∃ ds, ds ≠ [] ∧ (∀ c ∈ ds, isDigitCh c = true) ∧
      t = wigohPrefix ++ (ds ++ [rbrace, rbrace]) := by
  rw [wfToken, Bool.and_eq_true, Bool.and_eq_true] at h
  rcases h with ⟨hpre, hne, hdrop⟩
  rcases List.isPrefixOf_iff_prefix.mp hpre with ⟨r, hr⟩
  have hrd : t.drop wigohPrefix.length = r := by
    rw [← hr, List.drop_left]
  rw [hrd] at hne hdrop
  obtain ⟨q, hq⟩ := (List.takeWhile_prefix isDigitCh : r.takeWhile isDigitCh <+: r)
  set ds := r.takeWhile isDigitCh with hds
  have hqd : r.drop ds.length = q := by rw [← hq, List.drop_left]
  rw [hqd] at hdrop
  have hqv : q = [rbrace, rbrace] := of_decide_eq_true hdrop
  refine ⟨ds, by simpa [List.isEmpty_iff] using hne,
    fun c hc => List.mem_takeWhile_imp hc, ?_⟩
  rw [← hr, ← hq, hqv]

/-- A well-formed token is two left braces followed by a nonempty brace-free
tail. -/
theorem wfToken_shape (t : List Char) (h : wfToken t = true) :
    ∃ r, t = lbrace :: lbrace :: r ∧ lbrace ∉ r ∧ r ≠ [] := by
  rcases wfToken_dest t h with ⟨ds, hne, hdig, rfl⟩
  refine ⟨"wigoh-id-".data ++ (ds ++ [rbrace, rbrace]), ?_, ?_, by simp⟩
  · have hw : wigohPrefix = lbrace :: lbrace :: "wigoh-id-".data := by decide
    rw [hw]
    simp
  · intro hmem
    rcases List.mem_append.mp hmem with hm | hm
    · revert hm
      decide
    · rcases List.mem_append.mp hm with hm2 | hm2
      · have hd := hdig lbrace hm2
        revert hd
        decide
      · revert hm2
        decide

/-- A well-formed token that is a prefix of another equals it. -/
theorem wfToken_prefix_eq (t u : List Char) (ht : wfToken t = true) (hu : wfToken u = true)
    (hp : t <+: u) : t = u := by
  rcases wfToken_dest t ht with ⟨ds, hdne, hddig, rfl⟩
  rcases wfToken_dest u hu with ⟨es, hene, hedig, rfl⟩
  rcases hp with ⟨w, hw⟩
  have hw0 : wigohPrefix ++ ((ds ++ [rbrace, rbrace]) ++ w) =
      wigohPrefix ++ (es ++ [rbrace, rbrace]) := by
    rw [← List.append_assoc]
    exact hw
  have hw' : (ds ++ [rbrace, rbrace]) ++ w = es ++ [rbrace, rbrace] :=
    List.append_cancel_left hw0
  have hds : ds <+: es ++ [rbrace, rbrace] :=
    ⟨[rbrace, rbrace] ++ w, by rw [← hw']; simp [List.append_assoc]⟩
  have hes : es <+: es ++ [rbrace, rbrace] := ⟨[rbrace, rbrace], rfl⟩
  rcases Nat.le_total ds.length es.length with hlen | hlen
  · rcases List.prefix_of_prefix_length_le hds hes hlen with ⟨g, hg⟩
    cases g with
    | nil =>
      rw [List.append_nil] at hg
      rw [hg]
    | cons c g' =>
      exfalso
      have hgw0 : ds ++ ([rbrace, rbrace] ++ w) = ds ++ ((c :: g') ++ [rbrace, rbrace]) := by
        rw [← List.append_assoc, hw', ← hg, List.append_assoc]
      have hgw : [rbrace, rbrace] ++ w = (c :: g') ++ [rbrace, rbrace] :=
        List.append_cancel_left hgw0
      have hcrb : c = rbrace := by
        have hh := congrArg (fun l => l.head?) hgw
        simp at hh
        exact hh.symm
      have hcd : isDigitCh c = true := by
        apply hedig
        rw [← hg]
        exact List.mem_append_right _ (List.mem_cons_self _ _)
      rw [hcrb] at hcd
      revert hcd
      decide
  · rcases List.prefix_of_prefix_length_le hes hds hlen with ⟨g, hg⟩
    have hlg0 : es ++ ((g ++ [rbrace, rbrace]) ++ w) = es ++ [rbrace, rbrace] := by
      rw [← List.append_assoc, ← List.append_assoc, hg]
      exact hw'
    have hlg : (g ++ [rbrace, rbrace]) ++ w = [rbrace, rbrace] :=
      List.append_cancel_left hlg0
    have hlen2 := congrArg List.length hlg
    simp at hlen2
    have hg0 : g = [] := List.length_eq_zero.mp (by omega)
    rw [hg0, List.append_nil] at hg
    rw [hg]

/-- A well-formed token has no occurrence of a well-formed token at a
positive offset inside it. -/
theorem wfToken_not_internal (t u x y : List Char) (ht : wfToken t = true)
    (hu : wfToken u = true) (hx : x ≠ []) (he : t = x ++ u ++ y) : False := by
  rcases wfToken_shape t ht with ⟨r, hts, hlb, hrne⟩
  rcases wfToken_shape u hu with ⟨ru, hus, _, _⟩
  cases x with
  | nil => exact hx rfl
  | cons c x' =>
    cases x' with
    | nil =>
      rw [hts, hus] at he
      simp only [List.cons_append, List.nil_append, List.cons.injEq] at he
      exact hlb (he.2.2 ▸ List.mem_cons_self _ _)
    | cons c2 x'' =>
      rw [hts, hus] at he
      simp only [List.cons_append, List.cons.injEq] at he
      apply hlb
      rw [he.2.2]
      exact List.mem_append_left _
        (List.mem_append_right _ (List.mem_cons_self _ _))

/-- No nonempty proper suffix of a well-formed token is a prefix of a
well-formed token. -/
theorem wfToken_no_suffix_pref (t u δ ε : List Char) (ht : wfToken t = true)
    (hu : wfToken u = true) (hδ : δ ≠ []) (hε : ε ≠ []) (hsplit : t = δ ++ ε)
    (hp : ε <+: u) : False := by
  rcases wfToken_shape t ht with ⟨r, hts, hlb, hrne⟩
  rcases wfToken_shape u hu with ⟨ru, hus, _, _⟩
  cases ε with
  | nil => exact hε rfl
  | cons e1 ε' =>
    have he1 : e1 = lbrace := by
      rcases hp with ⟨w, hw⟩
      rw [hus] at hw
      have := congrArg (fun l => l.head?) hw
      simpa using this
    subst he1
    cases δ with
    | nil => exact hδ rfl
    | cons d1 δ' =>
      cases δ' with
      | nil =>
        rw [hts] at hsplit
        simp only [List.cons_append, List.nil_append, List.cons.injEq] at hsplit
        have hr : r = ε' := hsplit.2.2
        rcases hp with ⟨w, hw⟩
        rw [hus] at hw
        simp only [List.cons_append, List.cons.injEq] at hw
        cases hre : r with
        | nil => exact hrne hre
        | cons rh r2 =>
          have hε' : ε' = rh :: r2 := by rw [← hr, hre]
          have : rh :: r2 ++ w = lbrace :: ru := by
            rw [← hε']
            exact hw.2
          have hrh : rh = lbrace := by
            have := congrArg (fun l => l.head?) this
            simpa using this
          apply hlb
          rw [hre, hrh]
          exact List.mem_cons_self _ _
      | cons d2 δ'' =>
        rw [hts] at hsplit
        simp only [List.cons_append, List.cons.injEq] at hsplit
        apply hlb
        rw [hsplit.2.2]
        exact List.mem_append_right _ (List.mem_cons_self _ _)

/-- Occurrences of two distinct well-formed tokens in the same string are
disjoint: when `t`'s occurrence starts no later than `u`'s, it ends before
`u`'s begins. -/
theorem token_occ_left (s a t b α u β : List Char) (ht : wfToken t = true)
    (hu : wfToken u = true) (hne : t ≠ u) (h1 : s = a ++ t ++ b) (h2 : s = α ++ u ++ β)
    (hle : a.length ≤ α.length) : ∃ γ, α = a ++ t ++ γ ∧ b = γ ++ u ++ β := by
  have hpa : a <+: s := ⟨t ++ b, by rw [h1, List.append_assoc]⟩
  have hpα : α <+: s := ⟨u ++ β, by rw [h2, List.append_assoc]⟩
  rcases List.prefix_of_prefix_length_le hpa hpα hle with ⟨δ, hδ⟩
  have hkey : t ++ b = δ ++ (u ++ β) := by
    apply List.append_cancel_left
    calc a ++ (t ++ b) = (a ++ t) ++ b := by rw [List.append_assoc]
      _ = s := h1.symm
      _ = (α ++ u) ++ β := h2
      _ = α ++ (u ++ β) := by rw [List.append_assoc]
      _ = (a ++ δ) ++ (u ++ β) := by rw [hδ]
      _ = a ++ (δ ++ (u ++ β)) := by rw [List.append_assoc]
  by_cases hδe : δ = []
  · exfalso
    subst hδe
    rw [List.nil_append] at hkey
    have hpt : t <+: t ++ b := ⟨b, rfl⟩
    have hpu : u <+: t ++ b := ⟨β, hkey.symm⟩
    rcases Nat.le_total t.length u.length with hl | hl
    · exact hne (wfToken_prefix_eq t u ht hu (List.prefix_of_prefix_length_le hpt hpu hl))
    · exact hne (wfToken_prefix_eq u t hu ht
        (List.prefix_of_prefix_length_le hpu hpt hl)).symm
  · by_cases hlen2 : t.length ≤ δ.length
    · have hpt : t <+: t ++ b := ⟨b, rfl⟩
      have hpδ : δ <+: t ++ b := ⟨u ++ β, hkey.symm⟩
      rcases List.prefix_of_prefix_length_le hpt hpδ hlen2 with ⟨γ, hγ⟩
      refine ⟨γ, ?_, ?_⟩
      · rw [← hδ, ← hγ, List.append_assoc]
      · have hb0 : t ++ b = t ++ (γ ++ (u ++ β)) := by
          rw [← List.append_assoc, hγ]
          exact hkey
        have := List.append_cancel_left hb0
        rw [this, List.append_assoc]
    · exfalso
      push_neg at hlen2
      have hpδ : δ <+: t ++ b := ⟨u ++ β, hkey.symm⟩
      have hpt : t <+: t ++ b := ⟨b, rfl⟩
      rcases List.prefix_of_prefix_length_le hpδ hpt (Nat.le_of_lt hlen2) with ⟨ε, hε⟩
      have hεne : ε ≠ [] := by
        intro h0
        rw [h0, List.append_nil] at hε
        rw [hε] at hlen2
        exact Nat.lt_irrefl _ hlen2
      have hεb : ε ++ b = u ++ β := by
        apply List.append_cancel_left
        rw [← List.append_assoc, hε]
        exact hkey
      by_cases hlen3 : ε.length ≤ u.length
      · have hpε : ε <+: ε ++ b := ⟨b, rfl⟩
        have hpu : u <+: ε ++ b := ⟨β, hεb.symm⟩
        have hεu : ε <+: u := List.prefix_of_prefix_length_le hpε hpu hlen3
        exact wfToken_no_suffix_pref t u δ ε ht hu hδe hεne hε.symm hεu
      · push_neg at hlen3
        have hpε : ε <+: ε ++ b := ⟨b, rfl⟩
        have hpu : u <+: ε ++ b := ⟨β, hεb.symm⟩
        rcases List.prefix_of_prefix_length_le hpu hpε (Nat.le_of_lt hlen3) with ⟨v, hv⟩
        exact wfToken_not_internal t u δ v ht hu hδe
          (by rw [← hε, ← hv, List.append_assoc])

/-- Replacing the first occurrence of one well-formed token cannot destroy an
occurrence of a different well-formed token. -/
theorem replaceFirstL_preserves (d t u m : List Char) (ht : wfToken t = true)
    (hu : wfToken u = true) (hne : t ≠ u) (hcu : containsL d u = true) :
    containsL (replaceFirstL d t m) u = true := by
  by_cases hct : containsL d t = true
  · rcases replaceFirstL_spec d t m hct with ⟨a, b, hd, hr, hmin⟩
    rcases (containsL_iff d u).mp hcu with ⟨α, β, hd2⟩
    by_cases hlen : a.length ≤ α.length
    · rcases token_occ_left d a t b α u β ht hu hne hd hd2 hlen with ⟨γ, hα, hb⟩
      rw [hr, hb]
      exact (containsL_iff _ u).mpr ⟨a ++ m ++ γ, β, by simp [List.append_assoc]⟩
    · push_neg at hlen
      rcases token_occ_left d α u β a t b hu ht (Ne.symm hne) hd2 hd (Nat.le_of_lt hlen)
        with ⟨γ, ha, hβ⟩
      rw [hr, ha]
      exact (containsL_iff _ u).mpr ⟨α, γ ++ m ++ b, by simp [List.append_assoc]⟩
  · rw [Bool.not_eq_true] at hct
    rw [replaceFirstL_id_of_not_contains d t m hct]
    exact hcu

/-- A successful anchored `wig-id` match yields a well-formed token. -/
theorem wigIdAt_wf (s tok : List Char) (h : wigIdAt s = some tok) : wfToken tok = true := by
  rw [wigIdAt] at h
  split at h
  · split at h
    · exact absurd h (by simp)
    · split at h
      · rename_i hne _
        have htok := Option.some.inj h
        rw [← htok, List.append_assoc]
        exact wfToken_build _ (by simpa [List.isEmpty_iff] using hne)
          (fun c hc => List.mem_takeWhile_imp hc)
      · exact absurd h (by simp)
  · exact absurd h (by simp)

/-- The first `wig-id` match anywhere in a component's markup is a well-formed
token. -/
theorem extractWigId_wf : ∀ (s tok : List Char), extractWigId s = some tok →
    wfToken tok = true
  | [], tok, h => by simp [extractWigId] at h
  | c :: t, tok, h => by
    rw [extractWigId] at h
    cases hat : wigIdAt (c :: t) with
    | some tk =>
      rw [hat] at h
      have : tk = tok := by simpa using h
      exact this ▸ wigIdAt_wf (c :: t) tk hat
    | none =>
      rw [hat] at h
      exact extractWigId_wf t tok (by simpa using h)

/-- The component pass never destroys a well-formed token that none of the
applied components resolves to. -/
theorem componentPass_preserves : ∀ (comps : List (Option (List Char))) (T u : List Char),
    wfToken u = true → containsL T u = true →
    (∀ h t, some h ∈ comps → extractWigId h = some t → t ≠ u) →
    containsL (componentPass T comps) u = true
  | [], T, u, _, hc, _ => hc
  | c? :: rest, T, u, hwu, hc, hno => by
    have hno' : ∀ h t, some h ∈ rest → extractWigId h = some t → t ≠ u :=
      fun h t hm he => hno h t (List.mem_cons_of_mem _ hm) he
    cases c? with
    | none =>
      rw [show componentPass T (none :: rest) = componentPass T rest from by
        simp [componentPass, applyComponent]]
      exact componentPass_preserves rest T u hwu hc hno'
    | some h =>
      cases hext : extractWigId h with
      | none =>
        rw [show componentPass T (some h :: rest) = componentPass T rest from by
          simp [componentPass, applyComponent, hext]]
        exact componentPass_preserves rest T u hwu hc hno'
      | some t =>
        have hne : t ≠ u := hno h t (List.mem_cons_self _ _) hext
        have hwt : wfToken t = true := extractWigId_wf h t hext
        by_cases hct : containsL T t = true
        · rw [show componentPass T (some h :: rest) =
              componentPass (replaceFirstL T t h) rest from by
            simp [componentPass, applyComponent, hext, hct]]
          exact componentPass_preserves rest (replaceFirstL T t h) u hwu
            (replaceFirstL_preserves T t u h hwt hwu hne hc) hno'
        · rw [Bool.not_eq_true] at hct
          rw [show componentPass T (some h :: rest) = componentPass T rest from by
            simp [componentPass, applyComponent, hext, hct]]
          exact componentPass_preserves rest T u hwu hc hno'

/-- C2 (amended): in `reconstructHtml`'s component pass, (1) a component whose
markup resolves to token `t` present in the working template replaces exactly
the *first* occurrence of `t` with its full markup, (2) `replaceFirstL`
rewrites precisely the leftmost occurrence, so the token may well survive in
the output — in particular inside the substituted markup's own `wig-id`
attribute — and (3) every well-formed token *not* covered by the component set
remains literally present in the output.  The claim's "every token of S is
absent from the output" is refuted by `component_tokens_counterexample`. -/
theorem reconstructor_component_tokens :
    (∀ (d m t : List Char) (rest : List (Option (List Char))),
      extractWigId m = some t → containsL d t = true →
      componentPass d (some m :: rest) = componentPass (replaceFirstL d t m) rest) ∧
    (∀ d t m : List Char, containsL d t = true → ∃ a b, d = a ++ t ++ b ∧
      replaceFirstL d t m = a ++ m ++ b ∧
      ∀ a' b', d = a' ++ t ++ b' → a.length ≤ a'.length) ∧
    (∀ (comps : List (Option (List Char))) (T u : List Char),
      wfToken u = true → containsL T u = true →
      (∀ h t, some h ∈ comps → extractWigId h = some t → t ≠ u) →
      containsL (componentPass T comps) u = true) := by
  refine ⟨?_, replaceFirstL_spec, componentPass_preserves⟩
  intro d m t rest hm hc
  simp [componentPass, applyComponent, hm, hc]

/-- The token of the C2 scenario. -/
def cexWigToken : List Char := ("\x7b\x7bwigoh-id-001\x7d\x7d").data

/-- A second token, not covered by the component set of the witness. -/
def wSecondToken : List Char := ("\x7b\x7bwigoh-id-002\x7d\x7d").data

/-- The persisted component markup of the C2 scenario: its `wig-id` marker
attribute carries its own token. -/
def cexCompMarkup : List Char :=
  ("<section wig-id=").data ++ [dquote] ++ cexWigToken ++ [dquote] ++ (">").data
    ++ ("\x7b\x7bwidget-1\x7d\x7d").data ++ ("</section>").data

/-- The template of the C2 scenario, holding both tokens. -/
def cexTemplate : List Char :=
  ("<div>").data ++ cexWigToken ++ wSecondToken ++ ("</div>").data

/-- C2 as stated is false: the component set covers `{{wigoh-id-001}}`
(`extractWigId` finds it in the markup), the template contains it, and after
the component pass the token is *still present* in the output — the
substituted markup reintroduces it inside its `wig-id` attribute. -/
theorem component_tokens_counterexample :
    extractWigId cexCompMarkup = some cexWigToken ∧
    containsL cexTemplate cexWigToken = true ∧
    containsL (componentPass cexTemplate [some cexCompMarkup]) cexWigToken = true := by
  refine ⟨by decide, by decide, by decide⟩

/-- Witness for `reconstructor_component_tokens`, at the concrete scenario:
part 1 at the covered token, part 2 at its first occurrence, part 3 at the
uncovered second token. -/
theorem reconstructor_component_tokens_witness :
    (componentPass cexTemplate [some cexCompMarkup] =
      componentPass (replaceFirstL cexTemplate cexWigToken cexCompMarkup) []) ∧
    (∃ a b, cexTemplate = a ++ cexWigToken ++ b ∧
      replaceFirstL cexTemplate cexWigToken cexCompMarkup = a ++ cexCompMarkup ++ b ∧
      ∀ a' b', cexTemplate = a' ++ cexWigToken ++ b' → a.length ≤ a'.length) ∧
    containsL (componentPass cexTemplate [some cexCompMarkup]) wSecondToken = true :=
  ⟨reconstructor_component_tokens.1 cexTemplate cexCompMarkup cexWigToken [] (by decide)
      (by decide),
   reconstructor_component_tokens.2.1 cexTemplate cexWigToken cexCompMarkup (by decide),
   reconstructor_component_tokens.2.2 [some cexCompMarkup] cexTemplate wSecondToken
     (by decide) (by decide)
     (by
       intro h t hmem hext
       have hh : h = cexCompMarkup := by
         have := List.mem_singleton.mp hmem
         simpa using this
       subst hh
       have ht : t = cexWigToken := by
         rw [show extractWigId cexCompMarkup = some cexWigToken from by decide] at hext
         exact (by simpa using hext : cexWigToken = t).symm
       subst ht
       decide)⟩

/-! ### TreeSerializer (`HtmlToJsonService.convertToJson`), claim C9 -/

/-- A parsed cheerio node as `elementToJson` distinguishes them: text node,
comment node, element (`type === 'tag'`), anything else. -/
inductive CNode where
  | text (s : String)
  | comment (s : String)
  | tag (name : String) (attribs : List (String × String)) (children : List CNode)
  | other

/-- The exported `DOMNode` shape: tag name, flat attribute copy, children
(sub-nodes or strings) and the optional promoted `textContent`. -/
inductive JNode where
  | mk (tagName : String) (attributes : List (String × String))
      (children : List (JNode ⊕ String)) (textContent : Option String)

mutual

/-- Embedding of `HtmlToJsonService.elementToJson`, with the running node
counter made explicit (incremented at entry for *every* visited node,
including comments and dropped text).  A text node becomes its trimmed text, a
comment (or unknown type) the empty string; an element collects its converted
children, dropping strings that are empty after trimming, and finally promotes
a sole string child to `textContent` with an emptied children list. -/
def elementToJson : CNode → Nat → (JNode ⊕ String) × Nat
  | .text s, ctr => (Sum.inr (String.mk (trimL s.data)), ctr + 1)
  | .comment _, ctr => (Sum.inr "", ctr + 1)
  | .other, ctr => (Sum.inr "", ctr + 1)
  | .tag name attribs children, ctr =>
    match childrenToJson children (ctr + 1) with
    | (kids, ctr') =>
      match kids with
      | [Suminr1] =>
        match Suminr1 with
        | Sum.inr s => (Sum.inl (JNode.mk name attribs [] (some s)), ctr')
        | Sum.inl n => (Sum.inl (JNode.mk name attribs [Sum.inl n] none), ctr')
      | _ => (Sum.inl (JNode.mk name attribs kids none), ctr')
termination_by structural n => n

/-- The `element.children.forEach` assembly loop: non-empty strings and every
converted element node are pushed, in order. -/
def childrenToJson : List CNode → Nat → List (JNode ⊕ String) × Nat
  | [], ctr => ([], ctr)
  | c :: cs, ctr =>
    match elementToJson c ctr with
    | (jc, ctr1) =>
      match childrenToJson cs ctr1 with
      | (rest, ctr2) =>
        match jc with
        | Sum.inr s =>
          if (trimL s.data).isEmpty then (rest, ctr2) else (Sum.inr s :: rest, ctr2)
        | Sum.inl n => (Sum.inl n :: rest, ctr2)
termination_by structural l => l

end

/-- `convertToJson` applied to the `<body>` entry point, counter reset to 0. -/
def convertToJson (body : CNode) : (JNode ⊕ String) × Nat := elementToJson body 0

/-- C9: the collapsing rule — whenever an element's assembled children list is
exactly one string, the returned node carries that string as `textContent` and
an empty children list — and the concrete scenario:
`<body><p>Hello</p></body>` yields `{tagName: "p", attributes: {}, children:
[], textContent: "Hello"}` as the body's sole child, with `totalNodes = 3`
(body, p, text), hence at least 3. -/
theorem treeSerializer_collapse :
    (∀ (name : String) (attribs : List (String × String)) (cs : List CNode)
      (ctr ctr' : Nat) (s : String),
      childrenToJson cs (ctr + 1) = ([Sum.inr s], ctr') →
      elementToJson (.tag name attribs cs) ctr =
        (Sum.inl (JNode.mk name attribs [] (some s)), ctr')) ∧
    convertToJson (.tag "body" [] [.tag "p" [] [.text "Hello"]]) =
      (Sum.inl (JNode.mk "body" [] [Sum.inl (JNode.mk "p" [] [] (some "Hello"))] none), 3) ∧
    3 ≥ 3 := by
  refine ⟨?_, ?_, by omega⟩
  · intro name attribs cs ctr ctr' s h
    simp only [elementToJson, h]
  · rfl

/-- Witness for `treeSerializer_collapse`: the collapse rule applied to the
`<p>Hello</p>` element of the scenario. -/
theorem treeSerializer_collapse_witness :
    childrenToJson [CNode.text "Hello"] (1 + 1) = ([Sum.inr "Hello"], 3) ∧
    elementToJson (.tag "p" [] [CNode.text "Hello"]) 1 =
      (Sum.inl (JNode.mk "p" [] [] (some "Hello")), 3) :=
  ⟨rfl, treeSerializer_collapse.1 "p" [] [CNode.text "Hello"] 1 3 "Hello" rfl⟩

/-! ### StyleApplicator output formatting (`formatCleanHtml`), claim C8

`formatCleanHtml` loads the document, removes every `style` element,
serializes, and post-processes the string: ensure a leading `<!DOCTYPE html>`
марker, rewrite every `>`‑whitespace‑`<` gap to `>\n<` (the `/>\s*</g`
replace), collapse every `\n`‑whitespace‑`\n` run to `\n` (the `/\n\s*\n/g`
replace), then split on newlines, trim each line, drop empty lines and
re-join.  The parse/serialize round trip is the identity on the tree model
(DOM-library contract), so the step is embedded as style removal on the tree
followed by the pure string pipeline `fcPost`.  Both regex replacements are
embedded with JS semantics: leftmost scanning, non-overlapping global
matches, greedy `\s*` with backtracking, continuation after the match. -/

def dtL : List Char := "<!DOCTYPE html>".data

/-- The `includes`-guarded doctype prepend. -/
def ensureDoctype (s : List Char) : List Char :=
  if containsL s dtL then s else dtL ++ '\n' :: s

/-- Does the list start with a literal `<`? -/
def headIsLt : List Char → Bool
  | [] => false
  | c :: _ => c == '<'

theorem tail_dropWhile_lt (rest : List Char) (h2 : headIsLt (rest.dropWhile isWsB) = true) :
    (rest.dropWhile isWsB).tail.length < rest.length + 1 := by
  cases hd : rest.dropWhile isWsB with
  | nil => rw [hd] at h2; simp [headIsLt] at h2
  | cons a t =>
    have hle : (rest.dropWhile isWsB).length ≤ rest.length :=
      (List.dropWhile_suffix isWsB).sublist.length_le
    rw [hd] at hle
    simp only [hd, List.tail_cons]
    simp only [List.length_cons] at hle
    omega

/-- The `/>\s*</g → >\n<` global replacement.  At a `>` the greedy `\s*` can
only succeed when the maximal whitespace run is followed by `<`; scanning
resumes after the consumed `<`. -/
def insNl : List Char → List Char
  | [] => []
  | c :: rest =>
    if h : c = '>' ∧ headIsLt (rest.dropWhile isWsB) = true then
      '>' :: '\n' :: '<' :: insNl (rest.dropWhile isWsB).tail
    else c :: insNl rest
termination_by s => s.length
decreasing_by
  · rcases h with ⟨-, h2⟩
    simpa using tail_dropWhile_lt _ h2
  · simp [Nat.lt_succ_self]

/-- The characters of `l` after its last occurrence of `a`. -/
def afterLast (a : Char) (l : List Char) : List Char :=
  (l.reverse.takeWhile (fun c => !(c == a))).reverse

theorem length_takeWhile_lt (p : Char → Bool) :
    ∀ (l : List Char) (a : Char), a ∈ l → p a = false → (l.takeWhile p).length < l.length := by
  intro l
  induction l with
  | nil => intro a ha _; simp at ha
  | cons c t ih =>
    intro a ha hp
    by_cases hc : p c
    · rw [List.takeWhile_cons_of_pos hc]
      rcases List.mem_cons.mp ha with rfl | hat
      · exact absurd hc (by simp [hp])
      · simpa using ih a hat hp
    · rw [List.takeWhile_cons_of_neg hc]
      simp

theorem afterLast_length_lt (a : Char) (l : List Char) (h : a ∈ l) :
    (afterLast a l).length < l.length := by
  have h1 : a ∈ l.reverse := by simpa using h
  have h2 : (fun c => !(c == a)) a = false := by simp
  have := length_takeWhile_lt (fun c => !(c == a)) l.reverse a h1 h2
  simpa [afterLast] using this

theorem afterLast_append_lt (rest : List Char)
    (h2 : (rest.takeWhile isWsB).contains '\n' = true) :
    (afterLast '\n' (rest.takeWhile isWsB) ++ rest.dropWhile isWsB).length < rest.length + 1 := by
  have hmem : '\n' ∈ rest.takeWhile isWsB := List.mem_of_elem_eq_true h2
  have hlt := afterLast_length_lt '\n' (rest.takeWhile isWsB) hmem
  have hsum : (rest.takeWhile isWsB).length + (rest.dropWhile isWsB).length = rest.length := by
    have h3 := congrArg List.length (List.takeWhile_append_dropWhile isWsB rest)
    rw [List.length_append] at h3
    exact h3
  simp only [List.length_append]
  omega

/-- The `/\n\s*\n/g → \n` global replacement.  At a `\n`, greedy `\s*` with a
final backtracked `\n` consumes up to the last newline of the maximal
whitespace run; scanning resumes right after it. -/
def collapseBlank : List Char → List Char
  | [] => []
  | c :: rest =>
    if h : c = '\n' ∧ (rest.takeWhile isWsB).contains '\n' = true then
      '\n' :: collapseBlank (afterLast '\n' (rest.takeWhile isWsB) ++ rest.dropWhile isWsB)
    else c :: collapseBlank rest
termination_by s => s.length
decreasing_by
  · rcases h with ⟨-, h2⟩
    simpa using afterLast_append_lt _ h2
  · simp [Nat.lt_succ_self]

/-- JS `split('\n')`. -/
def splitNl : List Char → List (List Char)
  | [] => [[]]
  | c :: rest =>
    if c = '\n' then [] :: splitNl rest
    else
      match splitNl rest with
      | [] => [[c]]
      | l :: ls => (c :: l) :: ls

/-- JS `join('\n')`. -/
def joinNl : List (List Char) → List Char
  | [] => []
  | [l] => l
  | l :: l2 :: ls => l ++ '\n' :: joinNl (l2 :: ls)

/-- Split, trim every line, drop the empty ones. -/
def fcLines (z : List Char) : List (List Char) :=
  ((splitNl z).map trimL).filter (fun l => !l.isEmpty)

/-- The string pipeline of `formatCleanHtml` after `$('style').remove()` and
re-serialization: doctype guard, the two regex replacements, and the
split/trim/filter/join pass. -/
def fcPost (s : List Char) : List Char :=
  joinNl (fcLines (collapseBlank (insNl (ensureDoctype s))))

/-- Is this node a `style` element? -/
def isStyleNode : HNode → Bool
  | .elem t _ _ => t = "style"
  | .text _ => false

mutual

/-- `$('style').remove()` on the tree model: drop every style element,
anywhere in the tree. -/
def removeStylesNode : HNode → HNode
  | .text s => .text s
  | .elem t a cs => .elem t a (removeStylesList cs)
termination_by structural n => n

/-- Style removal over a child list. -/
def removeStylesList : List HNode → List HNode
  | [] => []
  | n :: ns =>
    if isStyleNode n then removeStylesList ns
    else removeStylesNode n :: removeStylesList ns
termination_by structural l => l

end

/-- `HtmlStyleProcessorService.formatCleanHtml` on the tree model of the
parsed input (parse∘serialize being the identity contract of the DOM
library). -/
def formatCleanHtml (doc : List HNode) : List Char :=
  fcPost (serializeList (removeStylesList doc)).data

theorem insNl_nil : insNl [] = [] := by
  rw [insNl]

theorem insNl_match (rest r : List Char) (hd : rest.dropWhile isWsB = '<' :: r) :
    insNl ('>' :: rest) = '>' :: '\n' :: '<' :: insNl r := by
  rw [insNl, dif_pos ⟨rfl, by rw [hd]; rfl⟩, hd]
  rfl

theorem insNl_nomatch (rest : List Char) (hd : headIsLt (rest.dropWhile isWsB) = false) :
    insNl ('>' :: rest) = '>' :: insNl rest := by
  rw [insNl, dif_neg]
  simp [hd]

theorem insNl_copy (c : Char) (rest : List Char) (hc : ¬c = '>') :
    insNl (c :: rest) = c :: insNl rest := by
  rw [insNl, dif_neg]
  simp [hc]

theorem collapseBlank_nil : collapseBlank [] = [] := by
  rw [collapseBlank]

theorem collapseBlank_match (rest : List Char)
    (h2 : (rest.takeWhile isWsB).contains '\n' = true) :
    collapseBlank ('\n' :: rest) =
      '\n' :: collapseBlank (afterLast '\n' (rest.takeWhile isWsB) ++ rest.dropWhile isWsB) := by
  rw [collapseBlank, dif_pos ⟨rfl, h2⟩]

theorem collapseBlank_nomatch (rest : List Char)
    (h2 : (rest.takeWhile isWsB).contains '\n' = false) :
    collapseBlank ('\n' :: rest) = '\n' :: collapseBlank rest := by
  have hcond : ¬('\n' = '\n' ∧ (rest.takeWhile isWsB).contains '\n' = true) := by
    rintro ⟨-, hc⟩
    rw [h2] at hc
    exact Bool.noConfusion hc
  rw [collapseBlank, dif_neg hcond]

theorem collapseBlank_copy (c : Char) (rest : List Char) (hc : ¬c = '\n') :
    collapseBlank (c :: rest) = c :: collapseBlank rest := by
  rw [collapseBlank, dif_neg]
  simp [hc]

theorem ws_ne_gt (c : Char) (h : isWsB c = true) : ¬c = '>' := by
  rintro rfl
  exact absurd h (by decide)

theorem ws_ne_lt (c : Char) (h : isWsB c = true) : ¬c = '<' := by
  rintro rfl
  exact absurd h (by decide)

theorem dropWhile_head_false (p : Char → Bool) :
    ∀ (l : List Char) (b : Char) (t : List Char), l.dropWhile p = b :: t → p b = false := by
  intro l
  induction l with
  | nil => intro b t h; simp at h
  | cons c r ih =>
    intro b t h
    by_cases hc : p c
    · rw [List.dropWhile_cons_of_pos hc] at h
      exact ih b t h
    · rw [List.dropWhile_cons_of_neg hc] at h
      cases h
      simpa using hc

theorem takeWhile_all_pref (p : Char → Bool) :
    ∀ (pref : List Char) (d : Char) (s : List Char), (∀ c ∈ pref, p c = true) → p d = false →
      (pref ++ d :: s).takeWhile p = pref ∧ (pref ++ d :: s).dropWhile p = d :: s := by
  intro pref
  induction pref with
  | nil =>
    intro d s _ hd
    simp only [List.nil_append]
    rw [List.takeWhile_cons_of_neg (by simp [hd]), List.dropWhile_cons_of_neg (by simp [hd])]
    exact ⟨rfl, rfl⟩
  | cons c t ih =>
    intro d s hp hd
    have hc : p c = true := hp c (by simp)
    have ihs := ih d s (fun x hx => hp x (by simp [hx])) hd
    constructor
    · simpa [List.takeWhile_cons_of_pos hc] using ihs.1
    · simpa [List.dropWhile_cons_of_pos hc] using ihs.2

/-- Two decompositions into an all-whitespace prefix followed by a
non-whitespace character agree. -/
theorem ws_prefix_eq (p1 p2 s1 s2 : List Char) (c1 c2 : Char)
    (h : p1 ++ c1 :: s1 = p2 ++ c2 :: s2)
    (hp1 : ∀ c ∈ p1, isWsB c = true) (hp2 : ∀ c ∈ p2, isWsB c = true)
    (hc1 : isWsB c1 = false) (hc2 : isWsB c2 = false) :
    p1 = p2 ∧ c1 = c2 ∧ s1 = s2 := by
  have e1 := (takeWhile_all_pref isWsB p1 c1 s1 hp1 hc1).1
  have e2 := (takeWhile_all_pref isWsB p2 c2 s2 hp2 hc2).1
  have hp : p1 = p2 := by rw [← e1, ← e2, h]
  subst hp
  have := List.append_cancel_left h
  exact ⟨rfl, (List.cons.injEq .. ▸ this).1, (List.cons.injEq .. ▸ this).2⟩

/-- `insNl` copies a segment free of `>` verbatim. -/
theorem noGt_copy : ∀ (m y : List Char), (∀ c ∈ m, ¬c = '>') →
    insNl (m ++ y) = m ++ insNl y := by
  intro m
  induction m with
  | nil => intro y _; simp
  | cons c t ih =>
    intro y hm
    have hc : ¬c = '>' := hm c (by simp)
    rw [List.cons_append, insNl_copy c (t ++ y) hc, ih y (fun x hx => hm x (by simp [hx]))]
    simp

/-- `insNl` preserves the head character. -/
theorem insNl_head (d : Char) (l : List Char) : ∃ t, insNl (d :: l) = d :: t := by
  by_cases hd : d = '>'
  · subst hd
    cases hlt : headIsLt (l.dropWhile isWsB) with
    | false => exact ⟨insNl l, insNl_nomatch l hlt⟩
    | true =>
      cases hdw : l.dropWhile isWsB with
      | nil => rw [hdw] at hlt; simp [headIsLt] at hlt
      | cons e r =>
        rw [hdw] at hlt
        have he : e = '<' := by simpa [headIsLt] using hlt
        subst he
        exact ⟨'\n' :: '<' :: insNl r, insNl_match l r hdw⟩
  · exact ⟨insNl l, insNl_copy d l hd⟩

/-- Splitting a list at its last occurrence of `a`. -/
theorem afterLast_spec (a : Char) (l : List Char) (h : a ∈ l) :
    ∃ w1, l = w1 ++ a :: afterLast a l ∧ a ∉ afterLast a l := by
  have hrev : a ∈ l.reverse := by simpa using h
  have hsplit := List.takeWhile_append_dropWhile (fun c => !(c == a)) l.reverse
  cases hdw : l.reverse.dropWhile (fun c => !(c == a)) with
  | nil =>
    exfalso
    have : ∀ c ∈ l.reverse, (fun c => !(c == a)) c = true := List.dropWhile_eq_nil_iff.mp hdw
    have := this a hrev
    simp at this
  | cons d t =>
    have hd : (fun c => !(c == a)) d = false := dropWhile_head_false _ l.reverse d t hdw
    have hda : d = a := by simpa using hd
    rw [hdw, hda] at hsplit
    have hl : l = t.reverse ++ a :: (l.reverse.takeWhile (fun c => !(c == a))).reverse := by
      have h5 := congrArg List.reverse hsplit
      simpa using h5.symm
    refine ⟨t.reverse, by simpa [afterLast] using hl, ?_⟩
    intro hmem
    have h6 : a ∈ l.reverse.takeWhile (fun c => !(c == a)) := by
      simpa [afterLast] using hmem
    have := List.mem_takeWhile_imp h6
    simp at this

theorem afterLast_subset (a : Char) (l : List Char) :
    ∀ c ∈ afterLast a l, c ∈ l := by
  intro c hc
  have h1 : c ∈ l.reverse.takeWhile (fun c => !(c == a)) := by simpa [afterLast] using hc
  have h2 : c ∈ l.reverse := (List.takeWhile_prefix _).subset h1
  simpa using h2

/-- Canonical-gap property: every all-whitespace run lying between a `>` and
a `<` is exactly one newline. -/
def NoWsGtLt (y : List Char) : Prop :=
  ∀ a w b, y = a ++ '>' :: (w ++ '<' :: b) → (∀ c ∈ w, isWsB c = true) → w = ['\n']

theorem noWsGtLt_append_right (u v : List Char) (h : NoWsGtLt (u ++ v)) : NoWsGtLt v := by
  intro a w b heq hws
  exact h (u ++ a) w b (by rw [heq]; simp) hws

theorem noWsGtLt_cons (c : Char) (y : List Char) (h : NoWsGtLt (c :: y)) : NoWsGtLt y :=
  noWsGtLt_append_right [c] y h

/-- The output of the `>`-whitespace-`<` pass has only canonical gaps. -/
theorem insNl_noWsGtLt : ∀ (n : Nat) (x : List Char), x.length ≤ n → NoWsGtLt (insNl x) := by
  intro n
  induction n with
  | zero =>
    intro x hx
    have hnil : x = [] := List.length_eq_zero.mp (Nat.le_zero.mp hx)
    subst hnil
    rw [insNl_nil]
    intro a w b heq _
    exact absurd heq.symm (by simp)
  | succ n ih =>
    intro x hx
    cases x with
    | nil =>
      rw [insNl_nil]
      intro a w b heq _
      exact absurd heq.symm (by simp)
    | cons c rest =>
      have hrest : rest.length ≤ n := by simpa using hx
      by_cases hc : c = '>'
      · subst hc
        have htw : ∀ e ∈ rest.takeWhile isWsB, isWsB e = true :=
          fun e he => List.mem_takeWhile_imp he
        cases hdw : rest.dropWhile isWsB with
        | nil =>
          have hlt : headIsLt (rest.dropWhile isWsB) = false := by rw [hdw]; rfl
          rw [insNl_nomatch rest hlt]
          intro a w b heq hws
          cases a with
          | cons a0 a' =>
            simp only [List.cons_append, List.cons.injEq] at heq
            exact ih rest hrest a' w b heq.2 hws
          | nil =>
            simp only [List.nil_append, List.cons.injEq] at heq
            have hr : rest = rest.takeWhile isWsB := by
              have h0 := List.takeWhile_append_dropWhile isWsB rest
              rw [hdw] at h0
              simpa using h0.symm
            have hcopy : insNl rest = rest := by
              calc insNl rest = insNl (rest.takeWhile isWsB ++ []) := by rw [← hr]; simp
              _ = rest.takeWhile isWsB ++ insNl [] :=
                  noGt_copy _ [] (fun e he => ws_ne_gt e (htw e he))
              _ = rest := by rw [insNl_nil, ← hr]; simp
            have hmem : '<' ∈ rest := by
              rw [← hcopy, heq.2]
              simp
            rw [hr] at hmem
            exact absurd (htw '<' hmem) (by decide)
        | cons d r =>
          by_cases hdlt : d = '<'
          · subst hdlt
            rw [insNl_match rest r hdw]
            have hrlen : r.length ≤ n := by
              have hle : (rest.dropWhile isWsB).length ≤ rest.length :=
                (List.dropWhile_suffix isWsB).sublist.length_le
              rw [hdw] at hle
              simp only [List.length_cons] at hle
              omega
            intro a w b heq hws
            cases a with
            | nil =>
              simp only [List.nil_append, List.cons.injEq] at heq
              obtain ⟨-, h2⟩ := heq
              cases w with
              | nil =>
                simp only [List.nil_append, List.cons.injEq] at h2
                exact absurd h2.1 (by decide)
              | cons w0 w' =>
                simp only [List.cons_append, List.cons.injEq] at h2
                obtain ⟨hw0, h3⟩ := h2
                cases w' with
                | nil => rw [← hw0]
                | cons w1 w'' =>
                  simp only [List.cons_append, List.cons.injEq] at h3
                  have hws1 : isWsB w1 = true := hws w1 (by simp)
                  rw [← h3.1] at hws1
                  exact absurd hws1 (by decide)
            | cons a0 a' =>
              simp only [List.cons_append, List.cons.injEq] at heq
              obtain ⟨-, heq2⟩ := heq
              cases a' with
              | nil =>
                simp only [List.nil_append, List.cons.injEq] at heq2
                exact absurd heq2.1 (by decide)
              | cons a1 a'' =>
                simp only [List.cons_append, List.cons.injEq] at heq2
                obtain ⟨-, heq3⟩ := heq2
                cases a'' with
                | nil =>
                  simp only [List.nil_append, List.cons.injEq] at heq3
                  exact absurd heq3.1 (by decide)
                | cons a2 a3 =>
                  simp only [List.cons_append, List.cons.injEq] at heq3
                  exact ih r hrlen a3 w b heq3.2 hws
          · have hlt : headIsLt (rest.dropWhile isWsB) = false := by
              rw [hdw]
              simp [headIsLt, hdlt]
            rw [insNl_nomatch rest hlt]
            intro a w b heq hws
            cases a with
            | cons a0 a' =>
              simp only [List.cons_append, List.cons.injEq] at heq
              exact ih rest hrest a' w b heq.2 hws
            | nil =>
              simp only [List.nil_append, List.cons.injEq] at heq
              have h0 := List.takeWhile_append_dropWhile isWsB rest
              rw [hdw] at h0
              obtain ⟨t, ht⟩ := insNl_head d r
              have hcopy : insNl rest = rest.takeWhile isWsB ++ d :: t := by
                calc insNl rest = insNl (rest.takeWhile isWsB ++ d :: r) := by rw [h0]
                _ = rest.takeWhile isWsB ++ insNl (d :: r) :=
                    noGt_copy _ _ (fun e he => ws_ne_gt e (htw e he))
                _ = rest.takeWhile isWsB ++ d :: t := by rw [ht]
              have h3 : w ++ '<' :: b = rest.takeWhile isWsB ++ d :: t := by
                rw [← heq.2, hcopy]
              have hd_ws : isWsB d = false := dropWhile_head_false isWsB rest d r hdw
              obtain ⟨-, hlteq, -⟩ :=
                ws_prefix_eq w (rest.takeWhile isWsB) b t '<' d h3 hws htw (by decide) hd_ws
              exact absurd hlteq.symm hdlt
      · rw [insNl_copy c rest hc]
        intro a w b heq hws
        cases a with
        | nil =>
          simp only [List.nil_append, List.cons.injEq] at heq
          exact absurd heq.1 hc
        | cons a0 a' =>
          simp only [List.cons_append, List.cons.injEq] at heq
          exact ih rest hrest a' w b heq.2 hws

/-- On a string with only canonical gaps the `>`-whitespace-`<` pass is the
identity. -/
theorem insNl_id_of_noWsGtLt : ∀ (n : Nat) (y : List Char), y.length ≤ n → NoWsGtLt y →
    insNl y = y := by
  intro n
  induction n with
  | zero =>
    intro y hy _
    have hnil : y = [] := List.length_eq_zero.mp (Nat.le_zero.mp hy)
    subst hnil
    exact insNl_nil
  | succ n ih =>
    intro y hy hA
    cases y with
    | nil => exact insNl_nil
    | cons c rest =>
      have hrest : rest.length ≤ n := by simpa using hy
      have hArest : NoWsGtLt rest := noWsGtLt_cons c rest hA
      by_cases hc : c = '>'
      · subst hc
        have htw : ∀ e ∈ rest.takeWhile isWsB, isWsB e = true :=
          fun e he => List.mem_takeWhile_imp he
        cases hdw : rest.dropWhile isWsB with
        | nil =>
          have hlt : headIsLt (rest.dropWhile isWsB) = false := by rw [hdw]; rfl
          rw [insNl_nomatch rest hlt, ih rest hrest hArest]
        | cons d r =>
          by_cases hdlt : d = '<'
          · subst hdlt
            have h0 := List.takeWhile_append_dropWhile isWsB rest
            rw [hdw] at h0
            have htweq : rest.takeWhile isWsB = ['\n'] :=
              hA [] (rest.takeWhile isWsB) r (by simp only [List.nil_append]; rw [h0]) htw
            have hresteq : rest = '\n' :: '<' :: r := by
              rw [← h0, htweq]
              rfl
            have hrlen : r.length ≤ n := by
              rw [hresteq] at hrest
              simp only [List.length_cons] at hrest
              omega
            have hAr : NoWsGtLt r := by
              have : '>' :: rest = ('>' :: '\n' :: ['<']) ++ r := by rw [hresteq]; rfl
              exact noWsGtLt_append_right _ r (this ▸ hA)
            rw [insNl_match rest r hdw, ih r hrlen hAr, hresteq]
          · have hlt : headIsLt (rest.dropWhile isWsB) = false := by
              rw [hdw]
              simp [headIsLt, hdlt]
            rw [insNl_nomatch rest hlt, ih rest hrest hArest]
      · rw [insNl_copy c rest hc, ih rest hrest hArest]

/-- A `<` preceded by whitespace in the output of the blank-line pass comes
from a `<` preceded by whitespace in its input, and a single-newline gap in
the input stays a single newline. -/
theorem collapseBlank_lift : ∀ (n : Nat) (rest : List Char), rest.length ≤ n →
    ∀ w b, collapseBlank rest = w ++ '<' :: b → (∀ c ∈ w, isWsB c = true) →
    ∃ w0 b0, rest = w0 ++ '<' :: b0 ∧ (∀ c ∈ w0, isWsB c = true) ∧
      (w0 = [] → w = []) ∧ (w0 = ['\n'] → w = ['\n']) := by
  intro n
  induction n with
  | zero =>
    intro rest hlen w b heq _
    have hnil : rest = [] := List.length_eq_zero.mp (Nat.le_zero.mp hlen)
    subst hnil
    rw [collapseBlank_nil] at heq
    exact absurd heq (by simp)
  | succ n ih =>
    intro rest hlen w b heq hws
    cases rest with
    | nil =>
      rw [collapseBlank_nil] at heq
      exact absurd heq (by simp)
    | cons c rest' =>
      have hlen' : rest'.length ≤ n := by simpa using hlen
      by_cases hcond : c = '\n' ∧ (rest'.takeWhile isWsB).contains '\n' = true
      · obtain ⟨hc, hcont⟩ := hcond
        subst hc
        rw [collapseBlank_match rest' hcont] at heq
        cases w with
        | nil =>
          simp only [List.nil_append, List.cons.injEq] at heq
          exact absurd heq.1 (by decide)
        | cons w0 w' =>
          simp only [List.cons_append, List.cons.injEq] at heq
          obtain ⟨-, heq2⟩ := heq
          have hremlen : (afterLast '\n' (rest'.takeWhile isWsB) ++ rest'.dropWhile isWsB).length ≤ n := by
            have := afterLast_append_lt rest' hcont
            omega
          obtain ⟨w0'', b0, hrem, hws0'', -, -⟩ :=
            ih _ hremlen w' b heq2 (fun e he => hws e (by simp [he]))
          have hw2ws : ∀ e ∈ afterLast '\n' (rest'.takeWhile isWsB), isWsB e = true :=
            fun e he => List.mem_takeWhile_imp (afterLast_subset '\n' _ e he)
          cases hdw : rest'.dropWhile isWsB with
          | nil =>
            rw [hdw, List.append_nil] at hrem
            have hmem : '<' ∈ afterLast '\n' (rest'.takeWhile isWsB) := by
              rw [hrem]; simp
            exact absurd (hw2ws '<' hmem) (by decide)
          | cons d dw =>
            rw [hdw] at hrem
            have hd_ws : isWsB d = false := dropWhile_head_false isWsB rest' d dw hdw
            obtain ⟨hw2eq, hdeq, hdweq⟩ :=
              ws_prefix_eq _ w0'' dw b0 d '<' hrem hw2ws hws0'' hd_ws (by decide)
            have hmemnl : '\n' ∈ rest'.takeWhile isWsB := List.mem_of_elem_eq_true hcont
            obtain ⟨w1, htw'eq, -⟩ := afterLast_spec '\n' (rest'.takeWhile isWsB) hmemnl
            have hrest' : rest' = (w1 ++ '\n' :: afterLast '\n' (rest'.takeWhile isWsB)) ++ d :: dw := by
              have h0 := List.takeWhile_append_dropWhile isWsB rest'
              rw [hdw] at h0
              calc rest' = rest'.takeWhile isWsB ++ d :: dw := h0.symm
              _ = (w1 ++ '\n' :: afterLast '\n' (rest'.takeWhile isWsB)) ++ d :: dw := by
                  rw [← htw'eq]
            refine ⟨'\n' :: (w1 ++ '\n' :: afterLast '\n' (rest'.takeWhile isWsB)), dw,
              ?_, ?_, ?_, ?_⟩
            · rw [← hdeq]
              calc '\n' :: rest'
                  = '\n' :: ((w1 ++ '\n' :: afterLast '\n' (rest'.takeWhile isWsB)) ++ d :: dw) := by
                    rw [← hrest']
              _ = '\n' :: (w1 ++ '\n' :: afterLast '\n' (rest'.takeWhile isWsB)) ++ d :: dw := by
                    simp
            · intro e he
              rcases List.mem_cons.mp he with rfl | he2
              · decide
              · rcases List.mem_append.mp he2 with h1 | h2
                · exact List.mem_takeWhile_imp (htw'eq ▸ List.mem_append_left _ h1)
                · rcases List.mem_cons.mp h2 with rfl | h3
                  · decide
                  · exact hw2ws e h3
            · intro hcontra
              exact absurd hcontra (by simp)
            · intro hcontra
              simp only [List.cons.injEq] at hcontra
              exact absurd hcontra.2 (by simp)
      · have heq2 : c :: collapseBlank rest' = w ++ '<' :: b := by
          by_cases hc : c = '\n'
          · subst hc
            have hcont : (rest'.takeWhile isWsB).contains '\n' = false := by
              cases hct : (rest'.takeWhile isWsB).contains '\n' with
              | false => rfl
              | true => exact absurd ⟨rfl, hct⟩ hcond
            rw [collapseBlank_nomatch rest' hcont] at heq
            exact heq
          · rw [collapseBlank_copy c rest' hc] at heq
            exact heq
        cases w with
        | nil =>
          simp only [List.nil_append, List.cons.injEq] at heq2
          refine ⟨[], rest', by rw [heq2.1]; rfl, by simp, fun _ => rfl, ?_⟩
          intro hcontra
          exact absurd hcontra (by simp)
        | cons ww w' =>
          simp only [List.cons_append, List.cons.injEq] at heq2
          obtain ⟨hcw, heq3⟩ := heq2
          obtain ⟨w0', b0, hrest', hws0', hnil', hnl'⟩ :=
            ih rest' hlen' w' b heq3 (fun e he => hws e (by simp [he]))
          refine ⟨c :: w0', b0, by rw [hrest']; rfl, ?_, ?_, ?_⟩
          · intro e he
            rcases List.mem_cons.mp he with rfl | he2
            · rw [hcw]; exact hws ww (by simp)
            · exact hws0' e he2
          · intro hcontra
            exact absurd hcontra (by simp)
          · intro hcontra
            simp only [List.cons.injEq] at hcontra
            have hw' : w' = [] := hnil' hcontra.2
            rw [hw', ← hcw, hcontra.1]

/-- The blank-line pass preserves canonical gaps. -/
theorem collapseBlank_noWsGtLt : ∀ (n : Nat) (x : List Char), x.length ≤ n → NoWsGtLt x →
    NoWsGtLt (collapseBlank x) := by
  intro n
  induction n with
  | zero =>
    intro x hlen _
    have hnil : x = [] := List.length_eq_zero.mp (Nat.le_zero.mp hlen)
    subst hnil
    rw [collapseBlank_nil]
    intro a w b heq _
    exact absurd heq.symm (by simp)
  | succ n ih =>
    intro x hlen hA
    cases x with
    | nil =>
      rw [collapseBlank_nil]
      intro a w b heq _
      exact absurd heq.symm (by simp)
    | cons c rest' =>
      have hlen' : rest'.length ≤ n := by simpa using hlen
      by_cases hcond : c = '\n' ∧ (rest'.takeWhile isWsB).contains '\n' = true
      · obtain ⟨hc, hcont⟩ := hcond
        subst hc
        rw [collapseBlank_match rest' hcont]
        have hmemnl : '\n' ∈ rest'.takeWhile isWsB := List.mem_of_elem_eq_true hcont
        obtain ⟨w1, htw'eq, -⟩ := afterLast_spec '\n' (rest'.takeWhile isWsB) hmemnl
        have hxeq : '\n' :: rest' =
            ('\n' :: (w1 ++ ['\n'])) ++ (afterLast '\n' (rest'.takeWhile isWsB) ++ rest'.dropWhile isWsB) := by
          have h0 := List.takeWhile_append_dropWhile isWsB rest'
          calc '\n' :: rest' = '\n' :: (rest'.takeWhile isWsB ++ rest'.dropWhile isWsB) := by
                rw [h0]
          _ = '\n' :: ((w1 ++ '\n' :: afterLast '\n' (rest'.takeWhile isWsB)) ++ rest'.dropWhile isWsB) := by
                rw [← htw'eq]
          _ = ('\n' :: (w1 ++ ['\n'])) ++ (afterLast '\n' (rest'.takeWhile isWsB) ++ rest'.dropWhile isWsB) := by
                simp
        have hArem : NoWsGtLt (afterLast '\n' (rest'.takeWhile isWsB) ++ rest'.dropWhile isWsB) :=
          noWsGtLt_append_right _ _ (hxeq ▸ hA)
        have hremlen : (afterLast '\n' (rest'.takeWhile isWsB) ++ rest'.dropWhile isWsB).length ≤ n := by
          have := afterLast_append_lt rest' hcont
          omega
        intro a w b heq hws
        cases a with
        | nil =>
          simp only [List.nil_append, List.cons.injEq] at heq
          exact absurd heq.1 (by decide)
        | cons a0 a' =>
          simp only [List.cons_append, List.cons.injEq] at heq
          exact ih _ hremlen hArem a' w b heq.2 hws
      · have hstep : collapseBlank (c :: rest') = c :: collapseBlank rest' := by
          by_cases hc : c = '\n'
          · subst hc
            have hcont : (rest'.takeWhile isWsB).contains '\n' = false := by
              cases hct : (rest'.takeWhile isWsB).contains '\n' with
              | false => rfl
              | true => exact absurd ⟨rfl, hct⟩ hcond
            exact collapseBlank_nomatch rest' hcont
          · exact collapseBlank_copy c rest' hc
        rw [hstep]
        intro a w b heq hws
        cases a with
        | cons a0 a' =>
          simp only [List.cons_append, List.cons.injEq] at heq
          exact ih rest' hlen' (noWsGtLt_cons c rest' hA) a' w b heq.2 hws
        | nil =>
          simp only [List.nil_append, List.cons.injEq] at heq
          obtain ⟨w0, b0, hrest', hws0, -, hnl⟩ :=
            collapseBlank_lift n rest' hlen' w b heq.2 hws
          have hw0 : w0 = ['\n'] := by
            refine hA [] w0 b0 ?_ hws0
            rw [heq.1, hrest']
            rfl
          exact hnl hw0
      
/-- Newline-separated strings: after every newline the whitespace run is
empty. -/
def NlSep (y : List Char) : Prop :=
  ∀ a b, y = a ++ '\n' :: b → b.takeWhile isWsB = []

theorem nlSep_cons (c : Char) (y : List Char) (h : NlSep (c :: y)) : NlSep y :=
  fun a b heq => h (c :: a) b (by rw [heq]; rfl)

/-- On a newline-separated string the blank-line pass is the identity. -/
theorem collapseBlank_id_of_nlSep (y : List Char) : NlSep y → collapseBlank y = y := by
  induction y with
  | nil => intro _; exact collapseBlank_nil
  | cons c rest ih =>
    intro h
    by_cases hc : c = '\n'
    · subst hc
      have htw : rest.takeWhile isWsB = [] := h [] rest rfl
      have hcont : (rest.takeWhile isWsB).contains '\n' = false := by rw [htw]; rfl
      rw [collapseBlank_nomatch rest hcont, ih (nlSep_cons _ _ h)]
    · rw [collapseBlank_copy c rest hc, ih (nlSep_cons _ _ h)]

theorem joinNl_nil : joinNl [] = [] := rfl

theorem joinNl_single (l : List Char) : joinNl [l] = l := rfl

theorem joinNl_cons_cons (l l2 : List Char) (ls : List (List Char)) :
    joinNl (l :: l2 :: ls) = l ++ '\n' :: joinNl (l2 :: ls) := rfl

theorem splitNl_nil : splitNl [] = [[]] := rfl

theorem splitNl_cons_nl (rest : List Char) : splitNl ('\n' :: rest) = [] :: splitNl rest := by
  simp [splitNl]

theorem splitNl_cons (c : Char) (rest l : List Char) (ls : List (List Char)) (hc : ¬c = '\n')
    (hs : splitNl rest = l :: ls) : splitNl (c :: rest) = (c :: l) :: ls := by
  simp only [splitNl, if_neg hc, hs]

theorem splitNl_ne_nil : ∀ z : List Char, splitNl z ≠ [] := by
  intro z
  induction z with
  | nil => simp [splitNl_nil]
  | cons c rest ih =>
    by_cases hc : c = '\n'
    · subst hc; rw [splitNl_cons_nl]; simp
    · cases hs : splitNl rest with
      | nil => exact absurd hs ih
      | cons l ls => rw [splitNl_cons c rest l ls hc hs]; simp

theorem mem_splitNl_nf : ∀ (z : List Char) (l : List Char), l ∈ splitNl z → '\n' ∉ l := by
  intro z
  induction z with
  | nil =>
    intro l hl
    rw [splitNl_nil] at hl
    simp at hl
    simp [hl]
  | cons c rest ih =>
    intro l hl
    by_cases hc : c = '\n'
    · subst hc
      rw [splitNl_cons_nl] at hl
      rcases List.mem_cons.mp hl with rfl | hl2
      · simp
      · exact ih l hl2
    · cases hs : splitNl rest with
      | nil => exact absurd hs (splitNl_ne_nil rest)
      | cons l0 ls =>
        rw [splitNl_cons c rest l0 ls hc hs] at hl
        rcases List.mem_cons.mp hl with rfl | hl2
        · intro hmem
          rcases List.mem_cons.mp hmem with h1 | h2
          · exact hc h1.symm
          · exact ih l0 (by rw [hs]; simp) h2
        · exact ih l (by rw [hs]; simp [hl2])

theorem joinNl_splitNl : ∀ z : List Char, joinNl (splitNl z) = z := by
  intro z
  induction z with
  | nil => rfl
  | cons c rest ih =>
    by_cases hc : c = '\n'
    · subst hc
      rw [splitNl_cons_nl]
      cases hs : splitNl rest with
      | nil => exact absurd hs (splitNl_ne_nil rest)
      | cons l ls =>
        rw [hs] at ih
        rw [joinNl_cons_cons, ih]
        rfl
    · cases hs : splitNl rest with
      | nil => exact absurd hs (splitNl_ne_nil rest)
      | cons l ls =>
        rw [splitNl_cons c rest l ls hc hs]
        rw [hs] at ih
        cases ls with
        | nil => rw [joinNl_single] at ih ⊢; rw [ih]
        | cons l2 ls' =>
          rw [joinNl_cons_cons] at ih ⊢
          rw [List.cons_append, ih]

theorem splitNl_nf : ∀ l : List Char, '\n' ∉ l → splitNl l = [l] := by
  intro l
  induction l with
  | nil => intro _; rfl
  | cons c l' ih =>
    intro h
    have hc : ¬c = '\n' := fun hcc => h (by simp [hcc])
    exact splitNl_cons c l' l' [] hc (ih (fun hm => h (by simp [hm])))

theorem splitNl_append_nl : ∀ (l r : List Char), '\n' ∉ l →
    splitNl (l ++ '\n' :: r) = l :: splitNl r := by
  intro l
  induction l with
  | nil =>
    intro r _
    rw [List.nil_append, splitNl_cons_nl]
  | cons c l' ih =>
    intro r h
    have hc : ¬c = '\n' := fun hcc => h (by simp [hcc])
    rw [List.cons_append]
    exact splitNl_cons c _ l' (splitNl r) hc (ih r (fun hm => h (by simp [hm])))

theorem splitNl_joinNl : ∀ lines : List (List Char), lines ≠ [] →
    (∀ l ∈ lines, '\n' ∉ l) → splitNl (joinNl lines) = lines := by
  intro lines
  induction lines with
  | nil => intro h _; exact absurd rfl h
  | cons l ls ih =>
    intro _ hnf
    cases ls with
    | nil => exact splitNl_nf l (hnf l (by simp))
    | cons l2 ls' =>
      rw [joinNl_cons_cons, splitNl_append_nl l _ (hnf l (by simp))]
      rw [ih (by simp) (fun x hx => hnf x (by simp [hx]))]

theorem joinNl_mem_factor : ∀ (lines : List (List Char)) (l : List Char), l ∈ lines →
    ∃ p s, joinNl lines = p ++ l ++ s := by
  intro lines
  induction lines with
  | nil => intro l hl; simp at hl
  | cons hd tl ih =>
    intro l hl
    rcases List.mem_cons.mp hl with rfl | hl2
    · cases tl with
      | nil => exact ⟨[], [], by simp [joinNl_single]⟩
      | cons t1 tl' => exact ⟨[], '\n' :: joinNl (t1 :: tl'), by rw [joinNl_cons_cons]; simp⟩
    · have htl : tl ≠ [] := by rintro rfl; simp at hl2
      obtain ⟨t1, tl', rfl⟩ : ∃ t1 tl', tl = t1 :: tl' := by
        cases tl with
        | nil => exact absurd rfl htl
        | cons a b => exact ⟨a, b, rfl⟩
      obtain ⟨p, s, hps⟩ := ih l hl2
      exact ⟨hd ++ '\n' :: p, s, by rw [joinNl_cons_cons, hps]; simp⟩

theorem dropWhile_idem (p : Char → Bool) (l : List Char) :
    (l.dropWhile p).dropWhile p = l.dropWhile p := by
  cases h : l.dropWhile p with
  | nil => rfl
  | cons d t =>
    have hd := dropWhile_head_false p l d t h
    exact List.dropWhile_cons_of_neg (by simp [hd])

theorem dropWhile_append_last (p : Char → Bool) (x : List Char) (d : Char) (hd : p d = false) :
    (x ++ [d]).dropWhile p = x.dropWhile p ++ [d] := by
  rw [List.dropWhile_append]
  split
  next h =>
    rw [List.isEmpty_iff.mp h]
    rw [List.dropWhile_cons_of_neg (by simp [hd])]
    simp
  next h => rfl

theorem trimL_idem (l : List Char) : trimL (trimL l) = trimL l := by
  cases hu : l.dropWhile isWsB with
  | nil =>
    have ht : trimL l = [] := by rw [trimL, hu]; rfl
    rw [ht]
    rfl
  | cons d u' =>
    have hd : isWsB d = false := dropWhile_head_false isWsB l d u' hu
    have hv : (l.dropWhile isWsB).reverse.dropWhile isWsB
        = u'.reverse.dropWhile isWsB ++ [d] := by
      rw [hu, List.reverse_cons, dropWhile_append_last isWsB u'.reverse d hd]
    have ht : trimL l = d :: (u'.reverse.dropWhile isWsB).reverse := by
      rw [trimL, hv]
      simp
    rw [ht]
    have h1 : (d :: (u'.reverse.dropWhile isWsB).reverse).dropWhile isWsB
        = d :: (u'.reverse.dropWhile isWsB).reverse :=
      List.dropWhile_cons_of_neg (by simp [hd])
    rw [trimL, h1, List.reverse_cons, List.reverse_reverse,
        dropWhile_append_last isWsB _ d hd, dropWhile_idem]
    simp

theorem trimL_length_le (l : List Char) : (trimL l).length ≤ (l.dropWhile isWsB).length := by
  have h1 : ((l.dropWhile isWsB).reverse.dropWhile isWsB).length
      ≤ (l.dropWhile isWsB).reverse.length :=
    (List.dropWhile_suffix isWsB).sublist.length_le
  simpa [trimL] using h1

theorem trimFix_head (l : List Char) (h : trimL l = l) :
    ∀ (d : Char) (l' : List Char), l = d :: l' → isWsB d = false := by
  intro d l' hl
  by_contra hws
  have hdw : isWsB d = true := by
    cases hb : isWsB d with
    | false => exact absurd hb hws
    | true => rfl
  have h1 : l.dropWhile isWsB = l'.dropWhile isWsB := by
    rw [hl]
    exact List.dropWhile_cons_of_pos hdw
  have h2 : (trimL l).length ≤ l'.length := by
    calc (trimL l).length ≤ (l.dropWhile isWsB).length := trimL_length_le l
    _ = (l'.dropWhile isWsB).length := by rw [h1]
    _ ≤ l'.length := (List.dropWhile_suffix isWsB).sublist.length_le
  rw [h, hl] at h2
  simp at h2

theorem trimFix_last (l : List Char) (h : trimL l = l) :
    ∀ (l' : List Char) (d : Char), l = l' ++ [d] → isWsB d = false := by
  intro l' d hl
  by_contra hws
  have hdw : isWsB d = true := by
    cases hb : isWsB d with
    | false => exact absurd hb hws
    | true => rfl
  cases hu : l.dropWhile isWsB with
  | nil =>
    have ht : trimL l = [] := by rw [trimL, hu]; rfl
    rw [h] at ht
    rw [hl] at ht
    simp at ht
  | cons e u' =>
    have hulen : (l.dropWhile isWsB).length ≤ l.length :=
      (List.dropWhile_suffix isWsB).sublist.length_le
    have hupref : (l.dropWhile isWsB).reverse <+: l.reverse :=
      List.reverse_prefix.mpr (List.dropWhile_suffix isWsB)
    have hlrev : l.reverse = d :: l'.reverse := by rw [hl]; simp
    cases hur : (l.dropWhile isWsB).reverse with
    | nil =>
      rw [hu] at hur
      simp at hur
    | cons f ur' =>
      rw [hur, hlrev] at hupref
      have hf : f = d := (List.cons_prefix_cons.mp hupref).1
      have hdrop : (l.dropWhile isWsB).reverse.dropWhile isWsB = ur'.dropWhile isWsB := by
        rw [hur, hf]
        exact List.dropWhile_cons_of_pos hdw
      have hlen1 : (trimL l).length = (ur'.dropWhile isWsB).length := by
        rw [trimL, hdrop]
        simp
      have hlen2 : (ur'.dropWhile isWsB).length ≤ ur'.length :=
        (List.dropWhile_suffix isWsB).sublist.length_le
      have hlen3 : ur'.length + 1 = (l.dropWhile isWsB).length := by
        have h4 := congrArg List.length hur
        simp only [List.length_reverse, List.length_cons] at h4
        omega
      have hllen : (trimL l).length = l.length := by rw [h]
      have hl1 : l.length = l'.length + 1 := by rw [hl]; simp
      omega

theorem trimL_factor (l : List Char) : trimL l <:+: l := by
  have h1 : trimL l <+: l.dropWhile isWsB :=
    List.reverse_suffix.mp (by
      rw [trimL, List.reverse_reverse]
      exact List.dropWhile_suffix isWsB)
  exact h1.isInfix.trans (List.dropWhile_suffix isWsB).isInfix

theorem mem_trimL (l : List Char) (c : Char) (hc : c ∈ trimL l) : c ∈ l :=
  (trimL_factor l).subset hc

/-- Trimming keeps any segment with non-whitespace first and last characters
intact. -/
theorem trimL_keep (p m s : List Char) (m0 mk : Char) (m' m'' : List Char)
    (hm : m = m0 :: m') (hmk : m = m'' ++ [mk])
    (h0 : isWsB m0 = false) (hk : isWsB mk = false) :
    ∃ pp ss, trimL (p ++ m ++ s) = pp ++ m ++ ss := by
  have hmdrop : (m ++ s).dropWhile isWsB = m ++ s := by
    rw [hm, List.cons_append]
    exact List.dropWhile_cons_of_neg (by simp [h0])
  obtain ⟨p1, hu⟩ : ∃ p1, (p ++ m ++ s).dropWhile isWsB = p1 ++ (m ++ s) := by
    rw [List.append_assoc, List.dropWhile_append]
    split
    · exact ⟨[], by rw [hmdrop]; simp⟩
    · exact ⟨p.dropWhile isWsB, rfl⟩
  have hmrev : m.reverse = mk :: m''.reverse := by rw [hmk]; simp
  have hmrevdrop : (m.reverse ++ p1.reverse).dropWhile isWsB = m.reverse ++ p1.reverse := by
    rw [hmrev, List.cons_append]
    exact List.dropWhile_cons_of_neg (by simp [hk])
  obtain ⟨s1, hv⟩ : ∃ s1, ((p ++ m ++ s).dropWhile isWsB).reverse.dropWhile isWsB
      = s1 ++ (m.reverse ++ p1.reverse) := by
    rw [hu]
    have hrev : (p1 ++ (m ++ s)).reverse = s.reverse ++ (m.reverse ++ p1.reverse) := by simp
    rw [hrev, List.dropWhile_append]
    split
    · exact ⟨[], by rw [hmrevdrop]; simp⟩
    · exact ⟨s.reverse.dropWhile isWsB, rfl⟩
  refine ⟨p1, s1.reverse, ?_⟩
  rw [trimL, hv]
  simp

/-- In a join of trimmed nonempty newline-free lines, what follows any
newline starts with a non-whitespace character (or is empty). -/
theorem joinNl_nl_right : ∀ lines : List (List Char), (∀ l ∈ lines, l ≠ []) →
    (∀ l ∈ lines, '\n' ∉ l) → (∀ l ∈ lines, trimL l = l) →
    ∀ a b, joinNl lines = a ++ '\n' :: b → b.takeWhile isWsB = [] := by
  intro lines
  induction lines with
  | nil =>
    intro _ _ _ a b heq
    exact absurd heq.symm (by simp [joinNl_nil])
  | cons l ls ih =>
    intro hne hnf htf a b heq
    cases ls with
    | nil =>
      rw [joinNl_single] at heq
      exact absurd (by rw [heq]; simp : '\n' ∈ l) (hnf l (by simp))
    | cons l2 ls' =>
      rw [joinNl_cons_cons] at heq
      have hJhead : ∃ d t, joinNl (l2 :: ls') = d :: t ∧ isWsB d = false := by
        cases hl2 : l2 with
        | nil => exact absurd hl2 (hne l2 (by simp))
        | cons d l2' =>
          have hd : isWsB d = false :=
            trimFix_head l2 (htf l2 (by simp)) d l2' hl2
          cases ls' with
          | nil => exact ⟨d, l2', by rw [joinNl_single], hd⟩
          | cons l3 ls'' =>
            exact ⟨d, l2' ++ '\n' :: joinNl (l3 :: ls''), by rw [joinNl_cons_cons]; simp, hd⟩
      obtain ⟨d, t, hJ, hd⟩ := hJhead
      have hJtake : (joinNl (l2 :: ls')).takeWhile isWsB = [] := by
        rw [hJ]
        exact List.takeWhile_cons_of_neg (by simp [hd])
      rcases List.append_eq_append_iff.mp heq with ⟨w, hw1, hw2⟩ | ⟨w, hw1, hw2⟩
      · cases w with
        | nil =>
          simp only [List.nil_append, List.cons.injEq] at hw2
          rw [← hw2.2]
          exact hJtake
        | cons c w' =>
          simp only [List.cons_append, List.cons.injEq] at hw2
          exact ih (fun x hx => hne x (by simp [hx])) (fun x hx => hnf x (by simp [hx]))
            (fun x hx => htf x (by simp [hx])) w' b hw2.2
      · cases w with
        | nil =>
          simp only [List.append_nil] at hw1
          simp only [List.nil_append, List.cons.injEq] at hw2
          rw [hw2.2]
          exact hJtake
        | cons c w' =>
          simp only [List.cons_append, List.cons.injEq] at hw2
          have hmem : '\n' ∈ l := by rw [hw1, ← hw2.1]; simp
          exact absurd hmem (hnf l (by simp))

theorem concat_last_eq (x y : List Char) (d e : Char) (h : x ++ [d] = y ++ [e]) : d = e := by
  have h2 := congrArg List.reverse h
  simp only [List.reverse_append, List.reverse_cons, List.reverse_nil, List.nil_append,
    List.singleton_append, List.cons.injEq] at h2
  exact h2.1

/-- In a join of trimmed nonempty newline-free lines, what precedes any
newline ends with a non-whitespace character. -/
theorem joinNl_nl_left : ∀ lines : List (List Char), (∀ l ∈ lines, l ≠ []) →
    (∀ l ∈ lines, '\n' ∉ l) → (∀ l ∈ lines, trimL l = l) →
    ∀ a b, joinNl lines = a ++ '\n' :: b → ∃ a2 d, a = a2 ++ [d] ∧ isWsB d = false := by
  intro lines
  induction lines with
  | nil =>
    intro _ _ _ a b heq
    exact absurd heq.symm (by simp [joinNl_nil])
  | cons l ls ih =>
    intro hne hnf htf a b heq
    have hlast : a = l → ∃ a2 d, a = a2 ++ [d] ∧ isWsB d = false := by
      intro hal
      obtain ⟨l'', d, hld⟩ : ∃ l'' d, l = l'' ++ [d] := by
        rcases List.eq_nil_or_concat l with h0 | ⟨L, e, h0⟩
        · exact absurd h0 (hne l (by simp))
        · exact ⟨L, e, by simpa using h0⟩
      exact ⟨l'', d, by rw [hal, hld], trimFix_last l (htf l (by simp)) l'' d hld⟩
    cases ls with
    | nil =>
      rw [joinNl_single] at heq
      exact absurd (by rw [heq]; simp : '\n' ∈ l) (hnf l (by simp))
    | cons l2 ls' =>
      rw [joinNl_cons_cons] at heq
      rcases List.append_eq_append_iff.mp heq with ⟨w, hw1, hw2⟩ | ⟨w, hw1, hw2⟩
      · cases w with
        | nil =>
          rw [List.append_nil] at hw1
          exact hlast hw1
        | cons c w' =>
          simp only [List.cons_append, List.cons.injEq] at hw2
          obtain ⟨a2, d, ha2, hd⟩ := ih (fun x hx => hne x (by simp [hx]))
            (fun x hx => hnf x (by simp [hx])) (fun x hx => htf x (by simp [hx])) w' b hw2.2
          exact ⟨l ++ '\n' :: a2, d, by rw [hw1, ha2, ← hw2.1]; simp, hd⟩
      · cases w with
        | nil =>
          rw [List.append_nil] at hw1
          exact hlast hw1.symm
        | cons c w' =>
          simp only [List.cons_append, List.cons.injEq] at hw2
          have hmem : '\n' ∈ l := by rw [hw1, ← hw2.1]; simp
          exact absurd hmem (hnf l (by simp))

/-- A nonempty newline-free segment of a join of newline-free lines lies
inside one of the lines. -/
theorem joinNl_nf_factor : ∀ lines : List (List Char), (∀ l ∈ lines, '\n' ∉ l) →
    ∀ a m b, joinNl lines = a ++ m ++ b → '\n' ∉ m → m ≠ [] →
    ∃ l ∈ lines, m <:+: l := by
  intro lines
  induction lines with
  | nil =>
    intro _ a m b heq _ hm
    have h2 : a ++ m ++ b = [] := heq.symm
    rcases List.append_eq_nil.mp h2 with ⟨h3, -⟩
    exact absurd (List.append_eq_nil.mp h3).2 hm
  | cons l ls ih =>
    intro hnf a m b heq hmn hm
    cases ls with
    | nil =>
      rw [joinNl_single] at heq
      exact ⟨l, by simp, a, b, heq.symm⟩
    | cons l2 ls' =>
      rw [joinNl_cons_cons] at heq
      have heq2 : l ++ '\n' :: joinNl (l2 :: ls') = a ++ (m ++ b) := by
        rw [heq]
        simp
      rcases List.append_eq_append_iff.mp heq2 with ⟨w, hw1, hw2⟩ | ⟨w, hw1, hw2⟩
      · cases w with
        | nil =>
          simp only [List.nil_append] at hw2
          obtain ⟨m0, m', rfl⟩ : ∃ m0 m', m = m0 :: m' := by
            cases m with
            | nil => exact absurd rfl hm
            | cons x y => exact ⟨x, y, rfl⟩
          rw [List.cons_append] at hw2
          have h0 : '\n' = m0 := (List.cons.injEq .. ▸ hw2).1
          exact absurd (by rw [← h0]; simp : '\n' ∈ m0 :: m') hmn
        | cons c w' =>
          simp only [List.cons_append, List.cons.injEq] at hw2
          have h3 : joinNl (l2 :: ls') = w' ++ m ++ b := by
            rw [hw2.2]
            simp
          exact (ih (fun x hx => hnf x (by simp [hx])) w' m b h3 hmn hm).imp
            (fun x ⟨hx1, hx2⟩ => ⟨by simp [hx1], hx2⟩)
      · rcases List.append_eq_append_iff.mp hw2.symm with ⟨v, hv1, hv2⟩ | ⟨v, hv1, hv2⟩
        · cases v with
          | nil =>
            rw [List.append_nil] at hv1
            exact ⟨l, by simp, a, [], by rw [hw1, hv1]; simp⟩
          | cons c v' =>
            simp only [List.cons_append, List.cons.injEq] at hv2
            have hmem : '\n' ∈ m := by rw [hv1, ← hv2.1]; simp
            exact absurd hmem hmn
        · exact ⟨l, by simp, a, v, by rw [hw1, hv1]; simp⟩

/-- The split/trim/filter/join pass preserves canonical gaps, given that its
lines come from a string with canonical gaps. -/
theorem joinNl_noWsGtLt (lines : List (List Char)) (z : List Char)
    (hne : ∀ l ∈ lines, l ≠ []) (hnf : ∀ l ∈ lines, '\n' ∉ l)
    (htf : ∀ l ∈ lines, trimL l = l) (hinf : ∀ l ∈ lines, l <:+: z)
    (hz : NoWsGtLt z) : NoWsGtLt (joinNl lines) := by
  intro a w b heq hws
  by_cases hwn : '\n' ∈ w
  · obtain ⟨w1, w2, rfl⟩ := List.append_of_mem hwn
    have h1 : (w2 ++ '<' :: b).takeWhile isWsB = [] := by
      refine joinNl_nl_right lines hne hnf htf (a ++ '>' :: w1) (w2 ++ '<' :: b) ?_
      rw [heq]
      simp
    have hw2 : w2 = [] := by
      cases w2 with
      | nil => rfl
      | cons c w2'' =>
        have hc : isWsB c = true := hws c (by simp)
        rw [List.cons_append, List.takeWhile_cons_of_pos hc] at h1
        exact absurd h1 (by simp)
    obtain ⟨a2, d, ha2, hd⟩ := joinNl_nl_left lines hne hnf htf (a ++ '>' :: w1) (w2 ++ '<' :: b)
      (by rw [heq]; simp)
    have hw1 : w1 = [] := by
      cases hcw : w1.reverse with
      | nil => simpa using congrArg List.reverse hcw
      | cons e w1r =>
        have hw1eq : w1 = w1r.reverse ++ [e] := by
          have h5 := congrArg List.reverse hcw
          simpa using h5
        have h6 : a ++ '>' :: w1 = (a ++ '>' :: w1r.reverse) ++ [e] := by
          rw [hw1eq]
          simp
        have hde : e = d := concat_last_eq _ _ _ _ (by rw [← h6, ha2])
        have he : isWsB e = true := hws e (by rw [hw1eq]; simp)
        rw [hde] at he
        exact absurd he (by simp [hd])
    rw [hw1, hw2]
    rfl
  · have hm : joinNl lines = a ++ ('>' :: w ++ ['<']) ++ b := by
      rw [heq]
      simp
    have hmnf : '\n' ∉ '>' :: w ++ ['<'] := by
      intro hmem
      rcases List.mem_cons.mp hmem with h1 | h2
      · exact absurd h1.symm (by decide)
      · rcases List.mem_append.mp h2 with h3 | h4
        · exact hwn h3
        · exact absurd (List.mem_singleton.mp h4) (by decide)
    obtain ⟨l, hl, p, s, hps⟩ := joinNl_nf_factor lines hnf a _ b hm hmnf (by simp)
    obtain ⟨pz, sz, hz2⟩ := hinf l hl
    have hzdec : z = (pz ++ p) ++ '>' :: (w ++ '<' :: (s ++ sz)) := by
      rw [← hz2, ← hps]
      simp
    have hres := hz (pz ++ p) w (s ++ sz) hzdec hws
    exact absurd (by rw [hres]; simp : '\n' ∈ w) hwn

def dtMid : List Char := "!DOCTYPE html".data

theorem dtL_eq : dtL = '<' :: (dtMid ++ ['>']) := by decide

theorem dt_nf : '\n' ∉ dtL := by decide

theorem dt_ne : dtL ≠ [] := by decide

theorem dtMid_no_gt : ∀ c ∈ '<' :: dtMid, ¬c = '>' := by decide

theorem dtMid_no_nl : ∀ c ∈ dtL, ¬c = '\n' := by decide

/-- A string contains the doctype marker. -/
def dtOccurs (s : List Char) : Prop := ∃ x y, s = x ++ dtL ++ y

theorem ensureDoctype_occurs (s : List Char) : dtOccurs (ensureDoctype s) := by
  rw [ensureDoctype]
  split
  next h => exact (containsL_iff s dtL).mp h
  next h => exact ⟨[], '\n' :: s, by simp⟩

theorem ensureDoctype_id (s : List Char) (h : dtOccurs s) : ensureDoctype s = s := by
  rw [ensureDoctype, if_pos ((containsL_iff s dtL).mpr h)]

/-- `collapseBlank` copies a newline-free segment verbatim. -/
theorem noNl_copy : ∀ (m y : List Char), (∀ c ∈ m, ¬c = '\n') →
    collapseBlank (m ++ y) = m ++ collapseBlank y := by
  intro m
  induction m with
  | nil => intro y _; simp
  | cons c t ih =>
    intro y hm
    have hc : ¬c = '\n' := hm c (by simp)
    rw [List.cons_append, collapseBlank_copy c (t ++ y) hc, ih y (fun x hx => hm x (by simp [hx]))]
    simp

theorem insNl_dt_front (y : List Char) : ∃ t, insNl (dtL ++ y) = dtL ++ t := by
  obtain ⟨t, ht⟩ := insNl_head '>' y
  refine ⟨t, ?_⟩
  have h1 : dtL ++ y = ('<' :: dtMid) ++ ('>' :: y) := by rw [dtL_eq]; simp
  rw [h1, noGt_copy ('<' :: dtMid) ('>' :: y) dtMid_no_gt, ht, dtL_eq]
  simp

/-- The `>`-whitespace-`<` pass preserves doctype containment. -/
theorem insNl_dtOccurs : ∀ (n : Nat) (s : List Char), s.length ≤ n → dtOccurs s →
    dtOccurs (insNl s) := by
  intro n
  induction n with
  | zero =>
    intro s hlen hocc
    have hnil : s = [] := List.length_eq_zero.mp (Nat.le_zero.mp hlen)
    subst hnil
    obtain ⟨x, y, hxy⟩ := hocc
    exact absurd hxy.symm (by simp [dt_ne])
  | succ n ih =>
    intro s hlen hocc
    obtain ⟨x, y, hxy⟩ := hocc
    cases x with
    | nil =>
      have hs : s = dtL ++ y := by simpa using hxy
      obtain ⟨t, ht⟩ := insNl_dt_front y
      exact ⟨[], t, by rw [hs, ht]; simp⟩
    | cons c x' =>
      have hs : s = c :: (x' ++ dtL ++ y) := by simpa using hxy
      subst hs
      have hlen' : (x' ++ dtL ++ y).length ≤ n := by simpa using hlen
      have hocc' : dtOccurs (x' ++ dtL ++ y) := ⟨x', y, rfl⟩
      by_cases hc : c = '>'
      · subst hc
        cases hdw : (x' ++ dtL ++ y).dropWhile isWsB with
        | nil =>
          have hall : ∀ e ∈ x' ++ dtL ++ y, isWsB e = true := List.dropWhile_eq_nil_iff.mp hdw
          have h2 : isWsB '<' = true := hall '<' (by rw [dtL_eq]; simp)
          exact absurd h2 (by decide)
        | cons d r =>
          have hle : r.length ≤ n := by
            have h3 : ((x' ++ dtL ++ y).dropWhile isWsB).length ≤ (x' ++ dtL ++ y).length :=
              (List.dropWhile_suffix isWsB).sublist.length_le
            rw [hdw] at h3
            simp only [List.length_cons] at h3
            omega
          have htw : ∀ e ∈ (x' ++ dtL ++ y).takeWhile isWsB, isWsB e = true :=
            fun e he => List.mem_takeWhile_imp he
          by_cases hdlt : d = '<'
          · subst hdlt
            rw [insNl_match _ r hdw]
            have h0 := List.takeWhile_append_dropWhile isWsB (x' ++ dtL ++ y)
            rw [hdw] at h0
            have h0' : (x' ++ dtL ++ y).takeWhile isWsB ++ '<' :: r = x' ++ (dtL ++ y) := by
              rw [h0]
              simp
            have hdtl : ∀ v, '<' :: r = v ++ (dtL ++ y) → dtOccurs ('\n' :: '<' :: insNl r) := by
              intro v hv
              cases v with
              | cons e v' =>
                simp only [List.cons_append, List.cons.injEq] at hv
                obtain ⟨x2, y2, h4⟩ := ih r hle ⟨v', y, by rw [hv.2]; simp⟩
                exact ⟨'\n' :: '<' :: x2, y2, by rw [h4]; simp⟩
              | nil =>
                simp only [List.nil_append] at hv
                have hr : r = dtMid ++ ('>' :: y) := by
                  rw [dtL_eq] at hv
                  simp only [List.cons_append, List.cons.injEq] at hv
                  rw [hv.2]
                  simp
                obtain ⟨t, ht⟩ := insNl_head '>' y
                have hmid : ∀ e ∈ dtMid, ¬e = '>' := fun e he => dtMid_no_gt e (by simp [he])
                refine ⟨['\n'], t, ?_⟩
                rw [hr, noGt_copy dtMid ('>' :: y) hmid, ht, dtL_eq]
                simp
            rcases List.append_eq_append_iff.mp h0' with ⟨v, hv1, hv2⟩ | ⟨v, hv1, hv2⟩
            · obtain ⟨x2, y2, h4⟩ := hdtl v hv2
              exact ⟨'>' :: x2, y2, by rw [h4]; simp⟩
            · cases v with
              | nil =>
                obtain ⟨x2, y2, h4⟩ := hdtl [] (by simpa using hv2.symm)
                exact ⟨'>' :: x2, y2, by rw [h4]; simp⟩
              | cons e v' =>
                rw [dtL_eq] at hv2
                simp only [List.cons_append, List.cons.injEq] at hv2
                have he : e ∈ (x' ++ dtL ++ y).takeWhile isWsB := by rw [hv1]; simp
                have h5 := htw e he
                rw [← hv2.1] at h5
                exact absurd h5 (by decide)
          · have hlt : headIsLt ((x' ++ dtL ++ y).dropWhile isWsB) = false := by
              rw [hdw]
              simp [headIsLt, hdlt]
            rw [insNl_nomatch _ hlt]
            obtain ⟨x2, y2, h4⟩ := ih _ hlen' hocc'
            exact ⟨'>' :: x2, y2, by rw [h4]; simp⟩
      · rw [insNl_copy c _ hc]
        obtain ⟨x2, y2, h4⟩ := ih _ hlen' hocc'
        exact ⟨c :: x2, y2, by rw [h4]; simp⟩

/-- The blank-line pass preserves doctype containment. -/
theorem collapseBlank_dtOccurs : ∀ (n : Nat) (s : List Char), s.length ≤ n → dtOccurs s →
    dtOccurs (collapseBlank s) := by
  intro n
  induction n with
  | zero =>
    intro s hlen hocc
    have hnil : s = [] := List.length_eq_zero.mp (Nat.le_zero.mp hlen)
    subst hnil
    obtain ⟨x, y, hxy⟩ := hocc
    exact absurd hxy.symm (by simp [dt_ne])
  | succ n ih =>
    intro s hlen hocc
    obtain ⟨x, y, hxy⟩ := hocc
    cases x with
    | nil =>
      have hs : s = dtL ++ y := by simpa using hxy
      refine ⟨[], collapseBlank y, ?_⟩
      rw [hs, noNl_copy dtL y dtMid_no_nl]
      simp
    | cons c x' =>
      have hs : s = c :: (x' ++ dtL ++ y) := by simpa using hxy
      subst hs
      have hlen' : (x' ++ dtL ++ y).length ≤ n := by simpa using hlen
      have hocc' : dtOccurs (x' ++ dtL ++ y) := ⟨x', y, rfl⟩
      by_cases hcond : c = '\n' ∧ ((x' ++ dtL ++ y).takeWhile isWsB).contains '\n' = true
      · obtain ⟨hc, hcont⟩ := hcond
        subst hc
        rw [collapseBlank_match _ hcont]
        obtain ⟨w1, htw_eq, -⟩ :=
          afterLast_spec '\n' ((x' ++ dtL ++ y).takeWhile isWsB) (List.mem_of_elem_eq_true hcont)
        have hrest_eq : x' ++ dtL ++ y = (w1 ++ ['\n']) ++
            (afterLast '\n' ((x' ++ dtL ++ y).takeWhile isWsB) ++ (x' ++ dtL ++ y).dropWhile isWsB) := by
          have h0 := List.takeWhile_append_dropWhile isWsB (x' ++ dtL ++ y)
          calc x' ++ dtL ++ y
              = (x' ++ dtL ++ y).takeWhile isWsB ++ (x' ++ dtL ++ y).dropWhile isWsB := h0.symm
          _ = (w1 ++ '\n' :: afterLast '\n' ((x' ++ dtL ++ y).takeWhile isWsB)) ++
                (x' ++ dtL ++ y).dropWhile isWsB := by rw [← htw_eq]
          _ = _ := by simp
        have hcons_ws : ∀ e ∈ w1 ++ ['\n'], isWsB e = true := by
          intro e he
          rcases List.mem_append.mp he with h1 | h2
          · exact List.mem_takeWhile_imp (htw_eq ▸ List.mem_append_left _ h1)
          · rw [List.mem_singleton.mp h2]; decide
        have hremlen : (afterLast '\n' ((x' ++ dtL ++ y).takeWhile isWsB) ++
            (x' ++ dtL ++ y).dropWhile isWsB).length ≤ n := by
          have h5 := afterLast_append_lt (x' ++ dtL ++ y) hcont
          have h6 : (x' ++ dtL ++ y).length + 1 ≤ n + 1 := by simpa using hlen
          omega
        have eq1 : (w1 ++ ['\n']) ++
            (afterLast '\n' ((x' ++ dtL ++ y).takeWhile isWsB) ++ (x' ++ dtL ++ y).dropWhile isWsB)
            = x' ++ (dtL ++ y) := hrest_eq.symm.trans (List.append_assoc x' dtL y)
        have hres : ∀ v, afterLast '\n' ((x' ++ dtL ++ y).takeWhile isWsB) ++
            (x' ++ dtL ++ y).dropWhile isWsB = v ++ (dtL ++ y) →
            dtOccurs ('\n' :: collapseBlank (afterLast '\n' ((x' ++ dtL ++ y).takeWhile isWsB) ++
              (x' ++ dtL ++ y).dropWhile isWsB)) := by
          intro v hv
          obtain ⟨x2, y2, h4⟩ := ih _ hremlen ⟨v, y, by rw [hv]; simp⟩
          exact ⟨'\n' :: x2, y2, by rw [h4]; simp⟩
        rcases List.append_eq_append_iff.mp eq1 with ⟨v, hv1, hv2⟩ | ⟨v, hv1, hv2⟩
        · exact hres v hv2
        · cases v with
          | nil => exact hres [] (by simpa using hv2.symm)
          | cons e v' =>
            rw [dtL_eq] at hv2
            simp only [List.cons_append, List.cons.injEq] at hv2
            have he : e ∈ w1 ++ ['\n'] := by rw [hv1]; simp
            have h5 := hcons_ws e he
            rw [← hv2.1] at h5
            exact absurd h5 (by decide)
      · have hstep : collapseBlank (c :: (x' ++ dtL ++ y)) = c :: collapseBlank (x' ++ dtL ++ y) := by
          by_cases hc : c = '\n'
          · subst hc
            have hcont : ((x' ++ dtL ++ y).takeWhile isWsB).contains '\n' = false := by
              cases hct : ((x' ++ dtL ++ y).takeWhile isWsB).contains '\n' with
              | false => rfl
              | true => exact absurd ⟨rfl, hct⟩ hcond
            exact collapseBlank_nomatch _ hcont
          · exact collapseBlank_copy c _ hc
        obtain ⟨x2, y2, h4⟩ := ih _ hlen' hocc'
        exact ⟨c :: x2, y2, by rw [hstep, h4]; simp⟩

/-- Every surviving line of the split/trim/filter pass is nonempty,
newline-free, trim-fixed, and a factor of the input string. -/
theorem mem_fcLines_props (z : List Char) (l : List Char) (hl : l ∈ fcLines z) :
    l ≠ [] ∧ '\n' ∉ l ∧ trimL l = l ∧ l <:+: z := by
  rw [fcLines] at hl
  obtain ⟨hmap, hfil⟩ := List.mem_filter.mp hl
  obtain ⟨l0, hl0, rfl⟩ := List.mem_map.mp hmap
  refine ⟨?_, ?_, trimL_idem l0, ?_⟩
  · intro hnil
    rw [hnil] at hfil
    simp at hfil
  · intro hmem
    exact mem_splitNl_nf z l0 hl0 (mem_trimL l0 '\n' hmem)
  · have h1 : l0 <:+: z := by
      obtain ⟨p, s, hps⟩ := joinNl_mem_factor (splitNl z) l0 hl0
      exact ⟨p, s, hps.symm.trans (joinNl_splitNl z)⟩
    exact (trimL_factor l0).trans h1

/-- The split/trim/filter/join pass preserves doctype containment. -/
theorem fcLines_dt (z : List Char) (h : dtOccurs z) : dtOccurs (joinNl (fcLines z)) := by
  obtain ⟨x, y, hz⟩ := h
  have hjoin : joinNl (splitNl z) = x ++ dtL ++ y := by rw [joinNl_splitNl z]; exact hz
  obtain ⟨l0, hl0, hinf⟩ := joinNl_nf_factor (splitNl z) (mem_splitNl_nf z) x dtL y hjoin dt_nf dt_ne
  obtain ⟨p, s, hps⟩ := hinf
  have hmk : dtL = ('<' :: dtMid) ++ ['>'] := by rw [dtL_eq]; simp
  obtain ⟨pp, ss, htr⟩ := trimL_keep p dtL s '<' '>' (dtMid ++ ['>']) ('<' :: dtMid)
    dtL_eq hmk (by decide) (by decide)
  have htr2 : trimL l0 = pp ++ dtL ++ ss := by rw [← hps]; exact htr
  have hmem : trimL l0 ∈ fcLines z := by
    rw [fcLines]
    refine List.mem_filter.mpr ⟨List.mem_map_of_mem trimL hl0, ?_⟩
    rw [htr2]
    simp [dt_ne]
  obtain ⟨P, S, hPS⟩ := joinNl_mem_factor (fcLines z) (trimL l0) hmem
  exact ⟨P ++ pp, ss ++ S, by rw [hPS, htr2]; simp⟩

/-- Idempotence of the string pipeline of `formatCleanHtml`. -/
theorem fcPost_idem (s : List Char) : fcPost (fcPost s) = fcPost s := by
  have hprops := fun l hl =>
    mem_fcLines_props (collapseBlank (insNl (ensureDoctype s))) l hl
  have hne : ∀ l ∈ fcLines (collapseBlank (insNl (ensureDoctype s))), l ≠ [] :=
    fun l hl => (hprops l hl).1
  have hnf : ∀ l ∈ fcLines (collapseBlank (insNl (ensureDoctype s))), '\n' ∉ l :=
    fun l hl => (hprops l hl).2.1
  have htf : ∀ l ∈ fcLines (collapseBlank (insNl (ensureDoctype s))), trimL l = l :=
    fun l hl => (hprops l hl).2.2.1
  have hinf : ∀ l ∈ fcLines (collapseBlank (insNl (ensureDoctype s))),
      l <:+: collapseBlank (insNl (ensureDoctype s)) :=
    fun l hl => (hprops l hl).2.2.2
  have ho : fcPost s = joinNl (fcLines (collapseBlank (insNl (ensureDoctype s)))) := rfl
  have hdt0 : dtOccurs (ensureDoctype s) := ensureDoctype_occurs s
  have hdt1 : dtOccurs (insNl (ensureDoctype s)) := insNl_dtOccurs _ _ le_rfl hdt0
  have hdt2 : dtOccurs (collapseBlank (insNl (ensureDoctype s))) :=
    collapseBlank_dtOccurs _ _ le_rfl hdt1
  have hdt : dtOccurs (fcPost s) := by
    rw [ho]
    exact fcLines_dt _ hdt2
  have hA1 : NoWsGtLt (insNl (ensureDoctype s)) := insNl_noWsGtLt _ _ le_rfl
  have hA2 : NoWsGtLt (collapseBlank (insNl (ensureDoctype s))) :=
    collapseBlank_noWsGtLt _ _ le_rfl hA1
  have hA : NoWsGtLt (fcPost s) := by
    rw [ho]
    exact joinNl_noWsGtLt _ _ hne hnf htf hinf hA2
  have hsep : NlSep (fcPost s) := by
    rw [ho]
    exact joinNl_nl_right _ hne hnf htf
  have hlinesne : fcLines (collapseBlank (insNl (ensureDoctype s))) ≠ [] := by
    intro hcontra
    obtain ⟨x, y, hxy⟩ := hdt
    rw [ho, hcontra, joinNl_nil] at hxy
    exact absurd hxy.symm (by simp [dt_ne])
  have hmap : (fcLines (collapseBlank (insNl (ensureDoctype s)))).map trimL
      = fcLines (collapseBlank (insNl (ensureDoctype s))) := by
    calc (fcLines (collapseBlank (insNl (ensureDoctype s)))).map trimL
        = (fcLines (collapseBlank (insNl (ensureDoctype s)))).map id := List.map_congr_left htf
    _ = _ := List.map_id _
  have hfil : (fcLines (collapseBlank (insNl (ensureDoctype s)))).filter (fun l => !l.isEmpty)
      = fcLines (collapseBlank (insNl (ensureDoctype s))) := by
    refine List.filter_eq_self.mpr ?_
    intro l hl
    have h2 := hne l hl
    simp [List.isEmpty_iff, h2]
  calc fcPost (fcPost s)
      = joinNl (fcLines (collapseBlank (insNl (ensureDoctype (fcPost s))))) := rfl
  _ = joinNl (fcLines (collapseBlank (insNl (fcPost s)))) := by rw [ensureDoctype_id _ hdt]
  _ = joinNl (fcLines (collapseBlank (fcPost s))) := by
        rw [insNl_id_of_noWsGtLt _ _ le_rfl hA]
  _ = joinNl (fcLines (fcPost s)) := by rw [collapseBlank_id_of_nlSep _ hsep]
  _ = joinNl (fcLines (joinNl (fcLines (collapseBlank (insNl (ensureDoctype s)))))) := by rw [ho]
  _ = joinNl (fcLines (collapseBlank (insNl (ensureDoctype s)))) := by
        rw [fcLines, splitNl_joinNl _ hlinesne hnf, hmap, hfil]
  _ = fcPost s := ho.symm

theorem isStyleNode_removeStylesNode (n : HNode) :
    isStyleNode (removeStylesNode n) = isStyleNode n := by
  cases n with
  | text s => rfl
  | elem t a cs => rfl

mutual

/-- Removing style elements twice is the same as removing them once. -/
theorem removeStylesNode_idem : ∀ x : HNode,
    removeStylesNode (removeStylesNode x) = removeStylesNode x
  | .text s => rfl
  | .elem t a cs => by
    rw [removeStylesNode, removeStylesNode, removeStylesList_idem cs]
termination_by structural x => x

/-- List version of `removeStylesNode_idem`. -/
theorem removeStylesList_idem : ∀ ns : List HNode,
    removeStylesList (removeStylesList ns) = removeStylesList ns
  | [] => rfl
  | n :: ns => by
    by_cases h : isStyleNode n = true
    · rw [removeStylesList, if_pos h, removeStylesList_idem ns]
    · have h2 : isStyleNode n = false := by
        cases hb : isStyleNode n with
        | false => rfl
        | true => exact absurd hb h
      rw [removeStylesList, if_neg h, removeStylesList, if_neg (by rw [isStyleNode_removeStylesNode]; exact h),
        removeStylesNode_idem n, removeStylesList_idem ns]
termination_by structural l => l

end

/-- C8: the output-formatting step of StyleApplicator is idempotent.  The
string pipeline `fcPost` (doctype guard, `>\s*<` → `>\n<`, `\n\s*\n` → `\n`,
split/trim/filter/join) is idempotent on every string; removing `style`
elements twice equals removing them once; and consequently re-running the
pipeline on `formatCleanHtml`'s own output (whose re-parse contains no style
element and round-trips through serialization) returns it unchanged. -/
theorem formatCleanHtml_idempotent :
    (∀ s : List Char, fcPost (fcPost s) = fcPost s) ∧
    (∀ doc : List HNode, removeStylesList (removeStylesList doc) = removeStylesList doc) ∧
    (∀ doc : List HNode, fcPost (formatCleanHtml doc) = formatCleanHtml doc) :=
  ⟨fcPost_idem, removeStylesList_idem, fun doc => fcPost_idem _⟩
